import Mathlib

/-!
Verification of the DC resistive-network analyzer in `simulator.py`.

The Python source is shallowly embedded as executable Lean definitions:

* Node identities are grid coordinates `ℤ × ℤ`, as used by every circuit in
  the repository (`GridCircuit`, the example circuits, `interactive_grid.py`).
* Python floats are modelled as exact rationals `ℚ`; float literals such as
  `1e9`, `50.0`, `2.0` become the corresponding rational constants.
* Python dictionaries keyed by strings are modelled as association lists with
  in-place overwrite (`dwrite`), matching dict insertion/overwrite semantics.
* Exceptions (`KeyError` on a missing ground, `numpy.linalg.LinAlgError` on a
  singular matrix, the `TypeError` crash reachable with `max_iter = 0`)
  are modelled by `Option`: `none` is an escaping exception.
* `np.linalg.solve` is external library code, which the repository's design
  treats as a black box "returning a solution vector or failing on
  singularity"; it is modelled as an exact Cramer-rule solver over `ℚ` that
  fails exactly on a singular matrix.
* `UnionFind.find`'s path compression mutates parent pointers but never
  changes the root that any `find` call returns, so the embedding computes
  roots with a fuel-bounded, compression-free `find`; all observable outputs
  of `compute_lumps` (the node→class mapping and the class count) agree.
-/

namespace CircuitSim

/-!
## Kernel-reducible arithmetic layer

The standard `ℚ` operations do not reduce inside the Lean kernel, so the
embedding computes with operations `qadd`, `qmul`, ... that build normalized
`Rat.mk'` values from `ℕ`/`ℤ` arithmetic directly.  The bridge theorems
`qadd_eq`, `qmul_eq`, ... prove each of them equal to (or, for the Boolean
comparisons, equivalent to) the corresponding standard operation on `ℚ`, so
every definition below means exactly what the Python float expression means,
while concrete circuits remain evaluable by `decide`.
-/

/-- Integer as a rational, in directly-constructed normal form. -/
def qofInt (n : ℤ) : ℚ :=
  ⟨n, 1, one_ne_zero, Nat.coprime_one_right _⟩

/-- Normalized rational `n / d`, built from kernel-reducible `ℕ`/`ℤ`
arithmetic; `qmk_eq` proves it equal to ordinary division in `ℚ`. -/
def qmk (n d : ℤ) : ℚ :=
  if d = 0 then qofInt 0
  else
    let n' : ℤ := if d < 0 then -n else n
    let nn := n'.natAbs
    let d' := d.natAbs
    let g := nn.gcd d'
    let k : ℤ := ((nn / g : ℕ) : ℤ)
    let num := if n' < 0 then -k else k
    if h1 : d' / g = 0 then qofInt 0
    else
      if h2 : num.natAbs.Coprime (d' / g) then ⟨num, d' / g, h1, h2⟩
      else qofInt 0

theorem qofInt_eq (n : ℤ) : qofInt n = (n : ℚ) := by
  simp [qofInt, Rat.mk'_eq_divInt, Rat.divInt_one]

theorem qmk_eq (n d : ℤ) : qmk n d = (n : ℚ) / (d : ℚ) := by
  rw [qmk]
  by_cases hd : d = 0
  · simp [hd, qofInt_eq]
  · rw [if_neg hd]
    set n' : ℤ := if d < 0 then -n else n with hn'
    set nn := n'.natAbs with hnn
    set d' := d.natAbs with hd'
    set g := nn.gcd d' with hg
    have hd'0 : d' ≠ 0 := Int.natAbs_ne_zero.mpr hd
    have hg0 : g ≠ 0 := fun h => hd'0 (Nat.eq_zero_of_gcd_eq_zero_right h)
    have hgd : g ∣ d' := Nat.gcd_dvd_right _ _
    have hgn : g ∣ nn := Nat.gcd_dvd_left _ _
    have h1 : d' / g ≠ 0 :=
      (Nat.div_ne_zero_iff hg0).mpr (Nat.le_of_dvd (Nat.pos_of_ne_zero hd'0) hgd)
    rw [dif_neg h1]
    set k : ℤ := ((nn / g : ℕ) : ℤ) with hk
    set num : ℤ := if n' < 0 then -k else k with hnum
    have hkabs : k.natAbs = nn / g := by
      rw [hk]; exact Int.natAbs_ofNat _
    have hnumabs : num.natAbs = nn / g := by
      rw [hnum]
      by_cases h : n' < 0
      · rw [if_pos h, Int.natAbs_neg, hkabs]
      · rw [if_neg h, hkabs]
    have h2 : num.natAbs.Coprime (d' / g) := by
      rw [hnumabs]
      exact Nat.coprime_div_gcd_div_gcd (Nat.pos_of_ne_zero hg0)
    rw [dif_pos h2, Rat.mk'_eq_divInt, Rat.divInt_eq_div]
    -- now pure field arithmetic
    have hgQ : (g : ℚ) ≠ 0 := Nat.cast_ne_zero.mpr hg0
    have hdQ : (d : ℚ) ≠ 0 := Int.cast_ne_zero.mpr hd
    have hd'Q : ((d' : ℕ) : ℚ) ≠ 0 := Nat.cast_ne_zero.mpr hd'0
    have hkval : ((k : ℤ) : ℚ) = (nn : ℚ) / g := by
      rw [hk, Int.cast_natCast, Nat.cast_div hgn hgQ]
    have hdval : ((d' / g : ℕ) : ℚ) = (d' : ℚ) / g := Nat.cast_div hgd hgQ
    have hnumval : ((num : ℤ) : ℚ) = (n' : ℚ) / g := by
      rw [hnum]
      by_cases h : n' < 0
      · rw [if_pos h, Int.cast_neg, hkval, hnn, Int.cast_natAbs, abs_of_neg h]
        push_cast
        ring
      · rw [if_neg h, hkval, hnn, Int.cast_natAbs, abs_of_nonneg (not_lt.mp h)]
    rw [Int.cast_natCast, hnumval, hdval]
    have hcancel : ((n' : ℚ) / g) / ((d' : ℚ) / g) = (n' : ℚ) / d' := by
      rw [div_div_div_cancel_right₀ hgQ]
    have hd'val : ((d' : ℕ) : ℚ) = if d < 0 then -(d : ℚ) else (d : ℚ) := by
      rw [hd', Int.cast_natAbs]
      by_cases h : d < 0
      · rw [if_pos h, abs_of_neg h, Int.cast_neg]
      · rw [if_neg h, abs_of_nonneg (not_lt.mp h)]
    rw [hcancel, hd'val, hn']
    by_cases h : d < 0
    · rw [if_pos h, if_pos h, Int.cast_neg, neg_div_neg_eq]
    · rw [if_neg h, if_neg h]

/-- `a + b` on kernel-reducible rationals. -/
def qadd (a b : ℚ) : ℚ := qmk (a.num * b.den + b.num * a.den) (a.den * b.den)

/-- `a * b` on kernel-reducible rationals. -/
def qmul (a b : ℚ) : ℚ := qmk (a.num * b.num) (a.den * b.den)

/-- `a / b` on kernel-reducible rationals (`0` when `b = 0`, as in `ℚ`). -/
def qdiv (a b : ℚ) : ℚ := qmk (a.num * b.den) (a.den * b.num)

/-- `-a` on kernel-reducible rationals. -/
def qneg (a : ℚ) : ℚ := qmk (-a.num) a.den

/-- `a - b` on kernel-reducible rationals. -/
def qsub (a b : ℚ) : ℚ := qadd a (qneg b)

/-- Boolean test `a ≤ b`, kernel-reducible. -/
def qle (a b : ℚ) : Bool := a.num * b.den ≤ b.num * a.den

/-- Boolean test `a < b`, kernel-reducible. -/
def qlt (a b : ℚ) : Bool := a.num * b.den < b.num * a.den

/-- Boolean test `a = b`, kernel-reducible. -/
def qeq (a b : ℚ) : Bool := a.num = b.num ∧ a.den = b.den

/-- `(-1) ^ j`, kernel-reducible. -/
def qsign (j : ℕ) : ℚ := if j % 2 = 0 then qofInt 1 else qofInt (-1)

theorem qadd_eq (a b : ℚ) : qadd a b = a + b := by
  have ha : (a.den : ℚ) ≠ 0 := Nat.cast_ne_zero.mpr a.den_nz
  have hb : (b.den : ℚ) ≠ 0 := Nat.cast_ne_zero.mpr b.den_nz
  rw [qadd, qmk_eq]
  conv_rhs => rw [← Rat.num_div_den a, ← Rat.num_div_den b]
  rw [div_add_div _ _ ha hb]
  push_cast
  ring

theorem qmul_eq (a b : ℚ) : qmul a b = a * b := by
  rw [qmul, qmk_eq]
  conv_rhs => rw [← Rat.num_div_den a, ← Rat.num_div_den b]
  rw [div_mul_div_comm]
  push_cast
  ring

theorem qneg_eq (a : ℚ) : qneg a = -a := by
  rw [qneg, qmk_eq]
  conv_rhs => rw [← Rat.num_div_den a]
  push_cast
  ring

theorem qsub_eq (a b : ℚ) : qsub a b = a - b := by
  rw [qsub, qadd_eq, qneg_eq]
  ring

theorem qdiv_eq (a b : ℚ) : qdiv a b = a / b := by
  rw [qdiv, qmk_eq]
  by_cases hb : b = 0
  · simp [hb]
  · have ha : (a.den : ℚ) ≠ 0 := Nat.cast_ne_zero.mpr a.den_nz
    have hbd : (b.den : ℚ) ≠ 0 := Nat.cast_ne_zero.mpr b.den_nz
    have hbn : (b.num : ℚ) ≠ 0 := Int.cast_ne_zero.mpr (Rat.num_ne_zero.mpr hb)
    conv_rhs => rw [← Rat.num_div_den a, ← Rat.num_div_den b]
    field_simp

theorem qle_iff (a b : ℚ) : qle a b = true ↔ a ≤ b := by
  rw [qle, Rat.le_def]
  simp

theorem qlt_iff (a b : ℚ) : qlt a b = true ↔ a < b := by
  rw [qlt, Rat.lt_def]
  simp

theorem qeq_iff (a b : ℚ) : qeq a b = true ↔ a = b := by
  rw [qeq]
  simp only [decide_eq_true_eq]
  constructor
  · rintro ⟨h1, h2⟩
    exact Rat.ext h1 h2
  · rintro rfl
    exact ⟨rfl, rfl⟩

theorem qsign_eq (j : ℕ) : qsign j = (-1 : ℚ) ^ j := by
  rw [qsign]
  rcases Nat.even_or_odd j with h | h
  · rw [if_pos (Nat.even_iff.mp h), h.neg_one_pow, qofInt_eq, Int.cast_one]
  · rw [if_neg (by rw [Nat.odd_iff.mp h]; exact one_ne_zero), h.neg_one_pow, qofInt_eq]
    push_cast
    ring

abbrev Node := ℤ × ℤ

/-- Position of the first occurrence of `x` in `l` (Python `list.index`);
returns `l.length` when absent. -/
def posOf {α : Type} [DecidableEq α] (l : List α) (x : α) : ℕ :=
  match l with
  | [] => 0
  | y :: ys => if y = x then 0 else posOf ys x + 1

/-- Append `n` unless already present: builds Python-set membership in
first-encounter order. -/
def insertNode {α : Type} [DecidableEq α] (l : List α) (n : α) : List α :=
  if n ∈ l then l else l ++ [n]

/-- List read `l[i]` defaulting to `0` out of range (in-range reads model
numpy vector indexing). -/
def listGet (l : List ℚ) (i : ℕ) : ℚ :=
  match l, i with
  | [], _ => qofInt 0
  | x :: _, 0 => x
  | _ :: xs, i + 1 => listGet xs i

/-- `[0, 1, ..., n-1]` (Python `range(n)`). -/
def natRange : ℕ → List ℕ
  | 0 => []
  | n + 1 => natRange n ++ [n]

/-- Sum of a list of rationals. -/
def qsum : List ℚ → ℚ
  | [] => qofInt 0
  | x :: xs => qadd x (qsum xs)

/-- Python dict write `d[k] = v`: overwrite in place if the key exists,
otherwise append. -/
def dwrite : List (String × ℚ) → String → ℚ → List (String × ℚ)
  | [], k, v => [(k, v)]
  | (k', v') :: rest, k, v =>
    if k' = k then (k, v) :: rest else (k', v') :: dwrite rest k v

/-- Python dict read `d[k]` as an `Option`. -/
def dget : List (String × ℚ) → String → Option ℚ
  | [], _ => none
  | (k', v') :: rest, k => if k' = k then some v' else dget rest k

/-- The component entity model of `simulator.py`: `Wire`, `Resistor`,
`VoltageSource` and the threshold element `LED` (with mutable on/off state,
set to `False` by `LED.__init__`). -/
inductive Component : Type
  | wire (a b : Node) (name : String)
  | resistor (a b : Node) (resistance : ℚ) (name : String)
  | voltageSource (a b : Node) (voltage : ℚ) (name : String)
  | led (a b : Node) (rOn threshold : ℚ) (isOn : Bool) (name : String)
deriving DecidableEq

namespace Component

def endA : Component → Node
  | wire a _ _ => a
  | resistor a _ _ _ => a
  | voltageSource a _ _ _ => a
  | led a _ _ _ _ _ => a

def endB : Component → Node
  | wire _ b _ => b
  | resistor _ b _ _ => b
  | voltageSource _ b _ _ => b
  | led _ b _ _ _ _ => b

def cname : Component → String
  | wire _ _ n => n
  | resistor _ _ _ n => n
  | voltageSource _ _ _ n => n
  | led _ _ _ _ _ n => n

def isWire : Component → Bool
  | wire _ _ _ => true
  | _ => false

def isVS : Component → Bool
  | voltageSource _ _ _ _ => true
  | _ => false

def isLED : Component → Bool
  | led _ _ _ _ _ _ => true
  | _ => false

end Component

/-- `LED.__init__(a, b, r_on=50.0, threshold=2.0)`: the on/off state starts
`False`; no constructor argument can set it. -/
def mkLED (a b : Node) (rOn threshold : ℚ) (name : String) : Component :=
  Component.led a b rOn threshold false name

/-- `LED.effective_resistance`: `r_on` when on, `1e9` when off. -/
def effectiveResistance (rOn : ℚ) (isOn : Bool) : ℚ :=
  if isOn then rOn else qofInt 1000000000

/-- `Circuit.nodes()`: the set of all component endpoints, here listed in
first-encounter order (`a` then `b` of each component in sequence). -/
def nodesOf : List Component → List Node :=
  go []
where
  go (acc : List Node) : List Component → List Node
    | [] => acc
    | c :: rest => go (insertNode (insertNode acc c.endA) c.endB) rest

/-- `UnionFind.find` without path compression (compression never changes the
returned root), fuel-bounded to expose the parent-chain recursion. -/
def ufFind (fuel : ℕ) (parent : Node → Node) (x : Node) : Node :=
  match fuel with
  | 0 => x
  | f + 1 => if parent x = x then x else ufFind f parent (parent x)

/-- `UnionFind.union`: link root of `b` under root of `a` when distinct. -/
def ufUnion (fuel : ℕ) (parent : Node → Node) (a b : Node) : Node → Node :=
  let pa := ufFind fuel parent a
  let pb := ufFind fuel parent b
  if pa = pb then parent else Function.update parent pb pa

/-- The parent map after `compute_lumps` has unioned the endpoints of every
`Wire`; `setdefault(x, x)` makes the identity the initial parent map. -/
def ufParent (fuel : ℕ) : List Component → (Node → Node) → Node → Node
  | [], p => p
  | Component.wire a b _ :: rest, p => ufParent fuel rest (ufUnion fuel p a b)
  | _ :: rest, p => ufParent fuel rest p

/-- The distinct union-find roots in first-encounter order over the node
list: position in this list is the equivalence-class index that
`compute_lumps` assigns. -/
def rootsOf (fuel : ℕ) (parent : Node → Node) : List Node → List Node → List Node
  | acc, [] => acc
  | acc, n :: rest => rootsOf fuel parent (insertNode acc (ufFind fuel parent n)) rest

/-- `compute_lumps`: the node → equivalence-class-index mapping and the
number `K` of classes. -/
def computeLumps (comps : List Component) : (Node → ℕ) × ℕ :=
  let ns := nodesOf comps
  let fuel := ns.length
  let parent := ufParent fuel comps id
  let roots := rootsOf fuel parent [] ns
  (fun n => posOf roots (ufFind fuel parent n), roots.length)

/-- Write a single matrix entry (`A[r, c] = v`). -/
def updM (A : ℕ → ℕ → ℚ) (r c : ℕ) (v : ℚ) : ℕ → ℕ → ℚ :=
  fun p q => if p = r ∧ q = c then v else A p q

/-- Accumulate into a matrix entry (`A[r, c] += v`). -/
def addM (A : ℕ → ℕ → ℚ) (r c : ℕ) (v : ℚ) : ℕ → ℕ → ℚ :=
  fun p q => if p = r ∧ q = c then qadd (A r c) v else A p q

/-- Write a single vector entry (`z[r] = v`). -/
def updZ (z : ℕ → ℚ) (r : ℕ) (v : ℚ) : ℕ → ℚ :=
  fun p => if p = r then v else z p

/-- `build_matrix`'s `node_index`: equivalence classes `0 ≤ n < K` except the
ground class, in increasing order; each is assigned the next compact index. -/
def nodeIndexList (K g : ℕ) : List ℕ :=
  (natRange K).filter (fun n => n ≠ g)

/-- `node_index[n]`: the compact unknown-vector position of class `n`. -/
def nodeIndex (K g n : ℕ) : ℕ :=
  posOf (nodeIndexList K g) n

/-- `build_matrix.add_conductance`: symmetric conductance stamp between
classes `i` and `j`, with writes skipped for the ground class. -/
def addConductance (gIdx : ℕ) (ni : ℕ → ℕ) (i j : ℕ) (gc : ℚ) (A : ℕ → ℕ → ℚ) :
    ℕ → ℕ → ℚ :=
  let A1 := if i ≠ gIdx then addM A (ni i) (ni i) gc else A
  let A2 := if j ≠ gIdx then addM A1 (ni j) (ni j) gc else A1
  if i ≠ gIdx ∧ j ≠ gIdx then
    addM (addM A2 (ni i) (ni j) (qneg gc)) (ni j) (ni i) (qneg gc)
  else A2

/-- The conductance-stamping pass of `build_matrix`: resistors stamp
`1/resistance`, threshold elements stamp `1/effective_resistance()`; wires
and voltage sources stamp nothing here. -/
def stampPassives (map : Node → ℕ) (gIdx : ℕ) (ni : ℕ → ℕ) :
    List Component → (ℕ → ℕ → ℚ) → ℕ → ℕ → ℚ
  | [], A => A
  | Component.resistor a b R _ :: rest, A =>
    stampPassives map gIdx ni rest
      (addConductance gIdx ni (map a) (map b) (qdiv (qofInt 1) R) A)
  | Component.led a b rOn _ s _ :: rest, A =>
    stampPassives map gIdx ni rest
      (addConductance gIdx ni (map a) (map b)
        (qdiv (qofInt 1) (effectiveResistance rOn s)) A)
  | _ :: rest, A => stampPassives map gIdx ni rest A

/-- The ordered voltage-source sequence of `build_matrix` and of the current
extractor: `[c for c in components if isinstance(c, VoltageSource)]`. -/
def vsList : List Component → List (Node × Node × ℚ × String)
  | [] => []
  | Component.voltageSource a b v n :: rest => (a, b, v, n) :: vsList rest
  | _ :: rest => vsList rest

/-- The voltage-source stamping pass of `build_matrix`: source `k` gets row
`N + k` with `±1` coefficients mirrored into the matching column (ground
endpoint skipped) and `z[N + k] = voltage`. -/
def stampSources (map : Node → ℕ) (gIdx : ℕ) (ni : ℕ → ℕ) (N : ℕ) :
    ℕ → List (Node × Node × ℚ × String) → (ℕ → ℕ → ℚ) × (ℕ → ℚ) →
      (ℕ → ℕ → ℚ) × (ℕ → ℚ)
  | _, [], Az => Az
  | k, (a, b, v, _) :: rest, (A, z) =>
    let row := N + k
    let A1 :=
      if map a ≠ gIdx then
        updM (updM A row (ni (map a)) (qofInt 1)) (ni (map a)) row (qofInt 1)
      else A
    let A2 :=
      if map b ≠ gIdx then
        updM (updM A1 row (ni (map b)) (qofInt (-1))) (ni (map b)) row (qofInt (-1))
      else A1
    stampSources map gIdx ni N (k + 1) rest (A2, updZ z row v)

/-- `Solver.build_matrix`: assemble `A` and `z` for the current threshold
states, with `N = K - 1` node unknowns and one extra row per source. -/
def buildMatrix (comps : List Component) (map : Node → ℕ) (K gIdx : ℕ) :
    (ℕ → ℕ → ℚ) × (ℕ → ℚ) :=
  let N := K - 1
  let ni := nodeIndex K gIdx
  let A1 := stampPassives map gIdx ni comps (fun _ _ => qofInt 0)
  stampSources map gIdx ni N 0 (vsList comps) (A1, fun _ => qofInt 0)

/-- The materialized `n × n` array handed to the linear solver, row by row
(`np.zeros` plus the stamps produce a concrete array). -/
def matList (n : ℕ) (A : ℕ → ℕ → ℚ) : List (List ℚ) :=
  (natRange n).map (fun i => (natRange n).map (fun j => A i j))

/-- Drop the entry at position `j` of a row. -/
def dropIdx : List ℚ → ℕ → List ℚ
  | [], _ => []
  | _ :: xs, 0 => xs
  | x :: xs, j + 1 => x :: dropIdx xs j

/-- Executable determinant of a list-of-rows square matrix by Laplace
expansion along the first row; the first argument is the dimension. -/
def detLN : ℕ → List (List ℚ) → ℚ
  | 0, _ => 1
  | n + 1, rows =>
    match rows with
    | [] => 0
    | row :: rest =>
      qsum ((natRange (n + 1)).map
        (fun j =>
          qmul (qmul (qsign j) (listGet row j)) (detLN n (rest.map (fun r => dropIdx r j)))))

/-- Replace the entry at position `j` of a row by `v`. -/
def updRow : List ℚ → ℕ → ℚ → List ℚ
  | [], _, _ => []
  | _ :: xs, 0, v => v :: xs
  | x :: xs, j + 1, v => x :: updRow xs j v

/-- Replace column `j` of a list-of-rows matrix by the vector `z`. -/
def updCol : List (List ℚ) → ℕ → List ℚ → List (List ℚ)
  | [], _, _ => []
  | r :: rs, j, z =>
    match z with
    | [] => updRow r j (qofInt 0) :: updCol rs j []
    | v :: zs => updRow r j v :: updCol rs j zs

/-- Model of `np.linalg.solve` (external library code, treated by the design
as a black box "returning a solution vector or failing on singularity"): an
exact linear solve over `ℚ` by Cramer's rule, failing exactly on a singular
matrix. -/
def linSolve (n : ℕ) (A : ℕ → ℕ → ℚ) (z : ℕ → ℚ) : Option (List ℚ) :=
  let rows := matList n A
  let zl := (natRange n).map z
  let d := detLN n rows
  if qeq d (qofInt 0) then none
  else some ((natRange n).map (fun i => qdiv (detLN n (updCol rows i zl)) d))

/-- The observable outcome of `Solver.solve`'s nonlinear loop: mutated
components, last solution vector, class potentials, number of iterations
executed, and whether the loop exited via the stable-state break. -/
structure SolveRes where
  comps : List Component
  x : List ℚ
  volt : List ℚ
  iters : ℕ
  converged : Bool
deriving DecidableEq

/-- The node-voltage dictionary `V` of one iteration, as a list over classes
`0 ≤ c < K`: the ground class reads `0.0`, every other class reads its
unknown from the solution vector. -/
def classVolt (K gIdx : ℕ) (x : List ℚ) : List ℚ :=
  (natRange K).map
    (fun c => if c = gIdx then qofInt 0 else listGet x (nodeIndex K gIdx c))

/-- The LED state update of `Solver.solve`: `led.on = (va - vb) >= led.threshold`
with the just-computed class potentials; other components are untouched. -/
def updateLeds (map : Node → ℕ) (V : ℕ → ℚ) : List Component → List Component
  | [] => []
  | Component.led a b rOn thr _ name :: rest =>
    Component.led a b rOn thr (if qle thr (qsub (V (map a)) (V (map b))) then true else false)
      name :: updateLeds map V rest
  | c :: rest => c :: updateLeds map V rest

/-- The `states` list of `Solver.solve`: the on/off state of each LED in
component order. -/
def ledStates : List Component → List Bool
  | [] => []
  | Component.led _ _ _ _ s _ :: rest => s :: ledStates rest
  | _ :: rest => ledStates rest

/-- The body of one iteration of `Solver.solve`'s loop: assemble the system
for the current threshold states, solve it, and update every LED state from
the just-computed class potentials. Returns the mutated components, the raw
solution vector and the class-potential dictionary (`none` on a singular
system). -/
def solveStep (map : Node → ℕ) (K gIdx : ℕ) (comps : List Component) :
    Option (List Component × List ℚ × List ℚ) :=
  let size := (K - 1) + (vsList comps).length
  let Az := buildMatrix comps map K gIdx
  match linSolve size Az.1 Az.2 with
  | none => none
  | some x =>
    let volt := classVolt K gIdx x
    some (updateLeds map (fun cl => listGet volt cl) comps, x, volt)

/-- The `for _ in range(max_iter)` loop of `Solver.solve`: run `solveStep`,
stop on a stable state vector or when the cap is reached. `none` models an
escaping exception (singular system, or the `max_iter = 0` crash). -/
def solveLoop (map : Node → ℕ) (K gIdx : ℕ) :
    ℕ → List Component → Option (List Bool) → ℕ → Option SolveRes
  | 0, _, _, _ => none
  | fuel + 1, comps, lastStates, iters =>
    match solveStep map K gIdx comps with
    | none => none
    | some (comps', x, volt) =>
      let st := ledStates comps'
      if lastStates = some st then some ⟨comps', x, volt, iters + 1, true⟩
      else
        match fuel with
        | 0 => some ⟨comps', x, volt, iters + 1, false⟩
        | _ + 1 => solveLoop map K gIdx fuel comps' (some st) (iters + 1)

/-- The current-extraction pass at the end of `Solver.solve`, writing the
`self.currents` dictionary in component order. A voltage source's position
is recovered with `list.index` on the re-filtered source list. -/
def extractCurrents (all : List Component) (map : Node → ℕ) (N : ℕ)
    (Vc : ℕ → ℚ) (x : List ℚ) : List Component → List (String × ℚ) → List (String × ℚ)
  | [], d => d
  | Component.resistor a b R name :: rest, d =>
    extractCurrents all map N Vc x rest
      (dwrite d name (qdiv (qsub (Vc (map a)) (Vc (map b))) R))
  | Component.led a b rOn _ s name :: rest, d =>
    let R := effectiveResistance rOn s
    extractCurrents all map N Vc x rest
      (dwrite d name
        (if qlt R (qofInt 100000000) then qdiv (qsub (Vc (map a)) (Vc (map b))) R
         else qofInt 0))
  | Component.voltageSource a b v name :: rest, d =>
    let idx := posOf (vsList all) (a, b, v, name)
    extractCurrents all map N Vc x rest (dwrite d name (listGet x (N + idx)))
  | _ :: rest, d => extractCurrents all map N Vc x rest d

/-- Everything `Solver.solve` leaves observable: its return value
(`volt`, `currents`), the mutated component list, and the loop telemetry. -/
structure FullRes where
  volt : List ℚ
  currents : List (String × ℚ)
  comps : List Component
  x : List ℚ
  iters : ℕ
  converged : Bool
deriving DecidableEq

/-- `Solver(circuit, ground)` followed by `Solver.solve(max_iter)`: `none`
models the `KeyError` on a ground node outside the node set and any
exception escaping the loop. -/
def solverSolve (comps : List Component) (ground : Node) (maxIter : ℕ) :
    Option FullRes :=
  let lumps := computeLumps comps
  if ground ∈ nodesOf comps then
    match solveLoop lumps.1 lumps.2 (lumps.1 ground) maxIter comps none 0 with
    | none => none
    | some r =>
      let N := lumps.2 - 1
      some ⟨r.volt, extractCurrents r.comps lumps.1 N (fun cl => listGet r.volt cl) r.x r.comps [],
            r.comps, r.x, r.iters, r.converged⟩
  else none

/-- `GridCircuit`: a rectangular grid holding a component list. -/
structure GridCircuit where
  width : ℤ
  height : ℤ
  components : List Component
deriving DecidableEq

/-- `GridCircuit._in_bounds`. -/
def inBounds (g : GridCircuit) (p : Node) : Prop :=
  0 ≤ p.1 ∧ p.1 < g.width ∧ 0 ≤ p.2 ∧ p.2 < g.height

instance (g : GridCircuit) (p : Node) : Decidable (inBounds g p) := by
  unfold inBounds; infer_instance

/-- `GridCircuit.add`: reject endpoints outside the grid (`ValueError`
modelled as `none`). -/
def gridAdd (g : GridCircuit) (c : Component) : Option GridCircuit :=
  if inBounds g c.endA ∧ inBounds g c.endB then
    some ⟨g.width, g.height, g.components ++ [c]⟩
  else none

/-- `GridCircuit.solve`: empty mappings and no solver when the ground node is
not an endpoint of any component; otherwise delegate to the solver. The
final `Bool` records whether a solver object (rather than `None`) is
returned. -/
def gridSolve (g : GridCircuit) (ground : Node) :
    Option (List (Node × ℚ) × List (String × ℚ) × Bool) :=
  let comps := g.components
  if ground ∈ nodesOf comps then
    match solverSolve comps ground 10 with
    | none => none
    | some r =>
      some ((nodesOf comps).map (fun p => (p, listGet r.volt ((computeLumps comps).1 p))),
            r.currents, true)
  else some ([], [], false)

/-- The `circuit_led` example from `simulator.py`: a 5 V source, a 100 Ω
resistor and an LED with threshold 1.6 V. -/
def circuitLed : List Component :=
  [Component.voltageSource (1, 0) (0, 0) (qofInt 5) "V1",
   Component.resistor (1, 0) (2, 0) (qofInt 100) "R1",
   mkLED (2, 0) (0, 0) (qofInt 50) (qmk 8 5) "D1"]

/-!
## Structural lemmas
-/

/-- Everything except an LED's on/off state: the relation a component bears
to its image under `Solver.solve`'s mutation. For non-LED components it is
plain equality. -/
def sameButLedB : Component → Component → Bool
  | Component.wire a b n, Component.wire a' b' n' => a = a' ∧ b = b' ∧ n = n'
  | Component.resistor a b r n, Component.resistor a' b' r' n' =>
      a = a' ∧ b = b' ∧ r = r' ∧ n = n'
  | Component.voltageSource a b v n, Component.voltageSource a' b' v' n' =>
      a = a' ∧ b = b' ∧ v = v' ∧ n = n'
  | Component.led a b rOn thr _ n, Component.led a' b' rOn' thr' _ n' =>
      a = a' ∧ b = b' ∧ rOn = rOn' ∧ thr = thr' ∧ n = n'
  | _, _ => false

/-- Pointwise `sameButLedB` on two component lists of the same length. -/
def sameSkeletonB : List Component → List Component → Bool
  | [], [] => true
  | c :: cs, c' :: cs' => sameButLedB c c' && sameSkeletonB cs cs'
  | _, _ => false

theorem sameButLedB_refl (c : Component) : sameButLedB c c = true := by
  cases c <;> simp [sameButLedB]

theorem sameSkeletonB_refl (l : List Component) : sameSkeletonB l l = true := by
  induction l with
  | nil => rfl
  | cons c cs ih => simp [sameSkeletonB, sameButLedB_refl, ih]

theorem sameButLedB_trans {a b c : Component} (h1 : sameButLedB a b = true)
    (h2 : sameButLedB b c = true) : sameButLedB a c = true := by
  cases a <;> cases b <;> cases c <;>
    simp_all [sameButLedB]

theorem sameSkeletonB_trans :
    ∀ {l1 l2 l3 : List Component}, sameSkeletonB l1 l2 = true →
      sameSkeletonB l2 l3 = true → sameSkeletonB l1 l3 = true
  | [], [], [], _, _ => rfl
  | _ :: _, _ :: _, _ :: _, h1, h2 => by
    simp only [sameSkeletonB, Bool.and_eq_true] at h1 h2 ⊢
    exact ⟨sameButLedB_trans h1.1 h2.1, sameSkeletonB_trans h1.2 h2.2⟩

theorem updateLeds_skeleton (map : Node → ℕ) (V : ℕ → ℚ) :
    ∀ comps : List Component, sameSkeletonB comps (updateLeds map V comps) = true := by
  intro comps
  induction comps with
  | nil => rfl
  | cons c cs ih =>
    cases c <;> simp [updateLeds, sameSkeletonB, sameButLedB, ih]

theorem solveStep_skeleton {map : Node → ℕ} {K gIdx : ℕ} {comps comps' : List Component}
    {x volt : List ℚ} (h : solveStep map K gIdx comps = some (comps', x, volt)) :
    sameSkeletonB comps comps' = true := by
  rw [solveStep] at h
  rcases hl : linSolve ((K - 1) + (vsList comps).length) (buildMatrix comps map K gIdx).1
      (buildMatrix comps map K gIdx).2 with _ | xs
  · rw [hl] at h; exact absurd h (by simp)
  · rw [hl] at h
    simp only [Option.some.injEq, Prod.mk.injEq] at h
    rw [← h.1]
    exact updateLeds_skeleton _ _ _

theorem solveLoop_skeleton {map : Node → ℕ} {K gIdx : ℕ} :
    ∀ {fuel : ℕ} {comps : List Component} {last : Option (List Bool)} {iters : ℕ}
      {r : SolveRes}, solveLoop map K gIdx fuel comps last iters = some r →
      sameSkeletonB comps r.comps = true := by
  intro fuel
  induction fuel with
  | zero => intro _ _ _ _ h; exact absurd h (by simp [solveLoop])
  | succ f ih =>
    intro comps last iters r h
    rw [solveLoop] at h
    rcases hs : solveStep map K gIdx comps with _ | ⟨comps', x, volt⟩
    · rw [hs] at h; exact absurd h (by simp)
    · rw [hs] at h
      simp only at h
      by_cases hbreak : last = some (ledStates comps')
      · rw [if_pos hbreak] at h
        cases h
        exact solveStep_skeleton hs
      · rw [if_neg hbreak] at h
        match f, h with
        | 0, h =>
          cases h
          exact solveStep_skeleton hs
        | g + 1, h =>
          exact sameSkeletonB_trans (solveStep_skeleton hs) (ih h)

theorem sameButLedB_vs {c c' : Component} (h : sameButLedB c c' = true)
    {a b : Node} {v : ℚ} {n : String} (hc : c = Component.voltageSource a b v n) :
    c' = Component.voltageSource a b v n := by
  subst hc
  cases c' <;> simp_all [sameButLedB]

theorem vsList_eq_of_skeleton :
    ∀ {l l' : List Component}, sameSkeletonB l l' = true → vsList l' = vsList l
  | [], [], _ => rfl
  | c :: cs, c' :: cs', h => by
    simp only [sameSkeletonB, Bool.and_eq_true] at h
    have ih := vsList_eq_of_skeleton h.2
    cases hc : c <;> cases hc' : c' <;>
      simp_all [vsList, sameButLedB]

theorem endpoints_eq_of_sameButLed {c c' : Component} (h : sameButLedB c c' = true) :
    c'.endA = c.endA ∧ c'.endB = c.endB := by
  cases c <;> cases c' <;>
    simp_all [sameButLedB, Component.endA, Component.endB]

theorem nodesOf_go_eq_of_skeleton :
    ∀ {l l' : List Component}, sameSkeletonB l l' = true →
      ∀ acc, nodesOf.go acc l' = nodesOf.go acc l
  | [], [], _, _ => rfl
  | c :: cs, c' :: cs', h, acc => by
    simp only [sameSkeletonB, Bool.and_eq_true] at h
    obtain ⟨ha, hb⟩ := endpoints_eq_of_sameButLed h.1
    rw [nodesOf.go, nodesOf.go, ha, hb, nodesOf_go_eq_of_skeleton h.2]

theorem nodesOf_eq_of_skeleton {l l' : List Component} (h : sameSkeletonB l l' = true) :
    nodesOf l' = nodesOf l :=
  nodesOf_go_eq_of_skeleton h []

theorem sameButLedB_wire {c c' : Component} (h : sameButLedB c c' = true)
    {a b : Node} {n : String} (hc : c = Component.wire a b n) :
    c' = Component.wire a b n := by
  subst hc
  cases c' <;> simp_all [sameButLedB]

theorem ufParent_eq_of_skeleton (fuel : ℕ) :
    ∀ {l l' : List Component}, sameSkeletonB l l' = true →
      ∀ p, ufParent fuel l' p = ufParent fuel l p
  | [], [], _, _ => rfl
  | c :: cs, c' :: cs', h, p => by
    simp only [sameSkeletonB, Bool.and_eq_true] at h
    have ih := ufParent_eq_of_skeleton fuel h.2
    cases c <;> cases c' <;> simp_all [sameButLedB, ufParent, ih]

theorem computeLumps_eq_of_skeleton {l l' : List Component}
    (h : sameSkeletonB l l' = true) : computeLumps l' = computeLumps l := by
  rw [computeLumps, computeLumps, nodesOf_eq_of_skeleton h]
  have hp : ∀ p, ufParent (nodesOf l).length l' p = ufParent (nodesOf l).length l p :=
    ufParent_eq_of_skeleton _ h
  rw [funext hp]

theorem eq_of_skeleton_of_ledStates :
    ∀ {l l' : List Component}, sameSkeletonB l l' = true →
      ledStates l = ledStates l' → l = l'
  | [], [], _, _ => rfl
  | c :: cs, c' :: cs', h, hs => by
    simp only [sameSkeletonB, Bool.and_eq_true] at h
    have ih := @eq_of_skeleton_of_ledStates cs cs' h.2
    cases c <;> cases c' <;> simp_all [sameButLedB, ledStates]

/-- The components of `circuit_led` after one solve: the LED has latched on. -/
def circuitLedOn : List Component :=
  [Component.voltageSource (1, 0) (0, 0) (qofInt 5) "V1",
   Component.resistor (1, 0) (2, 0) (qofInt 100) "R1",
   Component.led (2, 0) (0, 0) (qofInt 50) (qmk 8 5) true "D1"]

/-- The full observable outcome of solving `circuit_led` at ground `(0, 0)`:
LED on, node potentials `5 V` and `5/3 V`, all branch currents `1/30 A` in
magnitude, converged in two iterations. -/
def circuitLedRes : FullRes :=
  ⟨[qofInt 5, qofInt 0, qmk 5 3],
   [("V1", qmk (-1) 30), ("R1", qmk 1 30), ("D1", qmk 1 30)],
   circuitLedOn, [qofInt 5, qmk 5 3, qmk (-1) 30], 2, true⟩

set_option maxHeartbeats 1000000 in
/-- Concrete evaluation of `Solver.solve` on the repository's `circuit_led`
example, iteration by iteration. -/
theorem circuitLed_eval : solverSolve circuitLed (0, 0) 10 = some circuitLedRes := by
  have s1 : solveStep (computeLumps circuitLed).1 3 1 circuitLed =
      some (circuitLedOn, [qofInt 5, qmk 50000000 10000001, qmk (-1) 200000020],
            [qofInt 5, qofInt 0, qmk 50000000 10000001]) := by decide
  have s2 : solveStep (computeLumps circuitLed).1 3 1 circuitLedOn =
      some (circuitLedOn, [qofInt 5, qmk 5 3, qmk (-1) 30],
            [qofInt 5, qofInt 0, qmk 5 3]) := by decide
  have hk : (computeLumps circuitLed).2 = 3 := by decide
  have hg : (computeLumps circuitLed).1 (0, 0) = 1 := by decide
  have hmem : ((0, 0) : Node) ∈ nodesOf circuitLed := by decide
  rw [solverSolve, if_pos hmem, hk, hg, solveLoop, s1]
  simp only [ledStates]
  rw [solveLoop, s2]
  simp only [ledStates, reduceCtorEq, reduceIte, Option.some.injEq]
  decide

/-- C10: `solve` mutates nothing in the circuit except the on/off state of
LED components: the component sequence keeps its length and order, and every
field other than an LED's state (endpoints, resistance, voltage, on
resistance, threshold, name) is unchanged. -/
theorem c10_frame_only_led_state (comps : List Component) (ground : Node)
    (maxIter : ℕ) (r : FullRes) (h : solverSolve comps ground maxIter = some r) :
    sameSkeletonB comps r.comps = true := by
  rw [solverSolve] at h
  by_cases hmem : ground ∈ nodesOf comps
  · rw [if_pos hmem] at h
    rcases hl : solveLoop (computeLumps comps).1 (computeLumps comps).2
        ((computeLumps comps).1 ground) maxIter comps none 0 with _ | r0
    · rw [hl] at h; exact absurd h (by simp)
    · rw [hl] at h
      simp only [Option.some.injEq] at h
      have := solveLoop_skeleton hl
      rw [← h]
      exact this
  · rw [if_neg hmem] at h
    exact absurd h (by simp)

/-- Witness for C10 at `circuit_led`: only the LED's state differs after the
solve. -/
theorem c10_frame_only_led_state_witness : sameSkeletonB circuitLed circuitLedOn = true :=
  c10_frame_only_led_state circuitLed (0, 0) 10 circuitLedRes circuitLed_eval

/-- C5: `GridCircuit.solve` with a ground node that is no component's
endpoint returns empty voltage and current mappings and no solver object,
rather than raising an error. -/
theorem c5_missing_ground_yields_empty (g : GridCircuit) (ground : Node)
    (h : ground ∉ nodesOf g.components) :
    gridSolve g ground = some ([], [], false) := by
  rw [gridSolve, if_neg h]

/-- Witness for C5: a 5×3 grid holding `circuit_led`, solved at the unused
cell `(4, 2)`. -/
theorem c5_missing_ground_yields_empty_witness :
    ((4, 2) : Node) ∉ nodesOf circuitLed ∧
      gridSolve ⟨5, 3, circuitLed⟩ (4, 2) = some ([], [], false) :=
  ⟨by decide, c5_missing_ground_yields_empty ⟨5, 3, circuitLed⟩ (4, 2) (by decide)⟩

theorem updateLeds_get :
    ∀ (comps : List Component) (map : Node → ℕ) (V : ℕ → ℚ) (i : ℕ)
      (a b : Node) (rOn thr : ℚ) (s : Bool) (name : String),
      comps.get? i = some (Component.led a b rOn thr s name) →
      (updateLeds map V comps).get? i =
        some (Component.led a b rOn thr (qle thr (qsub (V (map a)) (V (map b)))) name)
  | [], _, _, i, _, _, _, _, _, _, h => by simp at h
  | c :: cs, map, V, 0, a, b, rOn, thr, s, name, h => by
    simp only [List.get?_cons_zero, Option.some.injEq] at h
    subst h
    have hite : (if qle thr (qsub (V (map a)) (V (map b))) then true else false) =
        qle thr (qsub (V (map a)) (V (map b))) := by
      by_cases hq : qle thr (qsub (V (map a)) (V (map b))) = true <;> simp [hq]
    simp [updateLeds, hite]
  | c :: cs, map, V, i + 1, a, b, rOn, thr, s, name, h => by
    simp only [List.get?_cons_succ] at h
    have ih := updateLeds_get cs map V i a b rOn thr s name h
    cases c <;> simpa [updateLeds] using ih

/-- C3: in every iteration of `solve` each LED's state is recomputed from the
just-computed class potentials as on iff `V(a) − V(b) ≥ threshold`: at a
difference exactly equal to the threshold the element turns on (closed
inequality), and strictly below it turns off. -/
theorem c3_threshold_closed_boundary (map : Node → ℕ) (K gIdx : ℕ)
    (comps comps' : List Component) (x volt : List ℚ) (i : ℕ) (a b : Node)
    (rOn thr : ℚ) (s : Bool) (name : String)
    (hstep : solveStep map K gIdx comps = some (comps', x, volt))
    (hled : comps.get? i = some (Component.led a b rOn thr s name)) :
    ∃ s' : Bool,
      comps'.get? i = some (Component.led a b rOn thr s' name) ∧
      (s' = true ↔ listGet volt (map a) - listGet volt (map b) ≥ thr) ∧
      (listGet volt (map a) - listGet volt (map b) = thr → s' = true) ∧
      (listGet volt (map a) - listGet volt (map b) < thr → s' = false) := by
  rw [solveStep] at hstep
  rcases hl : linSolve ((K - 1) + (vsList comps).length) (buildMatrix comps map K gIdx).1
      (buildMatrix comps map K gIdx).2 with _ | xs
  · rw [hl] at hstep; exact absurd hstep (by simp)
  · rw [hl] at hstep
    simp only [Option.some.injEq, Prod.mk.injEq] at hstep
    obtain ⟨hc, _, hv⟩ := hstep
    subst hv
    refine ⟨qle thr (qsub (listGet (classVolt K gIdx xs) (map a))
        (listGet (classVolt K gIdx xs) (map b))), ?_, ?_, ?_, ?_⟩
    · rw [← hc]
      exact updateLeds_get comps map (fun cl => listGet (classVolt K gIdx xs) cl)
        i a b rOn thr s name hled
    · rw [qle_iff, qsub_eq]
    · intro h
      rw [qle_iff, qsub_eq, h]
    · intro h
      rw [← Bool.not_eq_true]
      rw [qle_iff, qsub_eq]
      exact not_le.mpr h

/-- Witness for C3 at `circuit_led`'s first iteration: the LED sees
`V(a) − V(b) ≈ 5 V ≥ 1.6 V` and turns on. -/
theorem c3_threshold_closed_boundary_witness :
    ∃ s' : Bool,
      circuitLedOn.get? 2 = some (Component.led (2, 0) (0, 0) (qofInt 50) (qmk 8 5) s' "D1") ∧
      (s' = true ↔
        listGet [qofInt 5, qofInt 0, qmk 50000000 10000001] ((computeLumps circuitLed).1 (2, 0)) -
          listGet [qofInt 5, qofInt 0, qmk 50000000 10000001] ((computeLumps circuitLed).1 (0, 0)) ≥
          qmk 8 5) ∧
      (listGet [qofInt 5, qofInt 0, qmk 50000000 10000001] ((computeLumps circuitLed).1 (2, 0)) -
          listGet [qofInt 5, qofInt 0, qmk 50000000 10000001] ((computeLumps circuitLed).1 (0, 0)) =
          qmk 8 5 → s' = true) ∧
      (listGet [qofInt 5, qofInt 0, qmk 50000000 10000001] ((computeLumps circuitLed).1 (2, 0)) -
          listGet [qofInt 5, qofInt 0, qmk 50000000 10000001] ((computeLumps circuitLed).1 (0, 0)) <
          qmk 8 5 → s' = false) :=
  c3_threshold_closed_boundary (computeLumps circuitLed).1 3 1 circuitLed circuitLedOn
    [qofInt 5, qmk 50000000 10000001, qmk (-1) 200000020]
    [qofInt 5, qofInt 0, qmk 50000000 10000001]
    2 (2, 0) (0, 0) (qofInt 50) (qmk 8 5) false "D1" (by decide) (by decide)

/-- C2 counterexample: solving `circuit_led` once leaves its LED stored as
on. The nonlinear iteration of a further `solve` call on this circuit
therefore begins from the state vector `[true]` — the states the components
currently hold — and not from the all-off vector the claim requires
(`solveLoop`'s first `solveStep` uses the circuit's stored states as-is). -/
theorem c2_counterexample :
    (solverSolve circuitLed (0, 0) 10).map (fun r => ledStates r.comps) = some [true] ∧
      some [true] ≠ some (List.replicate (ledStates circuitLedOn).length false) := by
  rw [circuitLed_eval]
  exact ⟨by decide, by decide⟩

/-- C2 amended: the iteration begins from the on/off states currently stored
in the circuit's ThresholdElements (they are not reset per call); every LED
built by `LED.__init__` starts off, so a circuit whose LEDs are all freshly
constructed does begin from the all-off state. -/
theorem c2_amended_fresh_leds_start_off (comps : List Component)
    (hfresh : ∀ c ∈ comps, c.isLED = true →
      ∃ a b rOn thr name, c = mkLED a b rOn thr name) :
    ledStates comps = List.replicate (ledStates comps).length false := by
  induction comps with
  | nil => rfl
  | cons c cs ih =>
    have hcs := ih (fun c' hc' => hfresh c' (List.mem_cons_of_mem _ hc'))
    cases c with
    | led a b rOn thr s name =>
      obtain ⟨a', b', rOn', thr', name', hEq⟩ :=
        hfresh _ (List.mem_cons_self _ _) (by simp [Component.isLED])
      rw [mkLED] at hEq
      injection hEq with h1 h2 h3 h4 h5 h6
      subst h5
      show false :: ledStates cs = List.replicate (false :: ledStates cs).length false
      rw [List.length_cons, List.replicate_succ]
      exact congrArg (false :: ·) hcs
    | wire a b n => exact hcs
    | resistor a b rr n => exact hcs
    | voltageSource a b v n => exact hcs

/-- Witness for amended C2: the freshly built `circuit_led` starts with its
single LED off. -/
theorem c2_amended_fresh_leds_start_off_witness :
    ledStates circuitLed = List.replicate (ledStates circuitLed).length false :=
  c2_amended_fresh_leds_start_off circuitLed (by
    intro c hc hl
    simp only [circuitLed, List.mem_cons, List.not_mem_nil, or_false] at hc
    rcases hc with rfl | rfl | rfl
    · exact absurd hl (by decide)
    · exact absurd hl (by decide)
    · exact ⟨(2, 0), (0, 0), qofInt 50, qmk 8 5, "D1", rfl⟩)

/-- `n`-fold composition of the loop body on the component state: the
reference iterator used to state the iteration cap. -/
def iterComps (map : Node → ℕ) (K gIdx : ℕ) : ℕ → List Component → Option (List Component)
  | 0, comps => some comps
  | n + 1, comps =>
    match solveStep map K gIdx comps with
    | none => none
    | some (c', _, _) => iterComps map K gIdx n c'

theorem iterComps_succ (map : Node → ℕ) (K gIdx n : ℕ) (comps : List Component) :
    iterComps map K gIdx (n + 1) comps =
      match solveStep map K gIdx comps with
      | none => none
      | some (c', _, _) => iterComps map K gIdx n c' := rfl

theorem solveLoop_iters {map : Node → ℕ} {K gIdx : ℕ} :
    ∀ {fuel : ℕ} {comps : List Component} {last : Option (List Bool)} {iters : ℕ}
      {r : SolveRes}, solveLoop map K gIdx fuel comps last iters = some r →
      iters < r.iters ∧ r.iters ≤ iters + fuel ∧
        (r.converged = false → r.iters = iters + fuel ∧
          ∃ cpre, iterComps map K gIdx (fuel - 1) comps = some cpre ∧
            solveStep map K gIdx cpre = some (r.comps, r.x, r.volt)) := by
  intro fuel
  induction fuel with
  | zero => intro _ _ _ _ h; exact absurd h (by simp [solveLoop])
  | succ f ih =>
    intro comps last iters r h
    rw [solveLoop] at h
    rcases hs : solveStep map K gIdx comps with _ | ⟨comps', x, volt⟩
    · rw [hs] at h; exact absurd h (by simp)
    · rw [hs] at h
      simp only at h
      by_cases hbreak : last = some (ledStates comps')
      · rw [if_pos hbreak] at h
        cases h
        refine ⟨Nat.lt_succ_self _, ?_, ?_⟩
        · show iters + 1 ≤ iters + (f + 1)
          omega
        · intro hc
          exact absurd hc (by simp)
      · rw [if_neg hbreak] at h
        match f, h with
        | 0, h =>
          cases h
          refine ⟨Nat.lt_succ_self _, ?_, fun _ => ⟨rfl, comps, rfl, hs⟩⟩
          show iters + 1 ≤ iters + (0 + 1)
          omega
        | g + 1, h =>
          obtain ⟨h1, h2, h3⟩ := ih h
          refine ⟨by omega, by omega, fun hc => ?_⟩
          obtain ⟨hiters, cpre, hit, hstep⟩ := h3 hc
          refine ⟨by omega, cpre, ?_, hstep⟩
          have hn : g + 1 + 1 - 1 = g + 1 := rfl
          rw [hn, iterComps_succ, hs]
          simpa using hit

/-- C9: every `solve` call performs at most the iteration cap (here its
default, 10) matrix builds and linear solves; when the cap is reached
without a stable threshold-state vector, the returned voltages, currents
vector and components are exactly those of the tenth (last) build/solve. -/
theorem c9_cap_and_last_solution (comps : List Component) (ground : Node) (r : FullRes)
    (h : solverSolve comps ground 10 = some r) :
    1 ≤ r.iters ∧ r.iters ≤ 10 ∧
      (r.converged = false →
        r.iters = 10 ∧
        ∃ c9, iterComps (computeLumps comps).1 (computeLumps comps).2
            ((computeLumps comps).1 ground) 9 comps = some c9 ∧
          solveStep (computeLumps comps).1 (computeLumps comps).2
            ((computeLumps comps).1 ground) c9 = some (r.comps, r.x, r.volt)) := by
  rw [solverSolve] at h
  by_cases hmem : ground ∈ nodesOf comps
  · rw [if_pos hmem] at h
    rcases hl : solveLoop (computeLumps comps).1 (computeLumps comps).2
        ((computeLumps comps).1 ground) 10 comps none 0 with _ | r0
    · rw [hl] at h; exact absurd h (by simp)
    · rw [hl] at h
      simp only [Option.some.injEq] at h
      obtain ⟨h1, h2, h3⟩ := solveLoop_iters hl
      subst h
      refine ⟨h1, ?_, fun hc => ?_⟩
      · show r0.iters ≤ 10
        omega
      · obtain ⟨hi, cpre, hit, hstep⟩ := h3 hc
        refine ⟨?_, cpre, hit, hstep⟩
        show r0.iters = 10
        omega
  · rw [if_neg hmem] at h
    exact absurd h (by simp)

/-- Witness for C9 at `circuit_led`: two iterations, under the cap,
converged. -/
theorem c9_cap_and_last_solution_witness :
    1 ≤ circuitLedRes.iters ∧ circuitLedRes.iters ≤ 10 ∧
      (circuitLedRes.converged = false →
        circuitLedRes.iters = 10 ∧
        ∃ c9, iterComps (computeLumps circuitLed).1 (computeLumps circuitLed).2
            ((computeLumps circuitLed).1 (0, 0)) 9 circuitLed = some c9 ∧
          solveStep (computeLumps circuitLed).1 (computeLumps circuitLed).2
            ((computeLumps circuitLed).1 (0, 0)) c9 =
            some (circuitLedRes.comps, circuitLedRes.x, circuitLedRes.volt)) :=
  c9_cap_and_last_solution circuitLed (0, 0) circuitLedRes circuitLed_eval

theorem mem_natRange {n K : ℕ} : n ∈ natRange K ↔ n < K := by
  induction K with
  | zero => simp [natRange]
  | succ k ih =>
    simp [natRange, List.mem_append, ih]
    omega

theorem natRange_length (K : ℕ) : (natRange K).length = K := by
  induction K with
  | zero => rfl
  | succ k ih => simp [natRange, ih]

theorem listGet_append (l1 l2 : List ℚ) (i : ℕ) :
    listGet (l1 ++ l2) i = if i < l1.length then listGet l1 i else listGet l2 (i - l1.length) := by
  induction l1 generalizing i with
  | nil => simp [listGet]
  | cons x xs ih =>
    cases i with
    | zero => simp [listGet]
    | succ j =>
      show listGet (xs ++ l2) j =
        if j + 1 < (x :: xs).length then listGet (x :: xs) (j + 1)
        else listGet l2 (j + 1 - (x :: xs).length)
      rw [ih j, List.length_cons]
      by_cases hj : j < xs.length
      · rw [if_pos hj, if_pos (by omega)]
        rfl
      · rw [if_neg hj, if_neg (by omega)]
        congr 1
        omega

theorem listGet_map_natRange (f : ℕ → ℚ) (K i : ℕ) :
    listGet ((natRange K).map f) i = if i < K then f i else qofInt 0 := by
  induction K generalizing i with
  | zero => simp [natRange, listGet]
  | succ k ih =>
    rw [natRange, List.map_append, listGet_append]
    simp only [List.length_map]
    rw [natRange_length]
    by_cases hik : i < k
    · rw [if_pos hik, ih, if_pos hik, if_pos (by omega)]
    · rw [if_neg hik]
      by_cases hik' : i = k
      · subst hik'
        simp [listGet]
      · rw [if_neg (by omega)]
        have : i - k ≠ 0 := by omega
        rcases Nat.exists_eq_succ_of_ne_zero this with ⟨j, hj⟩
        rw [hj]
        simp [listGet]

theorem listGet_classVolt_ground (K g : ℕ) (x : List ℚ) :
    listGet (classVolt K g x) g = qofInt 0 := by
  rw [classVolt, listGet_map_natRange]
  by_cases hg : g < K
  · rw [if_pos hg, if_pos rfl]
  · rw [if_neg hg]

theorem solveLoop_volt_shape {map : Node → ℕ} {K gIdx : ℕ} :
    ∀ {fuel : ℕ} {comps : List Component} {last : Option (List Bool)} {iters : ℕ}
      {r : SolveRes}, solveLoop map K gIdx fuel comps last iters = some r →
      r.volt = classVolt K gIdx r.x := by
  intro fuel
  induction fuel with
  | zero => intro _ _ _ _ h; exact absurd h (by simp [solveLoop])
  | succ f ih =>
    intro comps last iters r h
    rw [solveLoop] at h
    rcases hs : solveStep map K gIdx comps with _ | ⟨comps', x, volt⟩
    · rw [hs] at h; exact absurd h (by simp)
    · rw [hs] at h
      simp only at h
      have hv : volt = classVolt K gIdx x := by
        rw [solveStep] at hs
        rcases hl : linSolve ((K - 1) + (vsList comps).length)
            (buildMatrix comps map K gIdx).1 (buildMatrix comps map K gIdx).2 with _ | xs
        · rw [hl] at hs; exact absurd hs (by simp)
        · rw [hl] at hs
          simp only [Option.some.injEq, Prod.mk.injEq] at hs
          rw [← hs.2.2, ← hs.2.1]
      by_cases hbreak : last = some (ledStates comps')
      · rw [if_pos hbreak] at h
        cases h
        exact hv
      · rw [if_neg hbreak] at h
        match f, h with
        | 0, h => cases h; exact hv
        | g + 1, h => exact ih h

/-- C4: the ground equivalence class owns no row or column of the assembled
system — the unknown list `node_index` contains exactly the non-ground
classes — and every solve result assigns the ground class, and every node
lumped into it, the potential exactly `0`. -/
theorem c4_ground_excluded_and_zero (comps : List Component) (ground : Node)
    (maxIter : ℕ) (r : FullRes) (h : solverSolve comps ground maxIter = some r) :
    ((computeLumps comps).1 ground ∉
        nodeIndexList (computeLumps comps).2 ((computeLumps comps).1 ground)) ∧
      (∀ n, n < (computeLumps comps).2 → n ≠ (computeLumps comps).1 ground →
        n ∈ nodeIndexList (computeLumps comps).2 ((computeLumps comps).1 ground)) ∧
      listGet r.volt ((computeLumps comps).1 ground) = 0 ∧
      (∀ node, (computeLumps comps).1 node = (computeLumps comps).1 ground →
        listGet r.volt ((computeLumps comps).1 node) = 0) := by
  have hzero : listGet r.volt ((computeLumps comps).1 ground) = 0 := by
    rw [solverSolve] at h
    by_cases hmem : ground ∈ nodesOf comps
    · rw [if_pos hmem] at h
      rcases hl : solveLoop (computeLumps comps).1 (computeLumps comps).2
          ((computeLumps comps).1 ground) maxIter comps none 0 with _ | r0
      · rw [hl] at h; exact absurd h (by simp)
      · rw [hl] at h
        simp only [Option.some.injEq] at h
        have hv := solveLoop_volt_shape hl
        have : r.volt = r0.volt := by rw [← h]
        rw [this, hv, listGet_classVolt_ground, qofInt_eq, Int.cast_zero]
    · rw [if_neg hmem] at h
      exact absurd h (by simp)
  refine ⟨?_, ?_, hzero, ?_⟩
  · rw [nodeIndexList]
    simp
  · intro n hn hng
    rw [nodeIndexList]
    simp [List.mem_filter, mem_natRange, hn, hng]
  · intro node hnode
    rw [hnode]
    exact hzero

/-- Witness for C4 at `circuit_led`: ground class `1` is outside the unknown
list `[0, 2]` and reads potential `0`. -/
theorem c4_ground_excluded_and_zero_witness :
    ((computeLumps circuitLed).1 (0, 0) ∉
        nodeIndexList (computeLumps circuitLed).2 ((computeLumps circuitLed).1 (0, 0))) ∧
      (∀ n, n < (computeLumps circuitLed).2 → n ≠ (computeLumps circuitLed).1 (0, 0) →
        n ∈ nodeIndexList (computeLumps circuitLed).2 ((computeLumps circuitLed).1 (0, 0))) ∧
      listGet circuitLedRes.volt ((computeLumps circuitLed).1 (0, 0)) = 0 ∧
      (∀ node, (computeLumps circuitLed).1 node = (computeLumps circuitLed).1 (0, 0) →
        listGet circuitLedRes.volt ((computeLumps circuitLed).1 node) = 0) :=
  c4_ground_excluded_and_zero circuitLed (0, 0) 10 circuitLedRes circuitLed_eval

/-- A circuit with a sub-network (`R_float` between `(5,0)` and `(6,0)`)
that has no path through wires or resistors to the ground class. -/
def circuitFloating : List Component :=
  [Component.voltageSource (1, 0) (0, 0) (qofInt 5) "V1",
   Component.resistor (1, 0) (0, 0) (qofInt 100) "R1",
   Component.resistor (5, 0) (6, 0) (qofInt 50) "Rf"]

set_option maxHeartbeats 1000000 in
/-- C6 (showing the code's behaviour at the failing input): with a floating
sub-network the assembled matrix is exactly singular and the solve fails —
but the failure is the linear solver's own error escaping untranslated
(`np.linalg.solve` raises `numpy.linalg.LinAlgError("Singular matrix")`,
which `Solver.solve` neither catches nor converts into a distinct
"disconnected/singular circuit" error), modelled here by the solver's bare
`none` propagating out of `solverSolve`. -/
theorem c6_singular_failure_not_translated :
    qeq (detLN (((computeLumps circuitFloating).2 - 1) + (vsList circuitFloating).length)
        (matList (((computeLumps circuitFloating).2 - 1) + (vsList circuitFloating).length)
          (buildMatrix circuitFloating (computeLumps circuitFloating).1
            (computeLumps circuitFloating).2
            ((computeLumps circuitFloating).1 (0, 0))).1))
      (qofInt 0) = true ∧
    solverSolve circuitFloating (0, 0) 10 = none := by
  exact ⟨by decide, by decide⟩

theorem dget_dwrite_self : ∀ (d : List (String × ℚ)) (k : String) (v : ℚ),
    dget (dwrite d k v) k = some v
  | [], k, v => by simp [dwrite, dget]
  | (k', v') :: rest, k, v => by
    by_cases h : k' = k
    · simp [dwrite, dget, h]
    · simp [dwrite, dget, h, dget_dwrite_self rest k v]

theorem dget_dwrite_ne : ∀ (d : List (String × ℚ)) (k1 k2 : String) (v : ℚ),
    k1 ≠ k2 → dget (dwrite d k1 v) k2 = dget d k2
  | [], k1, k2, v, h => by simp [dwrite, dget, h]
  | (k', v') :: rest, k1, k2, v, h => by
    by_cases h' : k' = k1
    · subst h'
      simp [dwrite, dget, h]
    · simp [dwrite, dget, h', dget_dwrite_ne rest k1 k2 v h]

theorem cname_eq_of_sameButLed {c c' : Component} (h : sameButLedB c c' = true) :
    c'.cname = c.cname := by
  cases c <;> cases c' <;> simp_all [sameButLedB, Component.cname]

theorem countP_cname_eq_of_skeleton {name : String} :
    ∀ {l l' : List Component}, sameSkeletonB l l' = true →
      l'.countP (fun c => c.cname = name) = l.countP (fun c => c.cname = name)
  | [], [], _ => rfl
  | c :: cs, c' :: cs', h => by
    simp only [sameSkeletonB, Bool.and_eq_true] at h
    rw [List.countP_cons, List.countP_cons, cname_eq_of_sameButLed h.1,
      countP_cname_eq_of_skeleton h.2]

theorem countP_le_one_unique {α : Type} {p : α → Bool} :
    ∀ {l : List α}, l.countP p ≤ 1 → ∀ {a b : α}, a ∈ l → b ∈ l →
      p a = true → p b = true → a = b
  | [], _, a, _, ha, _, _, _ => absurd ha (List.not_mem_nil a)
  | c :: t, hcount, a, b, ha, hb, hpa, hpb => by
    rw [List.countP_cons] at hcount
    rcases List.mem_cons.mp ha with rfl | hat
    · rcases List.mem_cons.mp hb with rfl | hbt
      · rfl
      · exfalso
        have h1 : 0 < t.countP p := List.countP_pos_iff.mpr ⟨b, hbt, hpb⟩
        rw [hpa, if_pos rfl] at hcount
        omega
    · rcases List.mem_cons.mp hb with rfl | hbt
      · exfalso
        have h1 : 0 < t.countP p := List.countP_pos_iff.mpr ⟨a, hat, hpa⟩
        rw [hpb, if_pos rfl] at hcount
        omega
      · refine countP_le_one_unique ?_ hat hbt hpa hpb
        have hnn : (0 : ℕ) ≤ if p c then 1 else 0 := Nat.zero_le _
        omega

theorem posOf_le_of_get {α : Type} [DecidableEq α] :
    ∀ {l : List α} {k : ℕ} {x : α}, l.get? k = some x → posOf l x ≤ k
  | [], k, x, h => by simp at h
  | y :: t, 0, x, h => by
    simp only [List.get?_cons_zero, Option.some.injEq] at h
    subst h
    simp [posOf]
  | y :: t, k + 1, x, h => by
    rw [posOf]
    by_cases hx : y = x
    · simp [hx]
    · rw [if_neg hx]
      have := posOf_le_of_get (l := t) (k := k) (by simpa using h)
      omega

theorem get_posOf {α : Type} [DecidableEq α] :
    ∀ {l : List α} {k : ℕ} {x : α}, l.get? k = some x → l.get? (posOf l x) = some x
  | [], k, x, h => by simp at h
  | y :: t, 0, x, h => by
    simp only [List.get?_cons_zero, Option.some.injEq] at h
    subst h
    simp [posOf]
  | y :: t, k + 1, x, h => by
    by_cases hx : y = x
    · simp [posOf, hx]
    · rw [posOf, if_neg hx]
      simpa using get_posOf (l := t) (k := k) (by simpa using h)

theorem two_le_countP {α : Type} {p : α → Bool} :
    ∀ {l : List α} {j k : ℕ} {y1 y2 : α}, j < k → l.get? j = some y1 →
      l.get? k = some y2 → p y1 = true → p y2 = true → 2 ≤ l.countP p
  | [], j, k, y1, y2, hjk, hj, hk, h1, h2 => by simp at hj
  | c :: t, 0, k, y1, y2, hjk, hj, hk, h1, h2 => by
    simp only [List.get?_cons_zero, Option.some.injEq] at hj
    subst hj
    rcases k with _ | k'
    · omega
    · have hk' : t.get? k' = some y2 := by simpa using hk
      have hpos : 0 < t.countP p := List.countP_pos_iff.mpr ⟨y2, List.get?_mem hk', h2⟩
      rw [List.countP_cons, h1, if_pos rfl]
      omega
  | c :: t, j + 1, k, y1, y2, hjk, hj, hk, h1, h2 => by
    rcases k with _ | k'
    · omega
    · have := two_le_countP (l := t) (j := j) (k := k') (by omega)
        (by simpa using hj) (by simpa using hk) h1 h2
      rw [List.countP_cons]
      have hnn : (0 : ℕ) ≤ if p c then 1 else 0 := Nat.zero_le _
      omega

theorem vsList_get_mem :
    ∀ {l : List Component} {k : ℕ} {a b : Node} {v : ℚ} {n : String},
      (vsList l).get? k = some (a, b, v, n) → Component.voltageSource a b v n ∈ l
  | [], k, a, b, v, n, h => by simp [vsList] at h
  | c :: t, k, a, b, v, n, h => by
    cases c with
    | voltageSource a' b' v' n' =>
      rcases k with _ | k'
      · simp only [vsList, List.get?_cons_zero, Option.some.injEq,
          Prod.mk.injEq] at h
        obtain ⟨rfl, rfl, rfl, rfl⟩ := h
        exact List.mem_cons_self _ _
      · exact List.mem_cons_of_mem _ (vsList_get_mem (by simpa [vsList] using h))
    | wire a' b' n' =>
      exact List.mem_cons_of_mem _ (vsList_get_mem (by simpa [vsList] using h))
    | resistor a' b' r' n' =>
      exact List.mem_cons_of_mem _ (vsList_get_mem (by simpa [vsList] using h))
    | led a' b' rOn' thr' s' n' =>
      exact List.mem_cons_of_mem _ (vsList_get_mem (by simpa [vsList] using h))

theorem vsList_countP_name (name : String) :
    ∀ l : List Component,
      (vsList l).countP (fun e => e.2.2.2 = name) ≤ l.countP (fun c => c.cname = name)
  | [] => le_refl _
  | Component.voltageSource a b v n :: t => by
    have ih := vsList_countP_name name t
    simp only [vsList, List.countP_cons, Component.cname] at ih ⊢
    by_cases hn : n = name <;> simp [hn] <;> omega
  | Component.wire a b n :: t => by
    have ih := vsList_countP_name name t
    simp only [vsList, List.countP_cons, Component.cname] at ih ⊢
    by_cases hn : n = name <;> simp [hn] <;> omega
  | Component.resistor a b rr n :: t => by
    have ih := vsList_countP_name name t
    simp only [vsList, List.countP_cons, Component.cname] at ih ⊢
    by_cases hn : n = name <;> simp [hn] <;> omega
  | Component.led a b rOn thr s n :: t => by
    have ih := vsList_countP_name name t
    simp only [vsList, List.countP_cons, Component.cname] at ih ⊢
    by_cases hn : n = name <;> simp [hn] <;> omega

theorem extractCurrents_dget_no_name (all : List Component) (map : Node → ℕ) (N : ℕ)
    (Vc : ℕ → ℚ) (x : List ℚ) (name : String) :
    ∀ (rest : List Component) (d : List (String × ℚ)),
      (∀ c ∈ rest, c.cname ≠ name) →
      dget (extractCurrents all map N Vc x rest d) name = dget d name
  | [], d, _ => rfl
  | c :: rest, d, hno => by
    have hc := hno c (List.mem_cons_self _ _)
    have hrest : ∀ c' ∈ rest, c'.cname ≠ name :=
      fun c' hc' => hno c' (List.mem_cons_of_mem _ hc')
    cases c with
    | wire a b n =>
      exact extractCurrents_dget_no_name all map N Vc x name rest d hrest
    | resistor a b R n =>
      rw [extractCurrents, extractCurrents_dget_no_name all map N Vc x name rest _ hrest,
        dget_dwrite_ne _ n name _ hc]
    | voltageSource a b v n =>
      rw [extractCurrents, extractCurrents_dget_no_name all map N Vc x name rest _ hrest,
        dget_dwrite_ne _ n name _ hc]
    | led a b rOn thr s n =>
      rw [extractCurrents, extractCurrents_dget_no_name all map N Vc x name rest _ hrest,
        dget_dwrite_ne _ n name _ hc]

theorem extractCurrents_dget_unique (all : List Component) (map : Node → ℕ) (N : ℕ)
    (Vc : ℕ → ℚ) (x : List ℚ) (a b : Node) (v : ℚ) (name : String) :
    ∀ (rest : List Component) (d : List (String × ℚ)),
      rest.countP (fun c => c.cname = name) = 1 →
      (∀ c ∈ rest, c.cname = name → c = Component.voltageSource a b v name) →
      dget (extractCurrents all map N Vc x rest d) name =
        some (listGet x (N + posOf (vsList all) (a, b, v, name)))
  | [], d, hcount, _ => by simp [List.countP_nil] at hcount
  | c :: rest, d, hcount, huniq => by
    rw [List.countP_cons] at hcount
    by_cases hc : c.cname = name
    · have hcv : c = Component.voltageSource a b v name :=
        huniq c (List.mem_cons_self _ _) hc
      subst hcv
      have hrest0 : rest.countP (fun c => c.cname = name) = 0 := by
        rw [if_pos (by simpa using hc)] at hcount
        omega
      have hnone : ∀ c' ∈ rest, c'.cname ≠ name := by
        intro c' hc' hcn
        have := List.countP_eq_zero.mp hrest0 c' hc'
        simp [hcn] at this
      rw [extractCurrents,
        extractCurrents_dget_no_name all map N Vc x name rest _ hnone,
        dget_dwrite_self]
    · have hcount' : rest.countP (fun c => c.cname = name) = 1 := by
        rw [if_neg (by simpa using hc)] at hcount
        omega
      have huniq' : ∀ c' ∈ rest, c'.cname = name →
          c' = Component.voltageSource a b v name :=
        fun c' hc' => huniq c' (List.mem_cons_of_mem _ hc')
      cases c with
      | wire a' b' n' =>
        exact extractCurrents_dget_unique all map N Vc x a b v name rest d hcount' huniq'
      | resistor a' b' R' n' =>
        rw [extractCurrents,
          extractCurrents_dget_unique all map N Vc x a b v name rest _ hcount' huniq']
      | voltageSource a' b' v' n' =>
        rw [extractCurrents,
          extractCurrents_dget_unique all map N Vc x a b v name rest _ hcount' huniq']
      | led a' b' rOn' thr' s' n' =>
        rw [extractCurrents,
          extractCurrents_dget_unique all map N Vc x a b v name rest _ hcount' huniq']

/-- C1 (amended): for a voltage source whose name no other component bears,
the current reported by `solve` under that name is exactly the branch-current
unknown `x[N + k]`, where `k` is the source's position in the single ordered
voltage-source sequence used to assemble rows `N..N+M-1`. -/
theorem c1_amended_source_current (comps : List Component) (ground : Node)
    (maxIter k : ℕ) (a b : Node) (v : ℚ) (name : String) (r : FullRes)
    (h : solverSolve comps ground maxIter = some r)
    (hk : (vsList comps).get? k = some (a, b, v, name))
    (huniq : comps.countP (fun c => c.cname = name) = 1) :
    dget r.currents name = some (listGet r.x (((computeLumps comps).2 - 1) + k)) := by
  rw [solverSolve] at h
  by_cases hmem : ground ∈ nodesOf comps
  · rw [if_pos hmem] at h
    rcases hl : solveLoop (computeLumps comps).1 (computeLumps comps).2
        ((computeLumps comps).1 ground) maxIter comps none 0 with _ | r0
    · rw [hl] at h; exact absurd h (by simp)
    · rw [hl] at h
      simp only [Option.some.injEq] at h
      have hskel := solveLoop_skeleton hl
      have hvs : vsList r0.comps = vsList comps := vsList_eq_of_skeleton hskel
      have hcount : r0.comps.countP (fun c => c.cname = name) = 1 := by
        rw [countP_cname_eq_of_skeleton hskel, huniq]
      have hk' : (vsList r0.comps).get? k = some (a, b, v, name) := by rw [hvs]; exact hk
      have hmemsrc : Component.voltageSource a b v name ∈ r0.comps :=
        vsList_get_mem hk'
      have huniq' : ∀ c ∈ r0.comps, c.cname = name →
          c = Component.voltageSource a b v name := by
        intro c hc hcn
        exact countP_le_one_unique (le_of_eq hcount) hc hmemsrc
          (by simpa using hcn) (by simp [Component.cname])
      have hext := extractCurrents_dget_unique r0.comps (computeLumps comps).1
        ((computeLumps comps).2 - 1) (fun cl => listGet r0.volt cl) r0.x a b v name
        r0.comps [] hcount huniq'
      have hpos : posOf (vsList r0.comps) (a, b, v, name) = k := by
        set p := posOf (vsList r0.comps) (a, b, v, name) with hp
        have hple : p ≤ k := posOf_le_of_get hk'
        rcases Nat.lt_or_ge p k with hlt | hge
        · exfalso
          have hgp : (vsList r0.comps).get? p = some (a, b, v, name) := get_posOf hk'
          have h2 : 2 ≤ (vsList r0.comps).countP (fun e => e.2.2.2 = name) :=
            two_le_countP hlt hgp hk' (by simp) (by simp)
          have h3 : (vsList r0.comps).countP (fun e => e.2.2.2 = name) ≤
              r0.comps.countP (fun c => c.cname = name) :=
            vsList_countP_name name r0.comps
          omega
        · omega
      rw [← h]
      show dget (extractCurrents r0.comps (computeLumps comps).1
          ((computeLumps comps).2 - 1) (fun cl => listGet r0.volt cl) r0.x r0.comps [])
        name = _
      rw [hext, hpos]
  · rw [if_neg hmem] at h
    exact absurd h (by simp)

/-- Witness for amended C1 at `circuit_led`: the single source `V1` (position
`0`) is reported with current `x[N + 0] = −1/30`. -/
theorem c1_amended_source_current_witness :
    dget circuitLedRes.currents "V1" =
      some (listGet circuitLedRes.x (((computeLumps circuitLed).2 - 1) + 0)) :=
  c1_amended_source_current circuitLed (0, 0) 10 0 (1, 0) (0, 0) (qofInt 5) "V1"
    circuitLedRes circuitLed_eval (by decide) (by decide)

/-- Two 5 V sources that share the default-style name `S`: the second's
current overwrites the first's dictionary entry. -/
def circuitTwoSources : List Component :=
  [Component.voltageSource (1, 0) (0, 0) (qofInt 5) "S",
   Component.resistor (1, 0) (0, 0) (qofInt 100) "R1",
   Component.voltageSource (2, 0) (0, 0) (qofInt 5) "S",
   Component.resistor (2, 0) (0, 0) (qofInt 50) "R2"]

/-- Result of solving `circuitTwoSources`: branch currents `−1/20` and
`−1/10`, the dictionary keeps only the latter under `"S"`. -/
def circuitTwoSourcesRes : FullRes :=
  ⟨[qofInt 5, qofInt 0, qofInt 5],
   [("S", qmk (-1) 10), ("R1", qmk 1 20), ("R2", qmk 1 10)],
   circuitTwoSources, [qofInt 5, qofInt 5, qmk (-1) 20, qmk (-1) 10], 2, true⟩

set_option maxHeartbeats 1600000 in
/-- C1 counterexample: in `circuitTwoSources` the source at position `0` of
the assembly order has branch-current unknown `x[N + 0] = −1/20`, but the
current `solve` reports for it — the dictionary entry at its name `"S"` — is
`−1/10`, because the second source with the same name overwrites it. -/
theorem c1_counterexample :
    solverSolve circuitTwoSources (0, 0) 10 = some circuitTwoSourcesRes ∧
      (vsList circuitTwoSources).get? 0 = some ((1, 0), (0, 0), qofInt 5, "S") ∧
      dget circuitTwoSourcesRes.currents "S" ≠
        some (listGet circuitTwoSourcesRes.x
          (((computeLumps circuitTwoSources).2 - 1) + 0)) := by
  have s1 : solveStep (computeLumps circuitTwoSources).1 3 1 circuitTwoSources =
      some (circuitTwoSources, [qofInt 5, qofInt 5, qmk (-1) 20, qmk (-1) 10],
            [qofInt 5, qofInt 0, qofInt 5]) := by decide
  have hk : (computeLumps circuitTwoSources).2 = 3 := by decide
  have hg : (computeLumps circuitTwoSources).1 (0, 0) = 1 := by decide
  have hmem : ((0, 0) : Node) ∈ nodesOf circuitTwoSources := by decide
  refine ⟨?_, by decide, by decide⟩
  rw [solverSolve, if_pos hmem, hk, hg, solveLoop, s1]
  simp only [ledStates]
  rw [solveLoop, s1]
  simp only [ledStates, reduceCtorEq, reduceIte, Option.some.injEq]
  decide

theorem solveLoop_converged_fixed {map : Node → ℕ} {K gIdx : ℕ} :
    ∀ {fuel : ℕ} {comps : List Component} {last : Option (List Bool)} {iters : ℕ}
      {r : SolveRes},
      (last = none ∨ last = some (ledStates comps)) →
      solveLoop map K gIdx fuel comps last iters = some r →
      r.converged = true →
      solveStep map K gIdx r.comps = some (r.comps, r.x, r.volt) := by
  intro fuel
  induction fuel with
  | zero => intro _ _ _ _ _ h; exact absurd h (by simp [solveLoop])
  | succ f ih =>
    intro comps last iters r hinv h hconv
    rw [solveLoop] at h
    rcases hs : solveStep map K gIdx comps with _ | ⟨comps', x, volt⟩
    · rw [hs] at h; exact absurd h (by simp)
    · rw [hs] at h
      simp only at h
      by_cases hbreak : last = some (ledStates comps')
      · rw [if_pos hbreak] at h
        cases h
        rcases hinv with hnone | hsome
        · rw [hnone] at hbreak; exact absurd hbreak (by simp)
        · rw [hsome] at hbreak
          simp only [Option.some.injEq] at hbreak
          have heq : comps = comps' :=
            eq_of_skeleton_of_ledStates (solveStep_skeleton hs) hbreak
          show solveStep map K gIdx comps' = some (comps', x, volt)
          rw [← heq]
          rw [← heq] at hs
          exact hs
      · rw [if_neg hbreak] at h
        match f, h with
        | 0, h =>
          cases h
          exact absurd hconv (by simp)
        | g + 1, h =>
          exact ih (Or.inr rfl) h hconv

theorem solveLoop_from_fixed {map : Node → ℕ} {K gIdx : ℕ}
    {comps : List Component} {x volt : List ℚ}
    (hfix : solveStep map K gIdx comps = some (comps, x, volt)) (f iters : ℕ) :
    solveLoop map K gIdx (f + 2) comps none iters =
      some ⟨comps, x, volt, iters + 2, true⟩ := by
  rw [solveLoop, hfix]
  simp only [reduceCtorEq, if_false]
  have hmatch : (match f + 1, (rfl : f + 1 = f + 1) with
      | 0, _ => some (⟨comps, x, volt, iters + 1, false⟩ : SolveRes)
      | _ + 1, _ => solveLoop map K gIdx (f + 1) comps (some (ledStates comps)) (iters + 1)) =
      solveLoop map K gIdx (f + 1) comps (some (ledStates comps)) (iters + 1) := rfl
  rw [solveLoop, hfix]
  simp

theorem solveLoop_unfold_cont {map : Node → ℕ} {K gIdx : ℕ}
    {comps comps' : List Component} {x volt : List ℚ} {last : Option (List Bool)}
    (f iters : ℕ)
    (hs : solveStep map K gIdx comps = some (comps', x, volt))
    (hne : last ≠ some (ledStates comps')) :
    solveLoop map K gIdx (f + 2) comps last iters =
      solveLoop map K gIdx (f + 1) comps' (some (ledStates comps')) (iters + 1) := by
  rw [solveLoop, hs]
  simp only [if_neg hne]

theorem solveLoop_unfold_last {map : Node → ℕ} {K gIdx : ℕ}
    {comps comps' : List Component} {x volt : List ℚ} {last : Option (List Bool)}
    (iters : ℕ)
    (hs : solveStep map K gIdx comps = some (comps', x, volt))
    (hne : last ≠ some (ledStates comps')) :
    solveLoop map K gIdx 1 comps last iters = some ⟨comps', x, volt, iters + 1, false⟩ := by
  rw [solveLoop, hs]
  simp only [if_neg hne]

/-- C7 (amended): when a `solve` call's nonlinear iteration reaches a stable
threshold-state vector before the cap (it converged), a second `solve` on
the untouched circuit returns bit-identical node-voltage and current
mappings (and the same solution vector and components), converging in two
iterations. -/
theorem c7_amended_idempotent_once_converged (comps : List Component) (ground : Node)
    (maxIter : ℕ) (r : FullRes) (h : solverSolve comps ground maxIter = some r)
    (hconv : r.converged = true) :
    solverSolve r.comps ground 10 = some ⟨r.volt, r.currents, r.comps, r.x, 2, true⟩ := by
  rw [solverSolve] at h
  by_cases hmem : ground ∈ nodesOf comps
  · rw [if_pos hmem] at h
    rcases hl : solveLoop (computeLumps comps).1 (computeLumps comps).2
        ((computeLumps comps).1 ground) maxIter comps none 0 with _ | r0
    · rw [hl] at h; exact absurd h (by simp)
    · rw [hl] at h
      simp only [Option.some.injEq] at h
      have hskel := solveLoop_skeleton hl
      have hlumps : computeLumps r0.comps = computeLumps comps :=
        computeLumps_eq_of_skeleton hskel
      have hconv0 : r0.converged = true := by
        rw [← h] at hconv
        exact hconv
      have hfix : solveStep (computeLumps comps).1 (computeLumps comps).2
          ((computeLumps comps).1 ground) r0.comps = some (r0.comps, r0.x, r0.volt) :=
        solveLoop_converged_fixed (Or.inl rfl) hl hconv0
      have hmem0 : ground ∈ nodesOf r0.comps := by
        rw [nodesOf_eq_of_skeleton hskel]
        exact hmem
      have hcomps : r.comps = r0.comps := by rw [← h]
      rw [hcomps, solverSolve, if_pos hmem0, hlumps,
        solveLoop_from_fixed hfix 8 0]
      simp only [Option.some.injEq]
      rw [← h]
  · rw [if_neg hmem] at h
    exact absurd h (by simp)

/-- Witness for amended C7: resolving the already-converged `circuit_led`
reproduces its voltages, currents, solution vector and components exactly. -/
theorem c7_amended_idempotent_once_converged_witness :
    solverSolve circuitLedRes.comps (0, 0) 10 =
      some ⟨circuitLedRes.volt, circuitLedRes.currents, circuitLedRes.comps,
            circuitLedRes.x, 2, true⟩ :=
  c7_amended_idempotent_once_converged circuitLed (0, 0) 10 circuitLedRes
    circuitLed_eval rfl

/-- The oscillator family: source, three resistors and two threshold
elements whose caller-supplied parameters (including negative resistances,
which nothing in the code rejects) make the LED-state update cycle with
period three: off/off → on/off → on/on → off/off → … -/
def oscBase (s1 s2 : Bool) : List Component :=
  [Component.voltageSource (1, 0) (0, 0) (qofInt 10) "V",
   Component.resistor (2, 0) (0, 0) (qmk 1000000000 2999999998999999999) "Ra",
   Component.resistor (3, 0) (0, 0) (qofInt (-1)) "Rb",
   Component.resistor (2, 0) (3, 0) (qofInt 1) "Rc",
   Component.led (1, 0) (2, 0) (qmk (-1) 3) (qofInt 5) s1 "L1",
   Component.led (1, 0) (3, 0) (qmk 2999999998999999999 1000000000) (qofInt 5) s2 "L2"]

/-- First solve of the oscillator: capped after 10 iterations. -/
def oscRes1 : FullRes :=
  ⟨[qofInt 10, qofInt 0, qmk 1000000001 200000000000000000, qmk 3000000001 200000000],
   [("V", qmk (-999999997999999999) 200000000000000000000000000), ("Ra", qmk 3000000001999999997999999999 200000000000000000000000000), ("Rb", qmk (-3000000001) 200000000), ("Rc", qmk (-2999999999999999999) 200000000000000000), ("L1", qmk (-5999999996999999997) 200000000000000000), ("L2", qofInt 0)],
   oscBase true false, [qofInt 10, qmk 1000000001 200000000000000000, qmk 3000000001 200000000, qmk (-999999997999999999) 200000000000000000000000000], 10, false⟩

/-- Second solve of the untouched oscillator: capped, with different voltages. -/
def oscRes2 : FullRes :=
  ⟨[qofInt 10, qofInt 0, qmk (-20000000000) 1999999996999999999, qmk (-30000000010) 1999999996999999999],
   [("V", qmk 59999999949999999970 1999999996999999999), ("Ra", qmk (-59999999979999999980) 1999999996999999999), ("Rb", qmk 30000000010 1999999996999999999), ("Rc", qmk 10000000010 1999999996999999999), ("L1", qmk (-59999999969999999970) 1999999996999999999), ("L2", qofInt 0)],
   oscBase true true, [qofInt 10, qmk (-20000000000) 1999999996999999999, qmk (-30000000010) 1999999996999999999, qmk 59999999949999999970 1999999996999999999], 10, false⟩

set_option maxHeartbeats 4000000 in
/-- C7 counterexample: the oscillator circuit is left untouched between two
consecutive `solve` calls with the same ground, yet the second call returns
different node voltages and different component currents than the first —
the first call caps with the LED states three-cycling, and the second call
resumes from the states stored by the first. -/
theorem c7_counterexample :
    solverSolve (oscBase false false) (0, 0) 10 = some oscRes1 ∧
      solverSolve oscRes1.comps (0, 0) 10 = some oscRes2 ∧
      oscRes1.volt ≠ oscRes2.volt ∧ oscRes1.currents ≠ oscRes2.currents := by
  have sFF : solveStep (computeLumps (oscBase false false)).1 4 1 (oscBase false false) =
      some (oscBase true false,
            [qofInt 10, qmk 1000000001 200000000000000000, qmk 3000000001 200000000, qmk (-999999997999999999) 200000000000000000000000000],
            [qofInt 10, qofInt 0, qmk 1000000001 200000000000000000, qmk 3000000001 200000000]) := by decide
  have sTF : solveStep (computeLumps (oscBase false false)).1 4 1 (oscBase true false) =
      some (oscBase true true,
            [qofInt 10, qmk (-20000000000) 1999999996999999999, qmk (-30000000010) 1999999996999999999, qmk 59999999949999999970 1999999996999999999],
            [qofInt 10, qofInt 0, qmk (-20000000000) 1999999996999999999, qmk (-30000000010) 1999999996999999999]) := by decide
  have sTT : solveStep (computeLumps (oscBase false false)).1 4 1 (oscBase true true) =
      some (oscBase false false,
            [qofInt 10, qofInt 10, qmk 2999999999999999999 100000000, qofInt 10],
            [qofInt 10, qofInt 0, qofInt 10, qmk 2999999999999999999 100000000]) := by decide
  have hmem : ((0, 0) : Node) ∈ nodesOf (oscBase false false) := by decide
  have hk : (computeLumps (oscBase false false)).2 = 4 := by decide
  have hg : (computeLumps (oscBase false false)).1 (0, 0) = 1 := by decide
  refine ⟨?_, ?_, by decide, by decide⟩
  · rw [solverSolve, if_pos hmem, hk, hg]
    have ea0 : solveLoop (computeLumps (oscBase false false)).1 4 1 10 (oscBase false false) none 0 =
        solveLoop (computeLumps (oscBase false false)).1 4 1 9 (oscBase true false) (some [true, false]) 1 :=
      solveLoop_unfold_cont 8 0 sFF (by decide)
    have ea1 : solveLoop (computeLumps (oscBase false false)).1 4 1 9 (oscBase true false) (some [true, false]) 1 =
        solveLoop (computeLumps (oscBase false false)).1 4 1 8 (oscBase true true) (some [true, true]) 2 :=
      solveLoop_unfold_cont 7 1 sTF (by decide)
    have ea2 : solveLoop (computeLumps (oscBase false false)).1 4 1 8 (oscBase true true) (some [true, true]) 2 =
        solveLoop (computeLumps (oscBase false false)).1 4 1 7 (oscBase false false) (some [false, false]) 3 :=
      solveLoop_unfold_cont 6 2 sTT (by decide)
    have ea3 : solveLoop (computeLumps (oscBase false false)).1 4 1 7 (oscBase false false) (some [false, false]) 3 =
        solveLoop (computeLumps (oscBase false false)).1 4 1 6 (oscBase true false) (some [true, false]) 4 :=
      solveLoop_unfold_cont 5 3 sFF (by decide)
    have ea4 : solveLoop (computeLumps (oscBase false false)).1 4 1 6 (oscBase true false) (some [true, false]) 4 =
        solveLoop (computeLumps (oscBase false false)).1 4 1 5 (oscBase true true) (some [true, true]) 5 :=
      solveLoop_unfold_cont 4 4 sTF (by decide)
    have ea5 : solveLoop (computeLumps (oscBase false false)).1 4 1 5 (oscBase true true) (some [true, true]) 5 =
        solveLoop (computeLumps (oscBase false false)).1 4 1 4 (oscBase false false) (some [false, false]) 6 :=
      solveLoop_unfold_cont 3 5 sTT (by decide)
    have ea6 : solveLoop (computeLumps (oscBase false false)).1 4 1 4 (oscBase false false) (some [false, false]) 6 =
        solveLoop (computeLumps (oscBase false false)).1 4 1 3 (oscBase true false) (some [true, false]) 7 :=
      solveLoop_unfold_cont 2 6 sFF (by decide)
    have ea7 : solveLoop (computeLumps (oscBase false false)).1 4 1 3 (oscBase true false) (some [true, false]) 7 =
        solveLoop (computeLumps (oscBase false false)).1 4 1 2 (oscBase true true) (some [true, true]) 8 :=
      solveLoop_unfold_cont 1 7 sTF (by decide)
    have ea8 : solveLoop (computeLumps (oscBase false false)).1 4 1 2 (oscBase true true) (some [true, true]) 8 =
        solveLoop (computeLumps (oscBase false false)).1 4 1 1 (oscBase false false) (some [false, false]) 9 :=
      solveLoop_unfold_cont 0 8 sTT (by decide)
    have ea9 : solveLoop (computeLumps (oscBase false false)).1 4 1 1 (oscBase false false) (some [false, false]) 9 =
        some ⟨oscBase true false, [qofInt 10, qmk 1000000001 200000000000000000, qmk 3000000001 200000000, qmk (-999999997999999999) 200000000000000000000000000],
              [qofInt 10, qofInt 0, qmk 1000000001 200000000000000000, qmk 3000000001 200000000], 10, false⟩ :=
      solveLoop_unfold_last 9 sFF (by decide)
    rw [ea0, ea1, ea2, ea3, ea4, ea5, ea6, ea7, ea8, ea9]
    decide
  · show solverSolve (oscBase true false) (0, 0) 10 = some oscRes2
    have hlumps2 : computeLumps (oscBase true false) = computeLumps (oscBase false false) :=
      computeLumps_eq_of_skeleton (by decide)
    have hmem2 : ((0, 0) : Node) ∈ nodesOf (oscBase true false) := by decide
    rw [solverSolve, if_pos hmem2, hlumps2, hk, hg]
    have eb0 : solveLoop (computeLumps (oscBase false false)).1 4 1 10 (oscBase true false) none 0 =
      solveLoop (computeLumps (oscBase false false)).1 4 1 9 (oscBase true true) (some [true, true]) 1 :=
    solveLoop_unfold_cont 8 0 sTF (by decide)
    have eb1 : solveLoop (computeLumps (oscBase false false)).1 4 1 9 (oscBase true true) (some [true, true]) 1 =
      solveLoop (computeLumps (oscBase false false)).1 4 1 8 (oscBase false false) (some [false, false]) 2 :=
    solveLoop_unfold_cont 7 1 sTT (by decide)
    have eb2 : solveLoop (computeLumps (oscBase false false)).1 4 1 8 (oscBase false false) (some [false, false]) 2 =
      solveLoop (computeLumps (oscBase false false)).1 4 1 7 (oscBase true false) (some [true, false]) 3 :=
    solveLoop_unfold_cont 6 2 sFF (by decide)
    have eb3 : solveLoop (computeLumps (oscBase false false)).1 4 1 7 (oscBase true false) (some [true, false]) 3 =
      solveLoop (computeLumps (oscBase false false)).1 4 1 6 (oscBase true true) (some [true, true]) 4 :=
    solveLoop_unfold_cont 5 3 sTF (by decide)
    have eb4 : solveLoop (computeLumps (oscBase false false)).1 4 1 6 (oscBase true true) (some [true, true]) 4 =
      solveLoop (computeLumps (oscBase false false)).1 4 1 5 (oscBase false false) (some [false, false]) 5 :=
    solveLoop_unfold_cont 4 4 sTT (by decide)
    have eb5 : solveLoop (computeLumps (oscBase false false)).1 4 1 5 (oscBase false false) (some [false, false]) 5 =
      solveLoop (computeLumps (oscBase false false)).1 4 1 4 (oscBase true false) (some [true, false]) 6 :=
    solveLoop_unfold_cont 3 5 sFF (by decide)
    have eb6 : solveLoop (computeLumps (oscBase false false)).1 4 1 4 (oscBase true false) (some [true, false]) 6 =
      solveLoop (computeLumps (oscBase false false)).1 4 1 3 (oscBase true true) (some [true, true]) 7 :=
    solveLoop_unfold_cont 2 6 sTF (by decide)
    have eb7 : solveLoop (computeLumps (oscBase false false)).1 4 1 3 (oscBase true true) (some [true, true]) 7 =
      solveLoop (computeLumps (oscBase false false)).1 4 1 2 (oscBase false false) (some [false, false]) 8 :=
    solveLoop_unfold_cont 1 7 sTT (by decide)
    have eb8 : solveLoop (computeLumps (oscBase false false)).1 4 1 2 (oscBase false false) (some [false, false]) 8 =
      solveLoop (computeLumps (oscBase false false)).1 4 1 1 (oscBase true false) (some [true, false]) 9 :=
    solveLoop_unfold_cont 0 8 sFF (by decide)
    have eb9 : solveLoop (computeLumps (oscBase false false)).1 4 1 1 (oscBase true false) (some [true, false]) 9 =
      some ⟨oscBase true true, [qofInt 10, qmk (-20000000000) 1999999996999999999, qmk (-30000000010) 1999999996999999999, qmk 59999999949999999970 1999999996999999999],
            [qofInt 10, qofInt 0, qmk (-20000000000) 1999999996999999999, qmk (-30000000010) 1999999996999999999], 10, false⟩ :=
    solveLoop_unfold_last 9 sTF (by decide)
    rw [eb0, eb1, eb2, eb3, eb4, eb5, eb6, eb7, eb8, eb9]
    decide

/-! ### Union-find correctness: root equality is wire connectivity -/

theorem ufFind_zero (p : Node → Node) (x : Node) : ufFind 0 p x = x := rfl

theorem ufFind_succ (f : ℕ) (p : Node → Node) (x : Node) :
    ufFind (f + 1) p x = if p x = x then x else ufFind f p (p x) := rfl

/-- A parent chain that stops at a fixpoint within `k` steps is what
`ufFind` computes, given at least `k` fuel. -/
theorem ufFind_eq_of_iter {p : Node → Node} :
    ∀ {fuel k : ℕ} {x : Node}, k ≤ fuel → p (p^[k] x) = p^[k] x →
      ufFind fuel p x = p^[k] x := by
  intro fuel
  induction fuel with
  | zero =>
    intro k x hk hfix
    interval_cases k
    rfl
  | succ f ih =>
    intro k x hk hfix
    rw [ufFind_succ]
    by_cases hx : p x = x
    · rw [if_pos hx, Function.iterate_fixed hx]
    · rw [if_neg hx]
      cases k with
      | zero =>
        simp only [Function.iterate_zero_apply] at hfix
        exact absurd hfix hx
      | succ k' =>
        rw [Function.iterate_succ_apply] at hfix ⊢
        exact ih (Nat.le_of_succ_le_succ hk) hfix

theorem ufFind_fixed {p : Node → Node} {x : Node} (h : p x = x) :
    ∀ fuel, ufFind fuel p x = x
  | 0 => rfl
  | f + 1 => by rw [ufFind_succ, if_pos h]

/-- Updating the parent of a node the chain never visits leaves the chain
unchanged. -/
theorem iterate_update_eq {p : Node → Node} {rb ra : Node} :
    ∀ {k : ℕ} {x : Node}, (∀ j, j < k → p^[j] x ≠ rb) →
      (Function.update p rb ra)^[k] x = p^[k] x := by
  intro k
  induction k with
  | zero => intro x _; rfl
  | succ k ih =>
    intro x hne
    rw [Function.iterate_succ_apply, Function.iterate_succ_apply]
    have h0 : x ≠ rb := by simpa using hne 0 (Nat.succ_pos k)
    rw [Function.update_noteq h0]
    refine ih (fun j hj => ?_)
    have := hne (j + 1) (Nat.succ_lt_succ hj)
    rwa [Function.iterate_succ_apply] at this

/-- Well-formedness of a union-find parent map over node list `ns`:
non-trivial links stay inside `ns`, and every parent chain reaches a
fixpoint within `m` steps. -/
structure UFState (ns : List Node) (p : Node → Node) (m : ℕ) : Prop where
  closure : ∀ x : Node, p x ≠ x → x ∈ ns ∧ p x ∈ ns
  reach : ∀ x : Node, ∃ k, k ≤ m ∧ p (p^[k] x) = p^[k] x

theorem UFState.find_root {ns : List Node} {p : Node → Node} {m : ℕ}
    (st : UFState ns p m) {fuel : ℕ} (hm : m ≤ fuel) (x : Node) :
    p (ufFind fuel p x) = ufFind fuel p x ∧
      ∃ k, k ≤ m ∧ p^[k] x = ufFind fuel p x := by
  obtain ⟨k, hk, hfix⟩ := st.reach x
  rw [ufFind_eq_of_iter (le_trans hk hm) hfix]
  exact ⟨hfix, k, hk, rfl⟩

theorem UFState.find_mem {ns : List Node} {p : Node → Node} {m : ℕ}
    (st : UFState ns p m) (fuel : ℕ) (x : Node) :
    ufFind fuel p x = x ∨ (x ∈ ns ∧ ufFind fuel p x ∈ ns) := by
  induction fuel generalizing x with
  | zero => exact Or.inl rfl
  | succ f ih =>
    rw [ufFind_succ]
    by_cases hx : p x = x
    · rw [if_pos hx]
      exact Or.inl rfl
    · rw [if_neg hx]
      obtain ⟨hxm, hpxm⟩ := st.closure x hx
      rcases ih (p x) with h | h
      · refine Or.inr ⟨hxm, ?_⟩
        rw [h]
        exact hpxm
      · exact Or.inr ⟨hxm, h.2⟩

theorem UFState.find_mem_of_mem {ns : List Node} {p : Node → Node} {m : ℕ}
    (st : UFState ns p m) (fuel : ℕ) {x : Node} (hx : x ∈ ns) :
    ufFind fuel p x ∈ ns := by
  rcases st.find_mem fuel x with h | h
  · rw [h]
    exact hx
  · exact h.2

/-- Linking root `rb` under root `ra` redirects exactly the chains that used
to end at `rb`: the new chain from `x` reaches, within one extra step, `ra`
if the old chain ended at `rb` and the old root otherwise. -/
theorem update_chain {p : Node → Node} {ra rb : Node}
    (hra : p ra = ra) (hrb : p rb = rb) (hne : ra ≠ rb) {x : Node} {k : ℕ}
    (hfix : p (p^[k] x) = p^[k] x) :
    ∃ j, j ≤ k + 1 ∧
      (Function.update p rb ra)^[j] x = (if p^[k] x = rb then ra else p^[k] x) ∧
      Function.update p rb ra ((Function.update p rb ra)^[j] x) =
        (Function.update p rb ra)^[j] x := by
  by_cases hcase : p^[k] x = rb
  · rw [if_pos hcase]
    have hex : ∃ j, p^[j] x = rb := ⟨k, hcase⟩
    have h0 : p^[Nat.find hex] x = rb := Nat.find_spec hex
    have hmin : ∀ j, j < Nat.find hex → p^[j] x ≠ rb := fun j hj => Nat.find_min hex hj
    have hk0 : Nat.find hex ≤ k := Nat.find_min' hex hcase
    have hch : (Function.update p rb ra)^[Nat.find hex] x = rb :=
      (iterate_update_eq hmin).trans h0
    have hstep : (Function.update p rb ra)^[Nat.find hex + 1] x = ra := by
      rw [Function.iterate_succ_apply', hch, Function.update_same]
    refine ⟨Nat.find hex + 1, by omega, hstep, ?_⟩
    rw [hstep, Function.update_noteq hne, hra]
  · rw [if_neg hcase]
    have hnever : ∀ j, p^[j] x ≠ rb := by
      intro j hj
      rcases le_or_lt j k with h | h
      · have hsplit : p^[k] x = p^[k - j] (p^[j] x) := by
          conv_lhs => rw [show k = (k - j) + j by omega]
          rw [Function.iterate_add_apply]
        rw [hsplit, hj, Function.iterate_fixed hrb] at hcase
        exact hcase rfl
      · have hsplit : p^[j] x = p^[j - k] (p^[k] x) := by
          conv_lhs => rw [show j = (j - k) + k by omega]
          rw [Function.iterate_add_apply]
        rw [hsplit, Function.iterate_fixed hfix] at hj
        exact hcase hj
    have hch : (Function.update p rb ra)^[k] x = p^[k] x :=
      iterate_update_eq (fun j _ => hnever j)
    refine ⟨k, by omega, hch, ?_⟩
    rw [hch, Function.update_noteq hcase, hfix]

/-- Number of union-find roots among the distinct nodes of `ns`. -/
def rootsCnt (ns : List Node) (p : Node → Node) : ℕ :=
  (ns.dedup.filter (fun x => decide (p x = x))).length

theorem rootsCnt_id (ns : List Node) : rootsCnt ns id = ns.dedup.length := by
  rw [rootsCnt]
  rw [List.filter_eq_self.mpr (fun x _ => by simp)]

/-- Linking root `rb` under another root removes exactly one root from the
count. -/
theorem rootsCnt_update {ns : List Node} {p : Node → Node} {ra rb : Node}
    (hrb : p rb = rb) (hne : ra ≠ rb) (hmem : rb ∈ ns) :
    rootsCnt ns (Function.update p rb ra) + 1 = rootsCnt ns p := by
  obtain ⟨s, t, hst⟩ := List.append_of_mem (List.mem_dedup.mpr hmem)
  have hnd : (ns.dedup).Nodup := List.nodup_dedup ns
  rw [rootsCnt, rootsCnt, hst]
  rw [hst] at hnd
  have h1 := List.nodup_append.mp hnd
  have hrb_t : rb ∉ t := (List.nodup_cons.mp h1.2.1).1
  have hrb_s : rb ∉ s := fun h => (h1.2.2 h) (List.mem_cons_self rb t)
  have hs : s.filter (fun x => decide (Function.update p rb ra x = x)) =
      s.filter (fun x => decide (p x = x)) :=
    List.filter_congr (fun x hx => by
      rw [Function.update_noteq (fun hxx : x = rb => hrb_s (hxx ▸ hx))])
  have ht : t.filter (fun x => decide (Function.update p rb ra x = x)) =
      t.filter (fun x => decide (p x = x)) :=
    List.filter_congr (fun x hx => by
      rw [Function.update_noteq (fun hxx : x = rb => hrb_t (hxx ▸ hx))])
  rw [List.filter_append, List.filter_append, List.filter_cons, List.filter_cons]
  simp only [Function.update_same]
  rw [if_neg (by simp [hne]), if_pos (by simp [hrb])]
  rw [hs, ht]
  simp only [List.length_append, List.length_cons]
  omega

theorem ufUnion_def (fuel : ℕ) (p : Node → Node) (a b : Node) :
    ufUnion fuel p a b =
      if ufFind fuel p a = ufFind fuel p b then p
      else Function.update p (ufFind fuel p b) (ufFind fuel p a) := rfl

theorem UFState.m_le_fuel {ns : List Node} {p : Node → Node} {m fuel : ℕ}
    (hsum : m + rootsCnt ns p = ns.dedup.length) (hfuel : fuel = ns.length) :
    m ≤ fuel := by
  have h1 : ns.dedup.length ≤ ns.length := (List.dedup_sublist ns).length_le
  omega

theorem UFState.m_lt_fuel {ns : List Node} {p : Node → Node} {m fuel : ℕ}
    (st : UFState ns p m) (hsum : m + rootsCnt ns p = ns.dedup.length)
    (hfuel : fuel = ns.length) {a : Node} (ha : a ∈ ns) : m < fuel := by
  have hm : m ≤ fuel := UFState.m_le_fuel hsum hfuel
  have hroot := (st.find_root hm a).1
  have hmem : ufFind fuel p a ∈ ns.dedup.filter (fun x => decide (p x = x)) :=
    List.mem_filter.mpr ⟨List.mem_dedup.mpr (st.find_mem_of_mem fuel ha), by simp [hroot]⟩
  have hcnt : 1 ≤ rootsCnt ns p := List.length_pos_of_mem hmem
  have h1 : ns.dedup.length ≤ ns.length := (List.dedup_sublist ns).length_le
  omega

/-- `union` preserves well-formedness and the `links + roots` budget. -/
theorem ufUnion_state {ns : List Node} {p : Node → Node} {m fuel : ℕ} {a b : Node}
    (st : UFState ns p m) (hsum : m + rootsCnt ns p = ns.dedup.length)
    (hfuel : fuel = ns.length) (ha : a ∈ ns) (hb : b ∈ ns) :
    ∃ m', UFState ns (ufUnion fuel p a b) m' ∧
      m' + rootsCnt ns (ufUnion fuel p a b) = ns.dedup.length := by
  rw [ufUnion_def]
  by_cases hpp : ufFind fuel p a = ufFind fuel p b
  · rw [if_pos hpp]
    exact ⟨m, st, hsum⟩
  · rw [if_neg hpp]
    have hm : m ≤ fuel := UFState.m_le_fuel hsum hfuel
    have hpa := (st.find_root hm a).1
    have hpb := (st.find_root hm b).1
    have hbmem : ufFind fuel p b ∈ ns := st.find_mem_of_mem fuel hb
    have hamem : ufFind fuel p a ∈ ns := st.find_mem_of_mem fuel ha
    refine ⟨m + 1, ⟨?_, ?_⟩, ?_⟩
    · intro x hx
      by_cases hxb : x = ufFind fuel p b
      · subst hxb
        rw [Function.update_same]
        exact ⟨hbmem, hamem⟩
      · rw [Function.update_noteq hxb] at hx ⊢
        exact st.closure x hx
    · intro x
      obtain ⟨k, hk, hfix⟩ := st.reach x
      obtain ⟨j, hj, _, hjfix⟩ := update_chain hpa hpb hpp hfix
      exact ⟨j, by omega, hjfix⟩
    · have := rootsCnt_update hpb hpp hbmem
      omega

/-- Two nodes lie in the same union-find class: equal roots. -/
def sameRoot (fuel : ℕ) (p : Node → Node) (x y : Node) : Prop :=
  ufFind fuel p x = ufFind fuel p y

theorem sameRoot_equivalence (fuel : ℕ) (p : Node → Node) :
    Equivalence (sameRoot fuel p) :=
  ⟨fun _ => rfl, Eq.symm, Eq.trans⟩

/-- The root-change formula for a link: after `update p rb ra` (both roots,
distinct), the root of `x` is `ra` if it used to be `rb`, unchanged
otherwise. -/
theorem ufFind_update {ns : List Node} {p : Node → Node} {m fuel : ℕ}
    (st : UFState ns p m) (hm : m < fuel) {ra rb : Node}
    (hra : p ra = ra) (hrb : p rb = rb) (hne : ra ≠ rb) (x : Node) :
    ufFind fuel (Function.update p rb ra) x =
      if ufFind fuel p x = rb then ra else ufFind fuel p x := by
  obtain ⟨hroot, k, hk, hiter⟩ := st.find_root (le_of_lt hm) x
  obtain ⟨j, hj, hval, hjfix⟩ := update_chain hra hrb hne (x := x) (k := k) (by rw [hiter]; exact hroot)
  rw [ufFind_eq_of_iter (by omega) hjfix, hval, hiter]

/-- Ordered endpoint pairs of the wires of a component list. -/
def wireEdges : List Component → List (Node × Node)
  | [] => []
  | Component.wire a b _ :: rest => (a, b) :: wireEdges rest
  | _ :: rest => wireEdges rest

/-- Adjacency through a list of undirected edges. -/
def edgeRel (E : List (Node × Node)) (x y : Node) : Prop :=
  (x, y) ∈ E ∨ (y, x) ∈ E

/-- Connectivity generated by a single edge `{a, b}` on top of an
equivalence `S`, in closed form. -/
theorem eqvGen_single_edge {S : Node → Node → Prop} (hS : Equivalence S) (a b : Node)
    {x y : Node} :
    Relation.EqvGen (fun u v => (u = a ∧ v = b) ∨ (u = b ∧ v = a) ∨ S u v) x y ↔
      S x y ∨ (S x a ∧ S b y) ∨ (S x b ∧ S a y) := by
  constructor
  · intro h
    induction h with
    | rel u v huv =>
      rcases huv with ⟨rfl, rfl⟩ | ⟨rfl, rfl⟩ | h
      · exact Or.inr (Or.inl ⟨hS.refl u, hS.refl v⟩)
      · exact Or.inr (Or.inr ⟨hS.refl u, hS.refl v⟩)
      · exact Or.inl h
    | refl u => exact Or.inl (hS.refl u)
    | symm u v _ ih =>
      rcases ih with h | ⟨h1, h2⟩ | ⟨h1, h2⟩
      · exact Or.inl (hS.symm h)
      · exact Or.inr (Or.inr ⟨hS.symm h2, hS.symm h1⟩)
      · exact Or.inr (Or.inl ⟨hS.symm h2, hS.symm h1⟩)
    | trans u v w _ _ ih1 ih2 =>
      rcases ih1 with h1 | ⟨h1a, h1b⟩ | ⟨h1a, h1b⟩ <;>
        rcases ih2 with h2 | ⟨h2a, h2b⟩ | ⟨h2a, h2b⟩
      · exact Or.inl (hS.trans h1 h2)
      · exact Or.inr (Or.inl ⟨hS.trans h1 h2a, h2b⟩)
      · exact Or.inr (Or.inr ⟨hS.trans h1 h2a, h2b⟩)
      · exact Or.inr (Or.inl ⟨h1a, hS.trans h1b h2⟩)
      · exact Or.inl (hS.trans h1a (hS.trans (hS.symm (hS.trans h1b h2a)) h2b))
      · exact Or.inl (hS.trans h1a h2b)
      · exact Or.inr (Or.inr ⟨h1a, hS.trans h1b h2⟩)
      · exact Or.inl (hS.trans h1a h2b)
      · exact Or.inl (hS.trans h1a (hS.trans (hS.symm (hS.trans h1b h2a)) h2b))
  · intro h
    have hedge : Relation.EqvGen (fun u v => (u = a ∧ v = b) ∨ (u = b ∧ v = a) ∨ S u v) a b :=
      Relation.EqvGen.rel a b (Or.inl ⟨rfl, rfl⟩)
    have hlift : ∀ u v, S u v →
        Relation.EqvGen (fun u v => (u = a ∧ v = b) ∨ (u = b ∧ v = a) ∨ S u v) u v :=
      fun u v huv => Relation.EqvGen.rel u v (Or.inr (Or.inr huv))
    rcases h with h | ⟨h1, h2⟩ | ⟨h1, h2⟩
    · exact hlift x y h
    · exact Relation.EqvGen.trans x a y (hlift x a h1)
        (Relation.EqvGen.trans a b y hedge (hlift b y h2))
    · exact Relation.EqvGen.trans x b y (hlift x b h1)
        (Relation.EqvGen.trans b a y
          (Relation.EqvGen.symm a b hedge) (hlift a y h2))

theorem eqvGen_sup_eqvGen {r s : Node → Node → Prop} {x y : Node} :
    Relation.EqvGen (fun u v => r u v ∨ Relation.EqvGen s u v) x y ↔
      Relation.EqvGen (fun u v => r u v ∨ s u v) x y := by
  constructor
  · intro h
    induction h with
    | rel u v huv =>
      rcases huv with h | h
      · exact Relation.EqvGen.rel u v (Or.inl h)
      · exact Relation.EqvGen.mono (fun a b hab => Or.inr hab) h
    | refl u => exact Relation.EqvGen.refl u
    | symm u v _ ih => exact Relation.EqvGen.symm u v ih
    | trans u v w _ _ ih1 ih2 => exact Relation.EqvGen.trans u v w ih1 ih2
  · intro h
    refine Relation.EqvGen.mono (fun u v huv => ?_) h
    exact huv.imp id (fun hs => Relation.EqvGen.rel u v hs)

theorem eqvGen_sup_eq {r : Node → Node → Prop} {x y : Node} :
    Relation.EqvGen (fun u v => r u v ∨ u = v) x y ↔ Relation.EqvGen r x y := by
  constructor
  · intro h
    induction h with
    | rel u v huv =>
      rcases huv with h | rfl
      · exact Relation.EqvGen.rel u v h
      · exact Relation.EqvGen.refl u
    | refl u => exact Relation.EqvGen.refl u
    | symm u v _ ih => exact Relation.EqvGen.symm u v ih
    | trans u v w _ _ ih1 ih2 => exact Relation.EqvGen.trans u v w ih1 ih2
  · intro h
    exact Relation.EqvGen.mono (fun u v huv => Or.inl huv) h

/-- One union merges exactly the single-edge connectivity into the class
relation. -/
theorem ufUnion_kernel {ns : List Node} {p : Node → Node} {m fuel : ℕ} {a b : Node}
    (st : UFState ns p m) (hsum : m + rootsCnt ns p = ns.dedup.length)
    (hfuel : fuel = ns.length) (ha : a ∈ ns) (hb : b ∈ ns) (x y : Node) :
    sameRoot fuel (ufUnion fuel p a b) x y ↔
      Relation.EqvGen (fun u v => (u = a ∧ v = b) ∨ (u = b ∧ v = a) ∨ sameRoot fuel p u v)
        x y := by
  rw [eqvGen_single_edge (sameRoot_equivalence fuel p) a b]
  have hm : m ≤ fuel := UFState.m_le_fuel hsum hfuel
  rw [ufUnion_def]
  by_cases hpp : ufFind fuel p a = ufFind fuel p b
  · rw [if_pos hpp]
    constructor
    · exact fun h => Or.inl h
    · rintro (h | ⟨h1, h2⟩ | ⟨h1, h2⟩)
      · exact h
      · exact h1.trans (hpp.trans h2)
      · exact h1.trans (hpp.symm.trans h2)
  · rw [if_neg hpp]
    have hpa := (st.find_root hm a).1
    have hpb := (st.find_root hm b).1
    have hmlt : m < fuel := st.m_lt_fuel hsum hfuel ha
    have hupd := ufFind_update st hmlt hpa hpb hpp
    show ufFind fuel (Function.update p (ufFind fuel p b) (ufFind fuel p a)) x =
        ufFind fuel (Function.update p (ufFind fuel p b) (ufFind fuel p a)) y ↔ _
    rw [hupd x, hupd y]
    by_cases hx : ufFind fuel p x = ufFind fuel p b <;>
      by_cases hy : ufFind fuel p y = ufFind fuel p b
    · rw [if_pos hx, if_pos hy]
      constructor
      · intro _
        exact Or.inl (hx.trans hy.symm)
      · intro _
        rfl
    · rw [if_pos hx, if_neg hy]
      constructor
      · intro h
        exact Or.inr (Or.inr ⟨hx, h⟩)
      · rintro (h | ⟨h1, h2⟩ | ⟨h1, h2⟩)
        · exact absurd (h.symm.trans hx) hy
        · exact absurd (h1.symm.trans hx) hpp
        · exact h2
    · rw [if_neg hx, if_pos hy]
      constructor
      · intro h
        exact Or.inr (Or.inl ⟨h, hy.symm⟩)
      · rintro (h | ⟨h1, h2⟩ | ⟨h1, h2⟩)
        · exact absurd (h.trans hy) hx
        · exact h1
        · exact absurd h1 hx
    · rw [if_neg hx, if_neg hy]
      constructor
      · intro h
        exact Or.inl h
      · rintro (h | ⟨h1, h2⟩ | ⟨h1, h2⟩)
        · exact h
        · exact absurd h2.symm hy
        · exact absurd h1 hx

theorem mem_insertNode {α : Type} [DecidableEq α] {l : List α} {n x : α} :
    x ∈ insertNode l n ↔ x ∈ l ∨ x = n := by
  rw [insertNode]
  by_cases h : n ∈ l
  · rw [if_pos h]
    constructor
    · exact Or.inl
    · rintro (hx | rfl)
      · exact hx
      · exact h
  · rw [if_neg h]
    simp [List.mem_append]

theorem nodesOf_go_mem : ∀ (comps : List Component) (acc : List Node) (x : Node),
    x ∈ nodesOf.go acc comps ↔ x ∈ acc ∨ ∃ c ∈ comps, x = c.endA ∨ x = c.endB
  | [], acc, x => by simp [nodesOf.go]
  | c :: rest, acc, x => by
    show x ∈ nodesOf.go (insertNode (insertNode acc c.endA) c.endB) rest ↔ _
    rw [nodesOf_go_mem rest _ x, mem_insertNode, mem_insertNode]
    simp only [List.mem_cons]
    constructor
    · rintro (((h | h) | h) | ⟨d, hd, h⟩)
      · exact Or.inl h
      · exact Or.inr ⟨c, Or.inl rfl, Or.inl h⟩
      · exact Or.inr ⟨c, Or.inl rfl, Or.inr h⟩
      · exact Or.inr ⟨d, Or.inr hd, h⟩
    · rintro (h | ⟨d, rfl | hd, h⟩)
      · exact Or.inl (Or.inl (Or.inl h))
      · rcases h with h | h
        · exact Or.inl (Or.inl (Or.inr h))
        · exact Or.inl (Or.inr h)
      · exact Or.inr ⟨d, hd, h⟩

theorem mem_nodesOf {comps : List Component} {x : Node} :
    x ∈ nodesOf comps ↔ ∃ c ∈ comps, x = c.endA ∨ x = c.endB := by
  rw [nodesOf, nodesOf_go_mem]
  simp

theorem endpoints_mem_nodesOf {comps : List Component} {c : Component} (hc : c ∈ comps) :
    c.endA ∈ nodesOf comps ∧ c.endB ∈ nodesOf comps :=
  ⟨mem_nodesOf.mpr ⟨c, hc, Or.inl rfl⟩, mem_nodesOf.mpr ⟨c, hc, Or.inr rfl⟩⟩

/-- The union-find fold over the component list: the final class relation is
the connectivity generated by the wire edges on top of the initial classes,
and well-formedness plus the root budget are maintained. -/
theorem ufParent_kernel {ns : List Node} {fuel : ℕ} (hfuel : fuel = ns.length) :
    ∀ (comps : List Component) (p : Node → Node) (m : ℕ),
      UFState ns p m → m + rootsCnt ns p = ns.dedup.length →
      (∀ c ∈ comps, c.isWire = true → c.endA ∈ ns ∧ c.endB ∈ ns) →
      (∃ m', UFState ns (ufParent fuel comps p) m' ∧
        m' + rootsCnt ns (ufParent fuel comps p) = ns.dedup.length) ∧
      ∀ x y, sameRoot fuel (ufParent fuel comps p) x y ↔
        Relation.EqvGen (fun u v => edgeRel (wireEdges comps) u v ∨ sameRoot fuel p u v)
          x y := by
  intro comps
  induction comps with
  | nil =>
    intro p m st hsum _
    refine ⟨⟨m, st, hsum⟩, fun x y => ?_⟩
    show sameRoot fuel p x y ↔ _
    constructor
    · intro h
      exact Relation.EqvGen.rel x y (Or.inr h)
    · intro h
      induction h with
      | rel u v huv =>
        rcases huv with h | h
        · rcases h with h | h <;> simp [wireEdges] at h
        · exact h
      | refl u => exact (sameRoot_equivalence fuel p).refl u
      | symm u v _ ih => exact (sameRoot_equivalence fuel p).symm ih
      | trans u v w _ _ ih1 ih2 => exact (sameRoot_equivalence fuel p).trans ih1 ih2
  | cons c rest ih =>
    intro p m st hsum hmem
    cases c with
    | wire a b name =>
      have hab := hmem (Component.wire a b name) (List.mem_cons_self _ _) rfl
      obtain ⟨m₁, st₁, hsum₁⟩ := ufUnion_state st hsum hfuel hab.1 hab.2
      obtain ⟨hstate, hker⟩ :=
        ih (ufUnion fuel p a b) m₁ st₁ hsum₁
          (fun d hd hw => hmem d (List.mem_cons_of_mem _ hd) hw)
      refine ⟨hstate, fun x y => ?_⟩
      show sameRoot fuel (ufParent fuel rest (ufUnion fuel p a b)) x y ↔ _
      rw [hker x y]
      have hstep : ∀ u v, sameRoot fuel (ufUnion fuel p a b) u v ↔
          Relation.EqvGen
            (fun u' v' => (u' = a ∧ v' = b) ∨ (u' = b ∧ v' = a) ∨ sameRoot fuel p u' v') u v :=
        fun u v => ufUnion_kernel st hsum hfuel hab.1 hab.2 u v
      constructor
      · intro h
        have h1 := Relation.EqvGen.mono
          (fun u v huv => huv.imp id (fun hs => (hstep u v).mp hs)) h
        have h2 := eqvGen_sup_eqvGen.mp h1
        refine Relation.EqvGen.mono (fun u v huv => ?_) h2
        rcases huv with he | ⟨rfl, rfl⟩ | ⟨rfl, rfl⟩ | hs
        · refine Or.inl ?_
          rcases he with he | he
          · exact Or.inl (List.mem_cons_of_mem _ he)
          · exact Or.inr (List.mem_cons_of_mem _ he)
        · exact Or.inl (Or.inl (List.mem_cons_self _ _))
        · exact Or.inl (Or.inr (List.mem_cons_self _ _))
        · exact Or.inr hs
      · intro h
        have h2 : Relation.EqvGen
            (fun u v => edgeRel (wireEdges rest) u v ∨
              ((u = a ∧ v = b) ∨ (u = b ∧ v = a) ∨ sameRoot fuel p u v)) x y := by
          refine Relation.EqvGen.mono (fun u v huv => ?_) h
          rcases huv with he | hs
          · rcases he with he | he
            · rcases List.mem_cons.mp he with hh | he'
              · have : u = a ∧ v = b := by
                  constructor
                  · exact congrArg Prod.fst hh
                  · exact congrArg Prod.snd hh
                exact Or.inr (Or.inl this)
              · exact Or.inl (Or.inl he')
            · rcases List.mem_cons.mp he with hh | he'
              · have : v = a ∧ u = b := by
                  constructor
                  · exact congrArg Prod.fst hh
                  · exact congrArg Prod.snd hh
                exact Or.inr (Or.inr (Or.inl ⟨this.2, this.1⟩))
              · exact Or.inl (Or.inr he')
          · exact Or.inr (Or.inr (Or.inr hs))
        have h3 := eqvGen_sup_eqvGen.mpr h2
        exact Relation.EqvGen.mono
          (fun u v huv => huv.imp id (fun hs => (hstep u v).mpr hs)) h3
    | resistor a b R name =>
      obtain ⟨hstate, hker⟩ :=
        ih p m st hsum (fun d hd hw => hmem d (List.mem_cons_of_mem _ hd) hw)
      exact ⟨hstate, fun x y => hker x y⟩
    | voltageSource a b v name =>
      obtain ⟨hstate, hker⟩ :=
        ih p m st hsum (fun d hd hw => hmem d (List.mem_cons_of_mem _ hd) hw)
      exact ⟨hstate, fun x y => hker x y⟩
    | led a b rOn thr s name =>
      obtain ⟨hstate, hker⟩ :=
        ih p m st hsum (fun d hd hw => hmem d (List.mem_cons_of_mem _ hd) hw)
      exact ⟨hstate, fun x y => hker x y⟩

/-- The union-find of `compute_lumps` groups two nodes together exactly when
they are connected through wire components. -/
theorem computeLumps_sameRoot (comps : List Component) (x y : Node) :
    sameRoot (nodesOf comps).length (ufParent (nodesOf comps).length comps id) x y ↔
      Relation.EqvGen (edgeRel (wireEdges comps)) x y := by
  have hinit : UFState (nodesOf comps) id 0 :=
    ⟨fun z hz => absurd rfl hz, fun z => ⟨0, le_refl 0, rfl⟩⟩
  have hsum : 0 + rootsCnt (nodesOf comps) id = (nodesOf comps).dedup.length := by
    rw [rootsCnt_id, Nat.zero_add]
  have hmem : ∀ c ∈ comps, c.isWire = true →
      c.endA ∈ nodesOf comps ∧ c.endB ∈ nodesOf comps :=
    fun c hc _ => endpoints_mem_nodesOf hc
  obtain ⟨_, hker⟩ := ufParent_kernel rfl comps id 0 hinit hsum hmem
  rw [hker x y]
  have hid : ∀ u v : Node, sameRoot (nodesOf comps).length id u v ↔ u = v := by
    intro u v
    show ufFind _ id u = ufFind _ id v ↔ u = v
    rw [ufFind_fixed rfl, ufFind_fixed rfl]
  constructor
  · intro h
    refine eqvGen_sup_eq.mp (Relation.EqvGen.mono (fun u v huv => ?_) h)
    exact huv.imp id (fun hs => (hid u v).mp hs)
  · intro h
    exact Relation.EqvGen.mono (fun u v huv => Or.inl huv) h

/-- `UFState` for the parent map built by `compute_lumps`, with its root
budget: in particular every chain reaches its root within the fuel. -/
theorem computeLumps_state (comps : List Component) :
    ∃ m, UFState (nodesOf comps) (ufParent (nodesOf comps).length comps id) m ∧
      m + rootsCnt (nodesOf comps) (ufParent (nodesOf comps).length comps id) =
        (nodesOf comps).dedup.length := by
  have hinit : UFState (nodesOf comps) id 0 :=
    ⟨fun z hz => absurd rfl hz, fun z => ⟨0, le_refl 0, rfl⟩⟩
  have hsum : 0 + rootsCnt (nodesOf comps) id = (nodesOf comps).dedup.length := by
    rw [rootsCnt_id, Nat.zero_add]
  have hmem : ∀ c ∈ comps, c.isWire = true →
      c.endA ∈ nodesOf comps ∧ c.endB ∈ nodesOf comps :=
    fun c hc _ => endpoints_mem_nodesOf hc
  exact (ufParent_kernel rfl comps id 0 hinit hsum hmem).1

/-! ### The class relabeling between wire-equivalent circuits -/

theorem posOf_mem_get? {α : Type} [DecidableEq α] {l : List α} {x : α} (h : x ∈ l) :
    l.get? (posOf l x) = some x := by
  obtain ⟨k, hk⟩ := List.mem_iff_get?.mp h
  exact get_posOf hk

theorem posOf_lt_of_mem {α : Type} [DecidableEq α] {l : List α} {x : α} (h : x ∈ l) :
    posOf l x < l.length := by
  have := posOf_mem_get? h
  exact (List.get?_eq_some.mp this).1

theorem posOf_inj {α : Type} [DecidableEq α] {l : List α} {x y : α}
    (hx : x ∈ l) (hy : y ∈ l) (h : posOf l x = posOf l y) : x = y := by
  have h1 := posOf_mem_get? hx
  have h2 := posOf_mem_get? hy
  rw [h] at h1
  rw [h1] at h2
  exact (Option.some.injEq _ _).mp h2

theorem posOf_get {α : Type} [DecidableEq α] {l : List α} (hnd : l.Nodup) {i : ℕ}
    (h : i < l.length) : posOf l (l.get ⟨i, h⟩) = i := by
  have hmem : l.get ⟨i, h⟩ ∈ l := List.get_mem l i h
  have h1 := posOf_mem_get? hmem
  have h2 : l.get? i = some (l.get ⟨i, h⟩) := List.get?_eq_get h
  exact List.get?_inj (posOf_lt_of_mem hmem) hnd (h1.trans h2.symm)

theorem insertNode_nodup {α : Type} [DecidableEq α] {l : List α} (h : l.Nodup) (n : α) :
    (insertNode l n).Nodup := by
  rw [insertNode]
  by_cases hn : n ∈ l
  · rw [if_pos hn]
    exact h
  · rw [if_neg hn]
    rw [List.nodup_append]
    refine ⟨h, List.nodup_singleton n, ?_⟩
    intro x hx hxn
    rw [List.mem_singleton] at hxn
    exact hn (hxn ▸ hx)

theorem insertNode_toFinset {α : Type} [DecidableEq α] (l : List α) (n : α) :
    (insertNode l n).toFinset = insert n l.toFinset := by
  apply Finset.ext
  intro x
  simp only [List.mem_toFinset, Finset.mem_insert, mem_insertNode]
  tauto

theorem rootsOf_mem {fuel : ℕ} {p : Node → Node} :
    ∀ (l acc : List Node) (r : Node),
      r ∈ rootsOf fuel p acc l ↔ r ∈ acc ∨ ∃ n ∈ l, ufFind fuel p n = r
  | [], acc, r => by simp [rootsOf]
  | n :: rest, acc, r => by
    show r ∈ rootsOf fuel p (insertNode acc (ufFind fuel p n)) rest ↔ _
    rw [rootsOf_mem rest _ r, mem_insertNode]
    simp only [List.mem_cons]
    constructor
    · rintro ((h | h) | ⟨d, hd, h⟩)
      · exact Or.inl h
      · exact Or.inr ⟨n, Or.inl rfl, h.symm⟩
      · exact Or.inr ⟨d, Or.inr hd, h⟩
    · rintro (h | ⟨d, rfl | hd, h⟩)
      · exact Or.inl (Or.inl h)
      · exact Or.inl (Or.inr h.symm)
      · exact Or.inr ⟨d, hd, h⟩

theorem rootsOf_nodup {fuel : ℕ} {p : Node → Node} :
    ∀ (l acc : List Node), acc.Nodup → (rootsOf fuel p acc l).Nodup
  | [], acc, h => h
  | n :: rest, acc, h => rootsOf_nodup rest _ (insertNode_nodup h _)

theorem rootsOf_toFinset {fuel : ℕ} {p : Node → Node} :
    ∀ (l acc : List Node),
      (rootsOf fuel p acc l).toFinset = acc.toFinset ∪ (l.map (ufFind fuel p)).toFinset
  | [], acc => by simp [rootsOf]
  | n :: rest, acc => by
    show (rootsOf fuel p (insertNode acc (ufFind fuel p n)) rest).toFinset = _
    rw [rootsOf_toFinset rest _, insertNode_toFinset]
    apply Finset.ext
    intro x
    simp only [Finset.mem_union, Finset.mem_insert, List.mem_toFinset, List.map_cons,
      List.mem_cons]
    tauto

/-- Images of a finite set under functions with the same kernel have the
same cardinality. -/
theorem card_image_eq_of_ker {S : Finset Node} {f g : Node → Node}
    (h : ∀ x y, f x = f y ↔ g x = g y) :
    (S.image f).card = (S.image g).card := by
  refine Finset.card_bij (fun a ha => g (Finset.mem_image.mp ha).choose) ?_ ?_ ?_
  · intro a ha
    obtain ⟨hx, _⟩ := (Finset.mem_image.mp ha).choose_spec
    exact Finset.mem_image.mpr ⟨_, hx, rfl⟩
  · intro a₁ ha₁ a₂ ha₂ heq
    obtain ⟨_, hfx₁⟩ := (Finset.mem_image.mp ha₁).choose_spec
    obtain ⟨_, hfx₂⟩ := (Finset.mem_image.mp ha₂).choose_spec
    have hf := (h _ _).mpr heq
    rw [hfx₁, hfx₂] at hf
    exact hf
  · intro b hb
    obtain ⟨y, hy, hgy⟩ := Finset.mem_image.mp hb
    have hmem : f y ∈ S.image f := Finset.mem_image.mpr ⟨y, hy, rfl⟩
    refine ⟨f y, hmem, ?_⟩
    obtain ⟨_, hfx⟩ := (Finset.mem_image.mp hmem).choose_spec
    rw [← hgy]
    exact (h _ _).mp hfx

/-- A decidable total order on grid nodes, used only to normalize the two
endpoints of an undirected wire edge. -/
def pairLe (a b : Node) : Bool :=
  decide (a.1 < b.1 ∨ (a.1 = b.1 ∧ a.2 ≤ b.2))

/-- A wire edge with its endpoints in canonical order, so that edge lists
can be compared as multisets regardless of each wire's argument order. -/
def normWire (a b : Node) : Node × Node :=
  if pairLe a b then (a, b) else (b, a)

/-- The multiset (list up to permutation) of normalized wire edges. -/
def wireNorms (l : List Component) : List (Node × Node) :=
  (wireEdges l).map (fun e => normWire e.1 e.2)

theorem normWire_comm (a b : Node) : normWire a b = normWire b a := by
  rcases a with ⟨a1, a2⟩
  rcases b with ⟨b1, b2⟩
  rw [normWire, normWire, pairLe, pairLe]
  by_cases h1 : (a1 : ℤ) < b1 ∨ (a1 = b1 ∧ a2 ≤ b2) <;>
    by_cases h2 : (b1 : ℤ) < a1 ∨ (b1 = a1 ∧ b2 ≤ a2)
  · rw [if_pos (decide_eq_true h1), if_pos (decide_eq_true h2)]
    have hab : a1 = b1 ∧ a2 = b2 := by
      rcases h1 with h1 | ⟨h1a, h1b⟩ <;> rcases h2 with h2 | ⟨h2a, h2b⟩ <;> omega
    rw [hab.1, hab.2]
  · rw [if_pos (decide_eq_true h1), if_neg (by simpa using h2)]
  · rw [if_neg (by simpa using h1), if_pos (decide_eq_true h2)]
  · exfalso
    omega

theorem normWire_cases (a b : Node) : normWire a b = (a, b) ∨ normWire a b = (b, a) := by
  rw [normWire]
  by_cases h : pairLe a b = true
  · rw [if_pos h]
    exact Or.inl rfl
  · rw [if_neg h]
    exact Or.inr rfl

theorem edgeRel_iff_normWire {l : List Component} {a b : Node} :
    edgeRel (wireEdges l) a b ↔ normWire a b ∈ wireNorms l := by
  rw [edgeRel, wireNorms]
  constructor
  · rintro (h | h)
    · exact List.mem_map.mpr ⟨(a, b), h, rfl⟩
    · refine List.mem_map.mpr ⟨(b, a), h, ?_⟩
      exact (normWire_comm b a)
  · intro h
    obtain ⟨⟨c, d⟩, hcd, he⟩ := List.mem_map.mp h
    rcases normWire_cases c d with h1 | h1 <;> rcases normWire_cases a b with h2 | h2 <;>
      rw [h1, h2] at he
    · rw [(Prod.mk.injEq _ _ _ _).mp he |>.1, (Prod.mk.injEq _ _ _ _).mp he |>.2] at hcd
      exact Or.inl hcd
    · rw [(Prod.mk.injEq _ _ _ _).mp he |>.1, (Prod.mk.injEq _ _ _ _).mp he |>.2] at hcd
      exact Or.inr hcd
    · obtain ⟨he1, he2⟩ := (Prod.mk.injEq _ _ _ _).mp he
      rw [← he1, ← he2]
      exact Or.inr hcd
    · obtain ⟨he1, he2⟩ := (Prod.mk.injEq _ _ _ _).mp he
      rw [← he1, ← he2]
      exact Or.inl hcd

theorem edgeRel_iff_of_perm {l l' : List Component}
    (h : (wireNorms l').Perm (wireNorms l)) (a b : Node) :
    edgeRel (wireEdges l') a b ↔ edgeRel (wireEdges l) a b := by
  rw [edgeRel_iff_normWire, edgeRel_iff_normWire, h.mem_iff]

/-- Two nodes are wire-connected in `l'` iff in `l`, when the wire edge
multisets agree. -/
theorem wireConn_iff_of_perm {l l' : List Component}
    (h : (wireNorms l').Perm (wireNorms l)) (x y : Node) :
    Relation.EqvGen (edgeRel (wireEdges l')) x y ↔
      Relation.EqvGen (edgeRel (wireEdges l)) x y :=
  ⟨Relation.EqvGen.mono (fun u v huv => (edgeRel_iff_of_perm h u v).mp huv),
   Relation.EqvGen.mono (fun u v huv => (edgeRel_iff_of_perm h u v).mpr huv)⟩

theorem wireEdges_mem {a b : Node} :
    ∀ {l : List Component}, (a, b) ∈ wireEdges l ↔ ∃ name, Component.wire a b name ∈ l
  | [] => by simp [wireEdges]
  | Component.wire c d nm :: rest => by
    show (a, b) ∈ (c, d) :: wireEdges rest ↔ _
    rw [List.mem_cons, wireEdges_mem]
    constructor
    · rintro (he | ⟨name, hname⟩)
      · obtain ⟨h1, h2⟩ := (Prod.mk.injEq _ _ _ _).mp he
        exact ⟨nm, by rw [h1, h2]; exact List.mem_cons_self _ _⟩
      · exact ⟨name, List.mem_cons_of_mem _ hname⟩
    · rintro ⟨name, hname⟩
      rcases List.mem_cons.mp hname with he | hm
      · have h1 : a = c := congrArg Component.endA he
        have h2 : b = d := congrArg Component.endB he
        exact Or.inl (by rw [h1, h2])
      · exact Or.inr ⟨name, hm⟩
  | Component.resistor c d R nm :: rest => by
    show (a, b) ∈ wireEdges rest ↔ _
    rw [wireEdges_mem]
    constructor
    · rintro ⟨name, hname⟩
      exact ⟨name, List.mem_cons_of_mem _ hname⟩
    · rintro ⟨name, hname⟩
      rcases List.mem_cons.mp hname with he | hm
      · exact absurd (congrArg Component.isWire he) (by simp [Component.isWire])
      · exact ⟨name, hm⟩
  | Component.voltageSource c d v nm :: rest => by
    show (a, b) ∈ wireEdges rest ↔ _
    rw [wireEdges_mem]
    constructor
    · rintro ⟨name, hname⟩
      exact ⟨name, List.mem_cons_of_mem _ hname⟩
    · rintro ⟨name, hname⟩
      rcases List.mem_cons.mp hname with he | hm
      · exact absurd (congrArg Component.isWire he) (by simp [Component.isWire])
      · exact ⟨name, hm⟩
  | Component.led c d rOn thr s nm :: rest => by
    show (a, b) ∈ wireEdges rest ↔ _
    rw [wireEdges_mem]
    constructor
    · rintro ⟨name, hname⟩
      exact ⟨name, List.mem_cons_of_mem _ hname⟩
    · rintro ⟨name, hname⟩
      rcases List.mem_cons.mp hname with he | hm
      · exact absurd (congrArg Component.isWire he) (by simp [Component.isWire])
      · exact ⟨name, hm⟩

theorem mem_of_filter_eq {l l' : List Component}
    (h : l'.filter (fun c => !c.isWire) = l.filter (fun c => !c.isWire))
    {c : Component} (hc : c.isWire = false) : (c ∈ l' ↔ c ∈ l) := by
  constructor <;> intro hm
  · have hf : c ∈ l'.filter (fun c => !c.isWire) := List.mem_filter.mpr ⟨hm, by simp [hc]⟩
    rw [h] at hf
    exact (List.mem_filter.mp hf).1
  · have hf : c ∈ l.filter (fun c => !c.isWire) := List.mem_filter.mpr ⟨hm, by simp [hc]⟩
    rw [← h] at hf
    exact (List.mem_filter.mp hf).1

/-- Wire-equivalent circuits have the same node set. -/
theorem mem_nodesOf_iff_of_rel {comps comps' : List Component}
    (hnw : comps'.filter (fun c => !c.isWire) = comps.filter (fun c => !c.isWire))
    (hw : (wireNorms comps').Perm (wireNorms comps)) {x : Node} :
    (x ∈ nodesOf comps' ↔ x ∈ nodesOf comps) := by
  have haux : ∀ (l l' : List Component),
      l'.filter (fun c => !c.isWire) = l.filter (fun c => !c.isWire) →
      (∀ a b : Node, edgeRel (wireEdges l') a b → edgeRel (wireEdges l) a b) →
      x ∈ nodesOf l' → x ∈ nodesOf l := by
    intro l l' hf he hx
    obtain ⟨c, hc, hend⟩ := mem_nodesOf.mp hx
    by_cases hcw : c.isWire = true
    · rcases c with ⟨a, b, name⟩ | _ | _ | _
      · have hab : (a, b) ∈ wireEdges l' := wireEdges_mem.mpr ⟨name, hc⟩
        have hrel : edgeRel (wireEdges l) a b := he a b (Or.inl hab)
        rcases hrel with hm | hm
        · obtain ⟨name', hname'⟩ := wireEdges_mem.mp hm
          rcases hend with rfl | rfl
          · exact (endpoints_mem_nodesOf hname').1
          · exact (endpoints_mem_nodesOf hname').2
        · obtain ⟨name', hname'⟩ := wireEdges_mem.mp hm
          rcases hend with rfl | rfl
          · exact (endpoints_mem_nodesOf hname').2
          · exact (endpoints_mem_nodesOf hname').1
      all_goals simp [Component.isWire] at hcw
    · have hcl : c ∈ l := (mem_of_filter_eq hf (Bool.not_eq_true _ ▸ hcw)).mp hc
      rcases hend with rfl | rfl
      · exact (endpoints_mem_nodesOf hcl).1
      · exact (endpoints_mem_nodesOf hcl).2
  constructor
  · exact haux comps comps' hnw (fun a b h => (edgeRel_iff_of_perm hw a b).mp h)
  · exact haux comps' comps hnw.symm (fun a b h => (edgeRel_iff_of_perm hw a b).mpr h)

/-- The fuel `compute_lumps` hands to every `find`: the node count. -/
def lumpFuel (comps : List Component) : ℕ := (nodesOf comps).length

/-- The union-find parent map built by `compute_lumps`. -/
def lumpParent (comps : List Component) : Node → Node :=
  ufParent (lumpFuel comps) comps id

/-- The union-find root of a node under `compute_lumps`' parent map. -/
def lumpRoot (comps : List Component) (n : Node) : Node :=
  ufFind (lumpFuel comps) (lumpParent comps) n

/-- The distinct roots in first-encounter order. -/
def lumpRoots (comps : List Component) : List Node :=
  rootsOf (lumpFuel comps) (lumpParent comps) [] (nodesOf comps)

theorem computeLumps_eq (comps : List Component) :
    computeLumps comps =
      (fun n => posOf (lumpRoots comps) (lumpRoot comps n), (lumpRoots comps).length) := rfl

theorem lumpRoot_fix (comps : List Component) (x : Node) :
    lumpParent comps (lumpRoot comps x) = lumpRoot comps x := by
  obtain ⟨m, st, hsum⟩ := computeLumps_state comps
  have hm : m ≤ lumpFuel comps := UFState.m_le_fuel hsum rfl
  exact (st.find_root hm x).1

theorem lumpRoot_idem (comps : List Component) (x : Node) :
    lumpRoot comps (lumpRoot comps x) = lumpRoot comps x :=
  ufFind_fixed (lumpRoot_fix comps x) _

theorem lumpRoots_mem {comps : List Component} {r : Node} :
    r ∈ lumpRoots comps ↔ ∃ n ∈ nodesOf comps, lumpRoot comps n = r := by
  rw [lumpRoots, rootsOf_mem]
  simp only [List.not_mem_nil, false_or]
  rfl

theorem lumpRoot_mem {comps : List Component} {n : Node} (hn : n ∈ nodesOf comps) :
    lumpRoot comps n ∈ lumpRoots comps :=
  lumpRoots_mem.mpr ⟨n, hn, rfl⟩

theorem lumpRoots_nodup (comps : List Component) : (lumpRoots comps).Nodup :=
  rootsOf_nodup _ _ List.nodup_nil

/-- The class relation (equal roots) only depends on the wire edge
multiset. -/
theorem lumpRoot_ker {comps comps' : List Component}
    (hw : (wireNorms comps').Perm (wireNorms comps)) (x y : Node) :
    lumpRoot comps' x = lumpRoot comps' y ↔ lumpRoot comps x = lumpRoot comps y := by
  have h1 := computeLumps_sameRoot comps' x y
  have h2 := computeLumps_sameRoot comps x y
  constructor
  · intro h
    exact h2.mpr ((wireConn_iff_of_perm hw x y).mp (h1.mp h))
  · intro h
    exact h1.mpr ((wireConn_iff_of_perm hw x y).mpr (h2.mp h))

theorem list_toFinset_map {α β : Type} [DecidableEq α] [DecidableEq β] (l : List α) (f : α → β) :
    (l.map f).toFinset = l.toFinset.image f := by
  apply Finset.ext
  intro x
  simp

theorem lumpRoots_toFinset (comps : List Component) :
    (lumpRoots comps).toFinset = (nodesOf comps).toFinset.image (lumpRoot comps) := by
  rw [lumpRoots, rootsOf_toFinset]
  rw [show ([] : List Node).toFinset = ∅ from rfl, Finset.empty_union, list_toFinset_map]
  rfl

/-- Wire-equivalent circuits produce the same number of classes. -/
theorem lumpRoots_length_eq {comps comps' : List Component}
    (hnw : comps'.filter (fun c => !c.isWire) = comps.filter (fun c => !c.isWire))
    (hw : (wireNorms comps').Perm (wireNorms comps)) :
    (lumpRoots comps').length = (lumpRoots comps).length := by
  have hset : (nodesOf comps').toFinset = (nodesOf comps).toFinset := by
    apply Finset.ext
    intro x
    rw [List.mem_toFinset, List.mem_toFinset]
    exact mem_nodesOf_iff_of_rel hnw hw
  rw [← List.toFinset_card_of_nodup (lumpRoots_nodup comps'),
    ← List.toFinset_card_of_nodup (lumpRoots_nodup comps),
    lumpRoots_toFinset, lumpRoots_toFinset, hset]
  exact card_image_eq_of_ker (fun x y => lumpRoot_ker hw x y)

/-- The index relabeling between the classes of two circuits: class `i` of
the first is looked up by its root node in the second's root list. -/
def classBij (comps comps' : List Component) (i : ℕ) : ℕ :=
  if h : i < (lumpRoots comps).length then
    posOf (lumpRoots comps') (lumpRoot comps' ((lumpRoots comps).get ⟨i, h⟩))
  else i

/-- The class relabeling between wire-equivalent circuits: same class count,
and the two node → class index mappings agree up to a bijection of the index
range. -/
theorem computeLumps_relabel {comps comps' : List Component}
    (hnw : comps'.filter (fun c => !c.isWire) = comps.filter (fun c => !c.isWire))
    (hw : (wireNorms comps').Perm (wireNorms comps)) :
    (computeLumps comps').2 = (computeLumps comps).2 ∧
    ∃ σf : ℕ → ℕ,
      (∀ i, i < (computeLumps comps).2 → σf i < (computeLumps comps).2) ∧
      (∀ i j, i < (computeLumps comps).2 → j < (computeLumps comps).2 →
        σf i = σf j → i = j) ∧
      (∀ j, j < (computeLumps comps).2 → ∃ i, i < (computeLumps comps).2 ∧ σf i = j) ∧
      (∀ n ∈ nodesOf comps, (computeLumps comps').1 n = σf ((computeLumps comps).1 n)) := by
  have hKeq : (lumpRoots comps').length = (lumpRoots comps).length :=
    lumpRoots_length_eq hnw hw
  have hnodes : ∀ n : Node, n ∈ nodesOf comps' ↔ n ∈ nodesOf comps :=
    fun n => mem_nodesOf_iff_of_rel hnw hw
  refine ⟨hKeq, ?_⟩
  refine ⟨classBij comps comps', ?_, ?_, ?_, ?_⟩
  · -- range
    intro i hi
    have hi : i < (lumpRoots comps).length := hi
    rw [classBij, dif_pos hi]
    obtain ⟨n, hn, hrt⟩ := lumpRoots_mem.mp (List.get_mem (lumpRoots comps) i hi)
    have h1 : lumpRoot comps' ((lumpRoots comps).get ⟨i, hi⟩) = lumpRoot comps' n := by
      rw [← hrt]
      exact (lumpRoot_ker hw _ _).mpr (lumpRoot_idem comps n)
    rw [h1]
    have h2 : lumpRoot comps' n ∈ lumpRoots comps' :=
      lumpRoot_mem ((hnodes n).mpr hn)
    have h3 := posOf_lt_of_mem h2
    have hgoal : posOf (lumpRoots comps') (lumpRoot comps' n) < (lumpRoots comps).length := by
      omega
    exact hgoal
  · -- injective
    intro i j hi hj hij
    have hi : i < (lumpRoots comps).length := hi
    have hj : j < (lumpRoots comps).length := hj
    rw [classBij, dif_pos hi] at hij
    rw [classBij, dif_pos hj] at hij
    obtain ⟨n, hn, hrtn⟩ := lumpRoots_mem.mp (List.get_mem (lumpRoots comps) i hi)
    obtain ⟨nb, hnb, hrtnb⟩ := lumpRoots_mem.mp (List.get_mem (lumpRoots comps) j hj)
    have hmi : lumpRoot comps' ((lumpRoots comps).get ⟨i, hi⟩) ∈ lumpRoots comps' := by
      rw [← hrtn, (lumpRoot_ker hw _ _).mpr (lumpRoot_idem comps n)]
      exact lumpRoot_mem ((hnodes n).mpr hn)
    have hmj : lumpRoot comps' ((lumpRoots comps).get ⟨j, hj⟩) ∈ lumpRoots comps' := by
      rw [← hrtnb, (lumpRoot_ker hw _ _).mpr (lumpRoot_idem comps nb)]
      exact lumpRoot_mem ((hnodes nb).mpr hnb)
    have heq := posOf_inj hmi hmj hij
    have heq2 := (lumpRoot_ker hw _ _).mp heq
    have hfix_i : lumpRoot comps ((lumpRoots comps).get ⟨i, hi⟩) =
        (lumpRoots comps).get ⟨i, hi⟩ := by
      rw [← hrtn, lumpRoot_idem]
    have hfix_j : lumpRoot comps ((lumpRoots comps).get ⟨j, hj⟩) =
        (lumpRoots comps).get ⟨j, hj⟩ := by
      rw [← hrtnb, lumpRoot_idem]
    rw [hfix_i, hfix_j] at heq2
    have hpi := posOf_get (lumpRoots_nodup comps) hi
    have hpj := posOf_get (lumpRoots_nodup comps) hj
    rw [← hpi, ← hpj, heq2]
  · -- surjective
    intro j hj
    have hj0 : j < (lumpRoots comps).length := hj
    have hj' : j < (lumpRoots comps').length := by omega
    obtain ⟨n, hn', hrt⟩ := lumpRoots_mem.mp (List.get_mem (lumpRoots comps') j hj')
    have hn : n ∈ nodesOf comps := (hnodes n).mp hn'
    have hi : posOf (lumpRoots comps) (lumpRoot comps n) < (lumpRoots comps).length :=
      posOf_lt_of_mem (lumpRoot_mem hn)
    refine ⟨posOf (lumpRoots comps) (lumpRoot comps n), hi, ?_⟩
    rw [classBij, dif_pos hi]
    have hget : (lumpRoots comps).get ⟨posOf (lumpRoots comps) (lumpRoot comps n), hi⟩ =
        lumpRoot comps n := by
      have h1 := posOf_mem_get? (lumpRoot_mem hn)
      have h2 := List.get?_eq_get hi
      rw [h1] at h2
      exact (Option.some.injEq _ _).mp h2.symm
    rw [hget, (lumpRoot_ker hw _ _).mpr (lumpRoot_idem comps n), hrt]
    exact posOf_get (lumpRoots_nodup comps') hj'
  · -- mapping compatibility
    intro n hn
    rw [computeLumps_eq, computeLumps_eq]
    show posOf (lumpRoots comps') (lumpRoot comps' n) = _
    have hi : posOf (lumpRoots comps) (lumpRoot comps n) < (lumpRoots comps).length :=
      posOf_lt_of_mem (lumpRoot_mem hn)
    show _ = classBij comps comps' (posOf (lumpRoots comps) (lumpRoot comps n))
    rw [classBij, dif_pos hi]
    have hget : (lumpRoots comps).get ⟨posOf (lumpRoots comps) (lumpRoot comps n), hi⟩ =
        lumpRoot comps n := by
      have h1 := posOf_mem_get? (lumpRoot_mem hn)
      have h2 := List.get?_eq_get hi
      rw [h1] at h2
      exact (Option.some.injEq _ _).mp h2.symm
    rw [hget, (lumpRoot_ker hw _ _).mpr (lumpRoot_idem comps n)]

/-! ### The linear solve under an index bijection -/

theorem natRange_eq_range : ∀ n : ℕ, natRange n = List.range n := by
  intro n
  induction n with
  | zero => rfl
  | succ k ih => rw [natRange, ih, List.range_succ]

theorem qsum_eq_sum : ∀ l : List ℚ, qsum l = l.sum
  | [] => by rw [qsum, qofInt_eq]; simp
  | x :: xs => by rw [qsum, qadd_eq, qsum_eq_sum xs, List.sum_cons]

theorem sum_map_range (f : ℕ → ℚ) : ∀ n : ℕ,
    ((List.range n).map f).sum = ∑ j : Fin n, f j := by
  intro n
  induction n with
  | zero => simp
  | succ k ih =>
    rw [List.range_succ, List.map_append, List.sum_append, ih, Fin.sum_univ_castSucc]
    simp

theorem succAbove_val {n : ℕ} (p : Fin (n + 1)) (i : Fin n) :
    ((p.succAbove i : Fin (n + 1)) : ℕ) =
      if (i : ℕ) < (p : ℕ) then (i : ℕ) else (i : ℕ) + 1 := by
  rw [Fin.succAbove]
  by_cases h : Fin.castSucc i < p
  · rw [if_pos h, if_pos (by rwa [Fin.lt_def] at h), Fin.coe_castSucc]
  · rw [if_neg h, if_neg (by rw [Fin.lt_def] at h; simpa using h), Fin.val_succ]

theorem dropIdx_map_range :
    ∀ (m : ℕ) (g : ℕ → ℚ) (j : ℕ), j ≤ m →
      dropIdx ((List.range (m + 1)).map g) j =
        (List.range m).map (fun q => if q < j then g q else g (q + 1)) := by
  intro m
  induction m with
  | zero =>
    intro g j hj
    interval_cases j
    rfl
  | succ m ih =>
    intro g j hj
    rw [List.range_succ_eq_map, List.map_cons, List.map_map]
    cases j with
    | zero =>
      show (List.range (m + 1)).map (g ∘ Nat.succ) = _
      apply List.map_congr_left
      intro q _
      rw [if_neg (Nat.not_lt_zero q)]
      rfl
    | succ j' =>
      show g 0 :: dropIdx ((List.range (m + 1)).map (g ∘ Nat.succ)) j' = _
      rw [ih (g ∘ Nat.succ) j' (by omega)]
      conv_rhs => rw [List.range_succ_eq_map, List.map_cons, List.map_map]
      beta_reduce
      rw [if_pos (Nat.succ_pos j')]
      congr 1
      apply List.map_congr_left
      intro q _
      show (if q < j' then g (q + 1) else g (q + 2)) =
        (if q + 1 < j' + 1 then g (q + 1) else g (q + 2))
      by_cases hq : q < j'
      · rw [if_pos hq, if_pos (show q + 1 < j' + 1 by omega)]
      · rw [if_neg hq, if_neg (show ¬(q + 1 < j' + 1) by omega)]

theorem updRow_map_range :
    ∀ (m : ℕ) (g : ℕ → ℚ) (j : ℕ), j < m → ∀ v : ℚ,
      updRow ((List.range m).map g) j v =
        (List.range m).map (fun q => if q = j then v else g q) := by
  intro m
  induction m with
  | zero => intro g j hj; omega
  | succ m ih =>
    intro g j hj v
    conv_lhs => rw [List.range_succ_eq_map, List.map_cons, List.map_map]
    conv_rhs => rw [List.range_succ_eq_map, List.map_cons, List.map_map]
    beta_reduce
    cases j with
    | zero =>
      show v :: (List.range m).map (g ∘ Nat.succ) = _
      rw [if_pos rfl]
      exact rfl
    | succ j' =>
      show g 0 :: updRow ((List.range m).map (g ∘ Nat.succ)) j' v = _
      rw [ih (g ∘ Nat.succ) j' (by omega) v]
      rw [if_neg (show (0 : ℕ) ≠ j' + 1 from (Nat.succ_ne_zero j').symm)]
      congr 1
      apply List.map_congr_left
      intro q _
      show (if q = j' then v else g (q + 1)) =
        (if q + 1 = j' + 1 then v else g (q + 1))
      by_cases hq : q = j'
      · rw [if_pos hq, if_pos (show q + 1 = j' + 1 by omega)]
      · rw [if_neg hq, if_neg (show ¬(q + 1 = j' + 1) by omega)]

theorem matList_range (n : ℕ) (A : ℕ → ℕ → ℚ) :
    matList n A = (List.range n).map (fun i => (List.range n).map (A i)) := by
  rw [matList, natRange_eq_range]

theorem map_range_succ_cons {α : Type} (F : ℕ → α) (n : ℕ) :
    (List.range (n + 1)).map F = F 0 :: (List.range n).map (fun i => F (i + 1)) := by
  rw [List.range_succ_eq_map, List.map_cons, List.map_map]
  rfl

theorem matList_succ (n : ℕ) (A : ℕ → ℕ → ℚ) :
    matList (n + 1) A =
      ((List.range (n + 1)).map (A 0)) ::
        (List.range n).map (fun i => (List.range (n + 1)).map (A (i + 1))) := by
  rw [matList_range, map_range_succ_cons]

theorem detLN_succ (n : ℕ) (row : List ℚ) (rest : List (List ℚ)) :
    detLN (n + 1) (row :: rest) =
      qsum ((natRange (n + 1)).map
        (fun j => qmul (qmul (qsign j) (listGet row j))
          (detLN n (rest.map (fun r => dropIdx r j))))) := rfl

/-- The executable Laplace determinant agrees with `Matrix.det` on the
materialized matrix. -/
theorem detLN_matList : ∀ (n : ℕ) (A : ℕ → ℕ → ℚ),
    detLN n (matList n A) = (Matrix.of (fun i j : Fin n => A (i : ℕ) (j : ℕ))).det := by
  intro n
  induction n with
  | zero =>
    intro A
    rw [Matrix.det_fin_zero]
    rfl
  | succ n ih =>
    intro A
    rw [matList_succ, detLN_succ, Matrix.det_succ_row_zero, natRange_eq_range, qsum_eq_sum,
      sum_map_range]
    apply Finset.sum_congr rfl
    intro j _
    have hrow : listGet ((List.range (n + 1)).map (A 0)) (j : ℕ) = A 0 (j : ℕ) := by
      rw [← natRange_eq_range, listGet_map_natRange, if_pos j.2]
    have hminor : ((List.range n).map (fun i => (List.range (n + 1)).map (A (i + 1)))).map
          (fun r => dropIdx r (j : ℕ)) =
        (List.range n).map (fun i => (List.range n).map
          (fun q => if q < (j : ℕ) then A (i + 1) q else A (i + 1) (q + 1))) := by
      rw [List.map_map]
      apply List.map_congr_left
      intro i _
      show dropIdx ((List.range (n + 1)).map (A (i + 1))) (j : ℕ) = _
      rw [dropIdx_map_range n (A (i + 1)) (j : ℕ) (Nat.lt_succ_iff.mp j.2)]
    rw [hrow, hminor]
    have hih := ih (fun p q => if q < (j : ℕ) then A (p + 1) q else A (p + 1) (q + 1))
    rw [matList_range] at hih
    rw [hih]
    have hsub : (Matrix.of fun p q : Fin n =>
        if (q : ℕ) < (j : ℕ) then A ((p : ℕ) + 1) (q : ℕ) else A ((p : ℕ) + 1) ((q : ℕ) + 1)) =
        (Matrix.of fun i j' : Fin (n + 1) => A (i : ℕ) (j' : ℕ)).submatrix Fin.succ
          j.succAbove := by
      apply Matrix.ext
      intro p q
      rw [Matrix.submatrix_apply, Matrix.of_apply, Matrix.of_apply]
      rw [Fin.val_succ, succAbove_val]
      rw [apply_ite (A ((p : ℕ) + 1))]
    rw [hsub, qmul_eq, qmul_eq, qsign_eq]
    have hM0 : (Matrix.of fun i j' : Fin (n + 1) => A (i : ℕ) (j' : ℕ)) 0 j = A 0 (j : ℕ) := by
      show A ((0 : Fin (n + 1)) : ℕ) (j : ℕ) = A 0 (j : ℕ)
      rw [Fin.val_zero]
    rw [hM0]

theorem updCol_map (rowfn : ℕ → List ℚ) (z : ℕ → ℚ) (j : ℕ) :
    ∀ L : List ℕ, updCol (L.map rowfn) j (L.map z) =
      L.map (fun i => updRow (rowfn i) j (z i))
  | [] => rfl
  | i :: t => by
    show updRow (rowfn i) j (z i) :: updCol (t.map rowfn) j (t.map z) = _
    rw [updCol_map rowfn z j t]
    rfl

theorem updCol_matList {n : ℕ} (A : ℕ → ℕ → ℚ) (z : ℕ → ℚ) {j : ℕ} (hj : j < n) :
    updCol (matList n A) j ((natRange n).map z) =
      matList n (fun p q => if q = j then z p else A p q) := by
  rw [matList_range, matList_range, natRange_eq_range, updCol_map]
  apply List.map_congr_left
  intro i _
  show updRow ((List.range n).map (A i)) j (z i) = _
  rw [updRow_map_range n (A i) j hj (z i)]

theorem linSolve_def (n : ℕ) (A : ℕ → ℕ → ℚ) (z : ℕ → ℚ) :
    linSolve n A z =
      if qeq (detLN n (matList n A)) (qofInt 0) = true then none
      else some ((natRange n).map (fun i =>
        qdiv (detLN n (updCol (matList n A) i ((natRange n).map z)))
          (detLN n (matList n A)))) := rfl

theorem linSolve_none_iff (n : ℕ) (A : ℕ → ℕ → ℚ) (z : ℕ → ℚ) :
    (linSolve n A z = none) ↔
      (Matrix.of fun p q : Fin n => A (p : ℕ) (q : ℕ)).det = 0 := by
  rw [linSolve_def]
  by_cases h : qeq (detLN n (matList n A)) (qofInt 0) = true
  · rw [if_pos h]
    have h0 : detLN n (matList n A) = 0 := by
      have := (qeq_iff _ _).mp h
      rwa [qofInt_eq, Int.cast_zero] at this
    rw [detLN_matList] at h0
    exact iff_of_true rfl h0
  · rw [if_neg h]
    have h0 : ¬detLN n (matList n A) = 0 := by
      intro hc
      apply h
      rw [qeq_iff, qofInt_eq, Int.cast_zero]
      exact hc
    rw [detLN_matList] at h0
    constructor
    · intro hc
      exact absurd hc (by simp)
    · intro hc
      exact absurd hc h0

theorem linSolve_entry {n : ℕ} {A : ℕ → ℕ → ℚ} {z : ℕ → ℚ} {x : List ℚ}
    (h : linSolve n A z = some x) {i : ℕ} (hi : i < n) :
    listGet x i =
      (Matrix.of fun p q : Fin n =>
          if (q : ℕ) = i then z (p : ℕ) else A (p : ℕ) (q : ℕ)).det /
        (Matrix.of fun p q : Fin n => A (p : ℕ) (q : ℕ)).det := by
  rw [linSolve_def] at h
  by_cases hd : qeq (detLN n (matList n A)) (qofInt 0) = true
  · rw [if_pos hd] at h
    exact absurd h (by simp)
  · rw [if_neg hd] at h
    have hx := Option.some.inj h
    rw [← hx, listGet_map_natRange, if_pos hi]
    rw [updCol_matList A z hi, detLN_matList, detLN_matList, qdiv_eq]

/-- Conjugating the system by an injective index relabeling fixes solvability
and permutes the solution entries accordingly. -/
theorem linSolve_conj {size : ℕ} {ρ : ℕ → ℕ} (hinj : Function.Injective ρ)
    (hsz : ∀ i, i < size → ρ i < size)
    (A₁ A₂ : ℕ → ℕ → ℚ) (z₁ z₂ : ℕ → ℚ)
    (hA : ∀ p q, A₂ (ρ p) (ρ q) = A₁ p q) (hz : ∀ p, z₂ (ρ p) = z₁ p) :
    (linSolve size A₂ z₂ = none ↔ linSolve size A₁ z₁ = none) ∧
    ∀ x₁ x₂, linSolve size A₁ z₁ = some x₁ → linSolve size A₂ z₂ = some x₂ →
      ∀ i, i < size → listGet x₂ (ρ i) = listGet x₁ i := by
  have hf : Function.Injective (fun i : Fin size => (⟨ρ (i : ℕ), hsz (i : ℕ) i.2⟩ : Fin size)) := by
    intro a b hab
    apply Fin.ext
    exact hinj (congrArg Fin.val hab)
  have hbij := Finite.injective_iff_bijective.mp hf
  have heval : ∀ i : Fin size, ((Equiv.ofBijective _ hbij i : Fin size) : ℕ) = ρ (i : ℕ) :=
    fun i => rfl
  have hsub : (Matrix.of fun p q : Fin size => A₁ (p : ℕ) (q : ℕ)) =
      (Matrix.of fun p q : Fin size => A₂ (p : ℕ) (q : ℕ)).submatrix
        (Equiv.ofBijective _ hbij) (Equiv.ofBijective _ hbij) := by
    apply Matrix.ext
    intro p q
    rw [Matrix.submatrix_apply, Matrix.of_apply, Matrix.of_apply, heval, heval, hA]
  have hdet : (Matrix.of fun p q : Fin size => A₁ (p : ℕ) (q : ℕ)).det =
      (Matrix.of fun p q : Fin size => A₂ (p : ℕ) (q : ℕ)).det := by
    rw [hsub, Matrix.det_submatrix_equiv_self]
  constructor
  · rw [linSolve_none_iff, linSolve_none_iff, hdet]
  · intro x₁ x₂ h₁ h₂ i hi
    rw [linSolve_entry h₂ (hsz i hi), linSolve_entry h₁ hi]
    have hsubN : (Matrix.of fun p q : Fin size =>
          if (q : ℕ) = i then z₁ (p : ℕ) else A₁ (p : ℕ) (q : ℕ)) =
        (Matrix.of fun p q : Fin size =>
          if (q : ℕ) = ρ i then z₂ (p : ℕ) else A₂ (p : ℕ) (q : ℕ)).submatrix
          (Equiv.ofBijective _ hbij) (Equiv.ofBijective _ hbij) := by
      apply Matrix.ext
      intro p q
      rw [Matrix.submatrix_apply, Matrix.of_apply, Matrix.of_apply, heval, heval]
      by_cases hq : (q : ℕ) = i
      · rw [if_pos hq, if_pos (by rw [hq]), hz]
      · rw [if_neg hq, if_neg (fun hc => hq (hinj hc)), hA]
    rw [hsubN, Matrix.det_submatrix_equiv_self, hdet]

/-! ### Conjugating the matrix assembly by the class relabeling -/

theorem nodeIndexList_nodup (K g : ℕ) : (nodeIndexList K g).Nodup := by
  rw [nodeIndexList, natRange_eq_range]
  exact (List.nodup_range K).filter _

theorem mem_nodeIndexList {K g n : ℕ} : n ∈ nodeIndexList K g ↔ n < K ∧ n ≠ g := by
  rw [nodeIndexList, List.mem_filter]
  simp [mem_natRange]

theorem nodeIndexList_length {K g : ℕ} (hg : g < K) :
    (nodeIndexList K g).length = K - 1 := by
  rw [nodeIndexList, natRange_eq_range]
  induction K with
  | zero => omega
  | succ K ih =>
    rw [List.range_succ, List.filter_append]
    by_cases hgK : g = K
    · subst hgK
      rw [List.length_append]
      have h1 : List.filter (fun n => decide (n ≠ g)) [g] = [] := by simp
      have h2 : List.filter (fun n => decide (n ≠ g)) (List.range g) = List.range g := by
        apply List.filter_eq_self.mpr
        intro a ha
        have := List.mem_range.mp ha
        simp
        omega
      rw [h1, h2, List.length_range]
      rfl
    · have hg2 : g < K := by omega
      rw [List.length_append, ih hg2]
      have h1 : List.filter (fun n => decide (n ≠ g)) [K] = [K] := by
        simp
        omega
      rw [h1]
      simp
      omega

theorem nodeIndex_lt {K g c : ℕ} (hg : g < K) (hc : c < K) (hne : c ≠ g) :
    nodeIndex K g c < K - 1 := by
  rw [nodeIndex]
  have := posOf_lt_of_mem (mem_nodeIndexList.mpr ⟨hc, hne⟩)
  rw [nodeIndexList_length hg] at this
  exact this

/-- The class looked up by its compact row index. -/
def nthCls (K g i : ℕ) : ℕ :=
  ((nodeIndexList K g).get? i).getD 0

theorem nthCls_nodeIndex {K g c : ℕ} (hc : c < K) (hne : c ≠ g) :
    nthCls K g (nodeIndex K g c) = c := by
  rw [nthCls, nodeIndex, posOf_mem_get? (mem_nodeIndexList.mpr ⟨hc, hne⟩)]
  rfl

theorem nthCls_mem {K g i : ℕ} (hi : i < (nodeIndexList K g).length) :
    nthCls K g i ∈ nodeIndexList K g := by
  rw [nthCls, List.get?_eq_get hi]
  exact List.get_mem _ i hi

theorem nodeIndex_nthCls {K g i : ℕ} (hi : i < (nodeIndexList K g).length) :
    nodeIndex K g (nthCls K g i) = i := by
  rw [nthCls, List.get?_eq_get hi, nodeIndex]
  exact posOf_get (nodeIndexList_nodup K g) hi

/-- The hypotheses carried by the class relabeling `σf` of two
wire-equivalent circuits, with `g₁, g₂` the two ground classes. -/
structure RelabCtx (K g₁ g₂ : ℕ) (σf : ℕ → ℕ) : Prop where
  hg₁ : g₁ < K
  hg₂ : g₂ < K
  hσlt : ∀ c, c < K → σf c < K
  hσinj : ∀ c d, c < K → d < K → σf c = σf d → c = d
  hσsurj : ∀ d, d < K → ∃ c, c < K ∧ σf c = d
  hσg : σf g₁ = g₂

theorem RelabCtx.σg_iff {K g₁ g₂ : ℕ} {σf : ℕ → ℕ} (ctx : RelabCtx K g₁ g₂ σf)
    {c : ℕ} (hc : c < K) : σf c = g₂ ↔ c = g₁ := by
  constructor
  · intro h
    exact ctx.hσinj c g₁ hc ctx.hg₁ (h.trans ctx.hσg.symm)
  · intro h
    rw [h, ctx.hσg]

/-- The row/column relabeling of the assembled linear system induced by the
class relabeling: node rows move with the classes, source rows stay put. -/
def rhoIdx (K g₁ g₂ : ℕ) (σf : ℕ → ℕ) (i : ℕ) : ℕ :=
  if i < K - 1 then nodeIndex K g₂ (σf (nthCls K g₁ i)) else i

theorem RelabCtx.rho_node {K g₁ g₂ : ℕ} {σf : ℕ → ℕ} (ctx : RelabCtx K g₁ g₂ σf)
    {c : ℕ} (hc : c < K) (hne : c ≠ g₁) :
    rhoIdx K g₁ g₂ σf (nodeIndex K g₁ c) = nodeIndex K g₂ (σf c) := by
  rw [rhoIdx, if_pos (nodeIndex_lt ctx.hg₁ hc hne), nthCls_nodeIndex hc hne]

theorem RelabCtx.rho_row {K g₁ g₂ : ℕ} {σf : ℕ → ℕ} {r : ℕ} (hr : K - 1 ≤ r) :
    rhoIdx K g₁ g₂ σf r = r := by
  rw [rhoIdx, if_neg (by omega)]

theorem RelabCtx.rho_lt {K g₁ g₂ : ℕ} {σf : ℕ → ℕ} (ctx : RelabCtx K g₁ g₂ σf)
    {i : ℕ} (hi : i < K - 1) : rhoIdx K g₁ g₂ σf i < K - 1 := by
  rw [rhoIdx, if_pos hi]
  have hi' : i < (nodeIndexList K g₁).length := by
    rw [nodeIndexList_length ctx.hg₁]
    exact hi
  have hmem := nthCls_mem hi'
  obtain ⟨hlt, hne⟩ := mem_nodeIndexList.mp hmem
  exact nodeIndex_lt ctx.hg₂ (ctx.hσlt _ hlt) (fun h => hne ((ctx.σg_iff hlt).mp h))

theorem RelabCtx.rho_inj {K g₁ g₂ : ℕ} {σf : ℕ → ℕ} (ctx : RelabCtx K g₁ g₂ σf) :
    Function.Injective (rhoIdx K g₁ g₂ σf) := by
  intro i j hij
  by_cases hi : i < K - 1 <;> by_cases hj : j < K - 1
  · have hvi := ctx.rho_lt hi
    rw [rhoIdx, if_pos hi] at hij
    rw [rhoIdx, if_pos hj] at hij
    have hi' : i < (nodeIndexList K g₁).length := by
      rw [nodeIndexList_length ctx.hg₁]; exact hi
    have hj' : j < (nodeIndexList K g₁).length := by
      rw [nodeIndexList_length ctx.hg₁]; exact hj
    obtain ⟨hlti, hnei⟩ := mem_nodeIndexList.mp (nthCls_mem hi')
    obtain ⟨hltj, hnej⟩ := mem_nodeIndexList.mp (nthCls_mem hj')
    have h1 : σf (nthCls K g₁ i) = σf (nthCls K g₁ j) := by
      have hmi : σf (nthCls K g₁ i) ∈ nodeIndexList K g₂ :=
        mem_nodeIndexList.mpr ⟨ctx.hσlt _ hlti,
          fun h => hnei ((ctx.σg_iff hlti).mp h)⟩
      have hmj : σf (nthCls K g₁ j) ∈ nodeIndexList K g₂ :=
        mem_nodeIndexList.mpr ⟨ctx.hσlt _ hltj,
          fun h => hnej ((ctx.σg_iff hltj).mp h)⟩
      exact posOf_inj hmi hmj hij
    have h2 := ctx.hσinj _ _ hlti hltj h1
    rw [← nodeIndex_nthCls hi', ← nodeIndex_nthCls hj', h2]
  · have h1 := ctx.rho_lt hi
    rw [rhoIdx, if_pos hi] at hij h1
    rw [RelabCtx.rho_row (show K - 1 ≤ j by omega)] at hij
    omega
  · have h1 := ctx.rho_lt hj
    rw [RelabCtx.rho_row (show K - 1 ≤ i by omega)] at hij
    rw [rhoIdx, if_pos hj] at hij h1
    omega
  · rw [RelabCtx.rho_row (by omega), RelabCtx.rho_row (by omega)] at hij
    exact hij

theorem updM_conj {ρ : ℕ → ℕ} (hinj : Function.Injective ρ)
    (A₁ A₂ : ℕ → ℕ → ℚ) (hA : ∀ p q, A₂ (ρ p) (ρ q) = A₁ p q) (r c : ℕ) (v : ℚ) :
    ∀ p q, updM A₂ (ρ r) (ρ c) v (ρ p) (ρ q) = updM A₁ r c v p q := by
  intro p q
  show (if ρ p = ρ r ∧ ρ q = ρ c then v else A₂ (ρ p) (ρ q)) =
    (if p = r ∧ q = c then v else A₁ p q)
  by_cases h : p = r ∧ q = c
  · rw [if_pos h, if_pos ⟨congrArg ρ h.1, congrArg ρ h.2⟩]
  · rw [if_neg h, if_neg (fun hc => h ⟨hinj hc.1, hinj hc.2⟩), hA]

theorem addM_conj {ρ : ℕ → ℕ} (hinj : Function.Injective ρ)
    (A₁ A₂ : ℕ → ℕ → ℚ) (hA : ∀ p q, A₂ (ρ p) (ρ q) = A₁ p q) (r c : ℕ) (v : ℚ) :
    ∀ p q, addM A₂ (ρ r) (ρ c) v (ρ p) (ρ q) = addM A₁ r c v p q := by
  intro p q
  show (if ρ p = ρ r ∧ ρ q = ρ c then qadd (A₂ (ρ r) (ρ c)) v else A₂ (ρ p) (ρ q)) =
    (if p = r ∧ q = c then qadd (A₁ r c) v else A₁ p q)
  by_cases h : p = r ∧ q = c
  · rw [if_pos h, if_pos ⟨congrArg ρ h.1, congrArg ρ h.2⟩, hA]
  · rw [if_neg h, if_neg (fun hc => h ⟨hinj hc.1, hinj hc.2⟩), hA]

theorem updZ_conj {ρ : ℕ → ℕ} (hinj : Function.Injective ρ)
    (z₁ z₂ : ℕ → ℚ) (hz : ∀ p, z₂ (ρ p) = z₁ p) (r : ℕ) (v : ℚ) :
    ∀ p, updZ z₂ (ρ r) v (ρ p) = updZ z₁ r v p := by
  intro p
  show (if ρ p = ρ r then v else z₂ (ρ p)) = (if p = r then v else z₁ p)
  by_cases h : p = r
  · rw [if_pos h, if_pos (congrArg ρ h)]
  · rw [if_neg h, if_neg (fun hc => h (hinj hc)), hz]

theorem addConductance_eq (g : ℕ) (ni : ℕ → ℕ) (i j : ℕ) (gc : ℚ) (A : ℕ → ℕ → ℚ) :
    addConductance g ni i j gc A =
      if i ≠ g ∧ j ≠ g then
        addM (addM (if j ≠ g then
              addM (if i ≠ g then addM A (ni i) (ni i) gc else A) (ni j) (ni j) gc
            else (if i ≠ g then addM A (ni i) (ni i) gc else A))
          (ni i) (ni j) (qneg gc)) (ni j) (ni i) (qneg gc)
      else (if j ≠ g then
          addM (if i ≠ g then addM A (ni i) (ni i) gc else A) (ni j) (ni j) gc
        else (if i ≠ g then addM A (ni i) (ni i) gc else A)) := rfl

theorem addConductance_conj {K g₁ g₂ : ℕ} {σf : ℕ → ℕ} (ctx : RelabCtx K g₁ g₂ σf)
    (hinj : Function.Injective (rhoIdx K g₁ g₂ σf))
    {i j : ℕ} (hi : i < K) (hj : j < K) (gc : ℚ)
    (A₁ A₂ : ℕ → ℕ → ℚ)
    (hA : ∀ p q, A₂ (rhoIdx K g₁ g₂ σf p) (rhoIdx K g₁ g₂ σf q) = A₁ p q) :
    ∀ p q, addConductance g₂ (nodeIndex K g₂) (σf i) (σf j) gc A₂
        (rhoIdx K g₁ g₂ σf p) (rhoIdx K g₁ g₂ σf q) =
      addConductance g₁ (nodeIndex K g₁) i j gc A₁ p q := by
  have hgi : σf i ≠ g₂ ↔ i ≠ g₁ := not_congr (ctx.σg_iff hi)
  have hgj : σf j ≠ g₂ ↔ j ≠ g₁ := not_congr (ctx.σg_iff hj)
  rw [addConductance_eq, addConductance_eq]
  set ρ := rhoIdx K g₁ g₂ σf with hρ
  set X₂ := if σf i ≠ g₂ then addM A₂ (nodeIndex K g₂ (σf i)) (nodeIndex K g₂ (σf i)) gc
    else A₂ with hX₂
  set X₁ := if i ≠ g₁ then addM A₁ (nodeIndex K g₁ i) (nodeIndex K g₁ i) gc else A₁ with hX₁
  set Y₂ := if σf j ≠ g₂ then addM X₂ (nodeIndex K g₂ (σf j)) (nodeIndex K g₂ (σf j)) gc
    else X₂ with hY₂
  set Y₁ := if j ≠ g₁ then addM X₁ (nodeIndex K g₁ j) (nodeIndex K g₁ j) gc else X₁ with hY₁
  have hni : ∀ {c : ℕ}, c < K → c ≠ g₁ → ρ (nodeIndex K g₁ c) = nodeIndex K g₂ (σf c) := by
    intro c hc hcn
    rw [hρ]
    exact ctx.rho_node hc hcn
  have h1 : ∀ p q, X₂ (ρ p) (ρ q) = X₁ p q := by
    intro p q
    rw [hX₂, hX₁]
    by_cases h : i ≠ g₁
    · rw [if_pos (hgi.mpr h), if_pos h, ← hni hi h]
      exact addM_conj hinj _ _ hA _ _ gc p q
    · rw [if_neg (fun hc => h (hgi.mp hc)), if_neg h]
      exact hA p q
  have h2 : ∀ p q, Y₂ (ρ p) (ρ q) = Y₁ p q := by
    intro p q
    rw [hY₂, hY₁]
    by_cases h : j ≠ g₁
    · rw [if_pos (hgj.mpr h), if_pos h, ← hni hj h]
      exact addM_conj hinj _ _ h1 _ _ gc p q
    · rw [if_neg (fun hc => h (hgj.mp hc)), if_neg h]
      exact h1 p q
  intro p q
  by_cases h : i ≠ g₁ ∧ j ≠ g₁
  · rw [if_pos (⟨hgi.mpr h.1, hgj.mpr h.2⟩ : σf i ≠ g₂ ∧ σf j ≠ g₂), if_pos h]
    have hin := addM_conj hinj Y₁ Y₂ h2 (nodeIndex K g₁ i) (nodeIndex K g₁ j) (qneg gc)
    have hout := addM_conj hinj _ _ hin (nodeIndex K g₁ j) (nodeIndex K g₁ i) (qneg gc)
    rw [hni hi h.1, hni hj h.2] at hout
    exact hout p q
  · rw [if_neg (fun hc => h ⟨hgi.mp hc.1, hgj.mp hc.2⟩), if_neg h]
    exact h2 p q

theorem stampPassives_filter (map : Node → ℕ) (g : ℕ) (ni : ℕ → ℕ) :
    ∀ (l : List Component) (A : ℕ → ℕ → ℚ),
      stampPassives map g ni l A = stampPassives map g ni (l.filter (fun c => !c.isWire)) A
  | [], _ => rfl
  | Component.wire a b nm :: rest, A => stampPassives_filter map g ni rest A
  | Component.resistor a b R nm :: rest, A => stampPassives_filter map g ni rest _
  | Component.voltageSource a b v nm :: rest, A => stampPassives_filter map g ni rest A
  | Component.led a b rOn thr st nm :: rest, A => stampPassives_filter map g ni rest _

theorem vsList_filter :
    ∀ l : List Component, vsList l = vsList (l.filter (fun c => !c.isWire))
  | [] => rfl
  | Component.wire a b nm :: rest => vsList_filter rest
  | Component.resistor a b R nm :: rest => vsList_filter rest
  | Component.voltageSource a b v nm :: rest => by
    show (a, b, v, nm) :: vsList rest = (a, b, v, nm) :: vsList (rest.filter _)
    rw [vsList_filter rest]
  | Component.led a b rOn thr st nm :: rest => vsList_filter rest

theorem mem_vsList : ∀ {l : List Component} {a b : Node} {v : ℚ} {nm : String},
    (a, b, v, nm) ∈ vsList l → Component.voltageSource a b v nm ∈ l := by
  intro l
  induction l with
  | nil =>
    intro a b v nm h
    exact absurd h (List.not_mem_nil _)
  | cons c rest ih =>
    intro a b v nm h
    cases c with
    | voltageSource c d v2 n2 =>
      rcases List.mem_cons.mp h with he | hm
      · have h1 : a = c := congrArg (fun e => e.1) he
        have h2 : b = d := congrArg (fun e => e.2.1) he
        have h3 : v = v2 := congrArg (fun e => e.2.2.1) he
        have h4 : nm = n2 := congrArg (fun e => e.2.2.2) he
        subst h1
        subst h2
        subst h3
        subst h4
        exact List.mem_cons_self _ _
      · exact List.mem_cons_of_mem _ (ih hm)
    | wire c d n2 => exact List.mem_cons_of_mem _ (ih h)
    | resistor c d R n2 => exact List.mem_cons_of_mem _ (ih h)
    | led c d rOn thr st n2 => exact List.mem_cons_of_mem _ (ih h)

/-- Conjugating the conductance-stamping pass over a common component
list. -/
theorem stampPassives_conj {K g₁ g₂ : ℕ} {σf : ℕ → ℕ} (ctx : RelabCtx K g₁ g₂ σf)
    (hinj : Function.Injective (rhoIdx K g₁ g₂ σf))
    {map₁ map₂ : Node → ℕ} {ns : List Node}
    (hmap : ∀ n ∈ ns, map₂ n = σf (map₁ n))
    (hlt : ∀ n ∈ ns, map₁ n < K) :
    ∀ (l : List Component), (∀ c ∈ l, c.endA ∈ ns ∧ c.endB ∈ ns) →
      ∀ (A₁ A₂ : ℕ → ℕ → ℚ),
        (∀ p q, A₂ (rhoIdx K g₁ g₂ σf p) (rhoIdx K g₁ g₂ σf q) = A₁ p q) →
        ∀ p q, stampPassives map₂ g₂ (nodeIndex K g₂) l A₂
            (rhoIdx K g₁ g₂ σf p) (rhoIdx K g₁ g₂ σf q) =
          stampPassives map₁ g₁ (nodeIndex K g₁) l A₁ p q
  | [], _, A₁, A₂, hA => hA
  | Component.wire a b nm :: rest, hends, A₁, A₂, hA =>
    stampPassives_conj ctx hinj hmap hlt rest
      (fun c hc => hends c (List.mem_cons_of_mem _ hc)) A₁ A₂ hA
  | Component.voltageSource a b v nm :: rest, hends, A₁, A₂, hA =>
    stampPassives_conj ctx hinj hmap hlt rest
      (fun c hc => hends c (List.mem_cons_of_mem _ hc)) A₁ A₂ hA
  | Component.resistor a b R nm :: rest, hends, A₁, A₂, hA => by
    obtain ⟨ha, hb⟩ := hends (Component.resistor a b R nm) (List.mem_cons_self _ _)
    show ∀ p q, stampPassives map₂ g₂ (nodeIndex K g₂) rest
        (addConductance g₂ (nodeIndex K g₂) (map₂ a) (map₂ b) (qdiv (qofInt 1) R) A₂)
        (rhoIdx K g₁ g₂ σf p) (rhoIdx K g₁ g₂ σf q) = _
    rw [hmap a ha, hmap b hb]
    exact stampPassives_conj ctx hinj hmap hlt rest
      (fun c hc => hends c (List.mem_cons_of_mem _ hc)) _ _
      (addConductance_conj ctx hinj (hlt a ha) (hlt b hb) (qdiv (qofInt 1) R) A₁ A₂ hA)
  | Component.led a b rOn thr st nm :: rest, hends, A₁, A₂, hA => by
    obtain ⟨ha, hb⟩ := hends (Component.led a b rOn thr st nm) (List.mem_cons_self _ _)
    show ∀ p q, stampPassives map₂ g₂ (nodeIndex K g₂) rest
        (addConductance g₂ (nodeIndex K g₂) (map₂ a) (map₂ b)
          (qdiv (qofInt 1) (effectiveResistance rOn st)) A₂)
        (rhoIdx K g₁ g₂ σf p) (rhoIdx K g₁ g₂ σf q) = _
    rw [hmap a ha, hmap b hb]
    exact stampPassives_conj ctx hinj hmap hlt rest
      (fun c hc => hends c (List.mem_cons_of_mem _ hc)) _ _
      (addConductance_conj ctx hinj (hlt a ha) (hlt b hb)
        (qdiv (qofInt 1) (effectiveResistance rOn st)) A₁ A₂ hA)

/-- Conjugating the source-stamping pass over a common source list. -/
theorem stampSources_conj {K g₁ g₂ : ℕ} {σf : ℕ → ℕ} (ctx : RelabCtx K g₁ g₂ σf)
    (hinj : Function.Injective (rhoIdx K g₁ g₂ σf))
    {map₁ map₂ : Node → ℕ} {ns : List Node}
    (hmap : ∀ n ∈ ns, map₂ n = σf (map₁ n))
    (hlt : ∀ n ∈ ns, map₁ n < K) :
    ∀ (vsl : List (Node × Node × ℚ × String)) (k : ℕ)
      (A₁ A₂ : ℕ → ℕ → ℚ) (z₁ z₂ : ℕ → ℚ),
      (∀ e ∈ vsl, e.1 ∈ ns ∧ e.2.1 ∈ ns) →
      (∀ p q, A₂ (rhoIdx K g₁ g₂ σf p) (rhoIdx K g₁ g₂ σf q) = A₁ p q) →
      (∀ p, z₂ (rhoIdx K g₁ g₂ σf p) = z₁ p) →
      (∀ p q, (stampSources map₂ g₂ (nodeIndex K g₂) (K - 1) k vsl (A₂, z₂)).1
          (rhoIdx K g₁ g₂ σf p) (rhoIdx K g₁ g₂ σf q) =
        (stampSources map₁ g₁ (nodeIndex K g₁) (K - 1) k vsl (A₁, z₁)).1 p q) ∧
      (∀ p, (stampSources map₂ g₂ (nodeIndex K g₂) (K - 1) k vsl (A₂, z₂)).2
          (rhoIdx K g₁ g₂ σf p) =
        (stampSources map₁ g₁ (nodeIndex K g₁) (K - 1) k vsl (A₁, z₁)).2 p)
  | [], k, A₁, A₂, z₁, z₂, hends, hA, hz => ⟨hA, hz⟩
  | (a, b, v, nm) :: rest, k, A₁, A₂, z₁, z₂, hends, hA, hz => by
    obtain ⟨ha, hb⟩ := hends (a, b, v, nm) (List.mem_cons_self _ _)
    have hrow : K - 1 + k = rhoIdx K g₁ g₂ σf (K - 1 + k) :=
      (RelabCtx.rho_row (by omega)).symm
    have hma : map₂ a = σf (map₁ a) := hmap a ha
    have hmb : map₂ b = σf (map₁ b) := hmap b hb
    have hga : map₂ a ≠ g₂ ↔ map₁ a ≠ g₁ := by
      rw [hma]
      exact not_congr (ctx.σg_iff (hlt a ha))
    have hgb : map₂ b ≠ g₂ ↔ map₁ b ≠ g₁ := by
      rw [hmb]
      exact not_congr (ctx.σg_iff (hlt b hb))
    have hA1 : ∀ p q,
        (if map₂ a ≠ g₂ then
            updM (updM A₂ (K - 1 + k) (nodeIndex K g₂ (map₂ a)) (qofInt 1))
              (nodeIndex K g₂ (map₂ a)) (K - 1 + k) (qofInt 1)
          else A₂) (rhoIdx K g₁ g₂ σf p) (rhoIdx K g₁ g₂ σf q) =
        (if map₁ a ≠ g₁ then
            updM (updM A₁ (K - 1 + k) (nodeIndex K g₁ (map₁ a)) (qofInt 1))
              (nodeIndex K g₁ (map₁ a)) (K - 1 + k) (qofInt 1)
          else A₁) p q := by
      intro p q
      by_cases h : map₁ a ≠ g₁
      · rw [if_pos (hga.mpr h), if_pos h]
        have hin := updM_conj hinj A₁ A₂ hA (K - 1 + k) (nodeIndex K g₁ (map₁ a)) (qofInt 1)
        have hout := updM_conj hinj _ _ hin (nodeIndex K g₁ (map₁ a)) (K - 1 + k) (qofInt 1)
        rw [RelabCtx.rho_row (show K - 1 ≤ K - 1 + k by omega),
          ctx.rho_node (hlt a ha) h, ← hma] at hout
        exact hout p q
      · rw [if_neg (fun hc => h (hga.mp hc)), if_neg h]
        exact hA p q
    have hA2 : ∀ p q,
        (if map₂ b ≠ g₂ then
            updM (updM (if map₂ a ≠ g₂ then
                updM (updM A₂ (K - 1 + k) (nodeIndex K g₂ (map₂ a)) (qofInt 1))
                  (nodeIndex K g₂ (map₂ a)) (K - 1 + k) (qofInt 1)
              else A₂) (K - 1 + k) (nodeIndex K g₂ (map₂ b)) (qofInt (-1)))
              (nodeIndex K g₂ (map₂ b)) (K - 1 + k) (qofInt (-1))
          else (if map₂ a ≠ g₂ then
            updM (updM A₂ (K - 1 + k) (nodeIndex K g₂ (map₂ a)) (qofInt 1))
              (nodeIndex K g₂ (map₂ a)) (K - 1 + k) (qofInt 1)
          else A₂)) (rhoIdx K g₁ g₂ σf p) (rhoIdx K g₁ g₂ σf q) =
        (if map₁ b ≠ g₁ then
            updM (updM (if map₁ a ≠ g₁ then
                updM (updM A₁ (K - 1 + k) (nodeIndex K g₁ (map₁ a)) (qofInt 1))
                  (nodeIndex K g₁ (map₁ a)) (K - 1 + k) (qofInt 1)
              else A₁) (K - 1 + k) (nodeIndex K g₁ (map₁ b)) (qofInt (-1)))
              (nodeIndex K g₁ (map₁ b)) (K - 1 + k) (qofInt (-1))
          else (if map₁ a ≠ g₁ then
            updM (updM A₁ (K - 1 + k) (nodeIndex K g₁ (map₁ a)) (qofInt 1))
              (nodeIndex K g₁ (map₁ a)) (K - 1 + k) (qofInt 1)
          else A₁)) p q := by
      intro p q
      by_cases h : map₁ b ≠ g₁
      · rw [if_pos (hgb.mpr h), if_pos h]
        have hin := updM_conj hinj _ _ hA1 (K - 1 + k) (nodeIndex K g₁ (map₁ b)) (qofInt (-1))
        have hout := updM_conj hinj _ _ hin (nodeIndex K g₁ (map₁ b)) (K - 1 + k) (qofInt (-1))
        rw [RelabCtx.rho_row (show K - 1 ≤ K - 1 + k by omega),
          ctx.rho_node (hlt b hb) h, ← hmb] at hout
        exact hout p q
      · rw [if_neg (fun hc => h (hgb.mp hc)), if_neg h]
        exact hA1 p q
    have hz2 : ∀ p, updZ z₂ (K - 1 + k) v (rhoIdx K g₁ g₂ σf p) = updZ z₁ (K - 1 + k) v p := by
      intro p
      have hout := updZ_conj hinj z₁ z₂ hz (K - 1 + k) v
      rw [RelabCtx.rho_row (show K - 1 ≤ K - 1 + k by omega)] at hout
      exact hout p
    exact stampSources_conj ctx hinj hmap hlt rest (k + 1) _ _ _ _
      (fun e he => hends e (List.mem_cons_of_mem _ he)) hA2 hz2

/-- Conjugating the whole matrix assembly: wire-equivalent circuits with
relabel-compatible class mappings produce the same system up to the index
relabeling `rhoIdx`. -/
theorem buildMatrix_conj {K g₁ g₂ : ℕ} {σf : ℕ → ℕ} (ctx : RelabCtx K g₁ g₂ σf)
    (hinj : Function.Injective (rhoIdx K g₁ g₂ σf))
    {map₁ map₂ : Node → ℕ} {ns : List Node}
    (hmap : ∀ n ∈ ns, map₂ n = σf (map₁ n))
    (hlt : ∀ n ∈ ns, map₁ n < K)
    (comps₁ comps₂ : List Component)
    (hfilter : comps₂.filter (fun c => !c.isWire) = comps₁.filter (fun c => !c.isWire))
    (hends : ∀ c ∈ comps₁.filter (fun c => !c.isWire), c.endA ∈ ns ∧ c.endB ∈ ns) :
    (∀ p q, (buildMatrix comps₂ map₂ K g₂).1 (rhoIdx K g₁ g₂ σf p) (rhoIdx K g₁ g₂ σf q) =
      (buildMatrix comps₁ map₁ K g₁).1 p q) ∧
    (∀ p, (buildMatrix comps₂ map₂ K g₂).2 (rhoIdx K g₁ g₂ σf p) =
      (buildMatrix comps₁ map₁ K g₁).2 p) := by
  have hvs : vsList comps₂ = vsList comps₁ := by
    rw [vsList_filter comps₂, vsList_filter comps₁, hfilter]
  have hvsends : ∀ e ∈ vsList comps₁, e.1 ∈ ns ∧ e.2.1 ∈ ns := by
    rintro ⟨a, b, v, nm⟩ he
    have hc := mem_vsList he
    have hcf : Component.voltageSource a b v nm ∈ comps₁.filter (fun c => !c.isWire) :=
      List.mem_filter.mpr ⟨hc, by simp [Component.isWire]⟩
    exact hends _ hcf
  have hpass : ∀ p q,
      stampPassives map₂ g₂ (nodeIndex K g₂) comps₂ (fun _ _ => qofInt 0)
        (rhoIdx K g₁ g₂ σf p) (rhoIdx K g₁ g₂ σf q) =
      stampPassives map₁ g₁ (nodeIndex K g₁) comps₁ (fun _ _ => qofInt 0) p q := by
    rw [stampPassives_filter map₂ g₂ _ comps₂, stampPassives_filter map₁ g₁ _ comps₁, hfilter]
    exact stampPassives_conj ctx hinj hmap hlt (comps₁.filter (fun c => !c.isWire)) hends _ _
      (fun p q => rfl)
  have hmain := stampSources_conj ctx hinj hmap hlt (vsList comps₁) 0
    (stampPassives map₁ g₁ (nodeIndex K g₁) comps₁ (fun _ _ => qofInt 0))
    (stampPassives map₂ g₂ (nodeIndex K g₂) comps₂ (fun _ _ => qofInt 0))
    (fun _ => qofInt 0) (fun _ => qofInt 0)
    hvsends hpass (fun _ => rfl)
  constructor
  · intro p q
    show (stampSources map₂ g₂ (nodeIndex K g₂) (K - 1) 0 (vsList comps₂)
        (stampPassives map₂ g₂ (nodeIndex K g₂) comps₂ (fun _ _ => qofInt 0),
          fun _ => qofInt 0)).1 (rhoIdx K g₁ g₂ σf p) (rhoIdx K g₁ g₂ σf q) =
      (stampSources map₁ g₁ (nodeIndex K g₁) (K - 1) 0 (vsList comps₁)
        (stampPassives map₁ g₁ (nodeIndex K g₁) comps₁ (fun _ _ => qofInt 0),
          fun _ => qofInt 0)).1 p q
    rw [hvs]
    exact hmain.1 p q
  · intro p
    show (stampSources map₂ g₂ (nodeIndex K g₂) (K - 1) 0 (vsList comps₂)
        (stampPassives map₂ g₂ (nodeIndex K g₂) comps₂ (fun _ _ => qofInt 0),
          fun _ => qofInt 0)).2 (rhoIdx K g₁ g₂ σf p) =
      (stampSources map₁ g₁ (nodeIndex K g₁) (K - 1) 0 (vsList comps₁)
        (stampPassives map₁ g₁ (nodeIndex K g₁) comps₁ (fun _ _ => qofInt 0),
          fun _ => qofInt 0)).2 p
    rw [hvs]
    exact hmain.2 p

/-! ### Lockstep execution of the nonlinear loop -/

theorem ledStates_filter :
    ∀ l : List Component, ledStates l = ledStates (l.filter (fun c => !c.isWire))
  | [] => rfl
  | Component.wire a b nm :: rest => ledStates_filter rest
  | Component.resistor a b R nm :: rest => ledStates_filter rest
  | Component.voltageSource a b v nm :: rest => ledStates_filter rest
  | Component.led a b rOn thr st nm :: rest => by
    show st :: ledStates rest = st :: ledStates (rest.filter _)
    rw [ledStates_filter rest]

theorem updateLeds_filter (map : Node → ℕ) (V : ℕ → ℚ) :
    ∀ l : List Component, (updateLeds map V l).filter (fun c => !c.isWire) =
      updateLeds map V (l.filter (fun c => !c.isWire))
  | [] => rfl
  | Component.wire a b nm :: rest => updateLeds_filter map V rest
  | Component.resistor a b R nm :: rest => by
    show Component.resistor a b R nm :: (updateLeds map V rest).filter _ =
      Component.resistor a b R nm :: updateLeds map V (rest.filter _)
    rw [updateLeds_filter map V rest]
  | Component.voltageSource a b v nm :: rest => by
    show Component.voltageSource a b v nm :: (updateLeds map V rest).filter _ =
      Component.voltageSource a b v nm :: updateLeds map V (rest.filter _)
    rw [updateLeds_filter map V rest]
  | Component.led a b rOn thr st nm :: rest => by
    show Component.led a b rOn thr _ nm :: (updateLeds map V rest).filter _ =
      Component.led a b rOn thr _ nm :: updateLeds map V (rest.filter _)
    rw [updateLeds_filter map V rest]

/-- The LED update coincides on a common component list when the two
potential dictionaries agree through the relabeling. -/
theorem updateLeds_conj {K : ℕ} {σf : ℕ → ℕ}
    {map₁ map₂ : Node → ℕ} {ns : List Node}
    (hmap : ∀ n ∈ ns, map₂ n = σf (map₁ n))
    (hlt : ∀ n ∈ ns, map₁ n < K)
    {V₁ V₂ : ℕ → ℚ} (hV : ∀ c, c < K → V₂ (σf c) = V₁ c) :
    ∀ l : List Component, (∀ c ∈ l, c.endA ∈ ns ∧ c.endB ∈ ns) →
      updateLeds map₂ V₂ l = updateLeds map₁ V₁ l
  | [], _ => rfl
  | Component.wire a b nm :: rest, hends => by
    show Component.wire a b nm :: updateLeds map₂ V₂ rest = _
    rw [updateLeds_conj hmap hlt hV rest (fun c hc => hends c (List.mem_cons_of_mem _ hc))]
    rfl
  | Component.resistor a b R nm :: rest, hends => by
    show Component.resistor a b R nm :: updateLeds map₂ V₂ rest = _
    rw [updateLeds_conj hmap hlt hV rest (fun c hc => hends c (List.mem_cons_of_mem _ hc))]
    rfl
  | Component.voltageSource a b v nm :: rest, hends => by
    show Component.voltageSource a b v nm :: updateLeds map₂ V₂ rest = _
    rw [updateLeds_conj hmap hlt hV rest (fun c hc => hends c (List.mem_cons_of_mem _ hc))]
    rfl
  | Component.led a b rOn thr st nm :: rest, hends => by
    obtain ⟨ha, hb⟩ := hends (Component.led a b rOn thr st nm) (List.mem_cons_self _ _)
    show Component.led a b rOn thr
        (if qle thr (qsub (V₂ (map₂ a)) (V₂ (map₂ b))) then true else false) nm ::
      updateLeds map₂ V₂ rest = _
    rw [hmap a ha, hmap b hb, hV _ (hlt a ha), hV _ (hlt b hb),
      updateLeds_conj hmap hlt hV rest (fun c hc => hends c (List.mem_cons_of_mem _ hc))]
    rfl

/-- The class potentials agree through the relabeling when the raw solution
vectors do. -/
theorem classVolt_conj {K g₁ g₂ : ℕ} {σf : ℕ → ℕ} (ctx : RelabCtx K g₁ g₂ σf)
    {x₁ x₂ : List ℚ} {size : ℕ} (hKsz : K - 1 ≤ size)
    (hx : ∀ i, i < size → listGet x₂ (rhoIdx K g₁ g₂ σf i) = listGet x₁ i) :
    ∀ c, c < K → listGet (classVolt K g₂ x₂) (σf c) = listGet (classVolt K g₁ x₁) c := by
  intro c hc
  rw [classVolt, classVolt, listGet_map_natRange, listGet_map_natRange,
    if_pos (ctx.hσlt c hc), if_pos hc]
  by_cases hg : c = g₁
  · rw [if_pos ((ctx.σg_iff hc).mpr hg), if_pos hg]
  · rw [if_neg (fun h => hg ((ctx.σg_iff hc).mp h)), if_neg hg]
    rw [← ctx.rho_node hc hg]
    exact hx _ (lt_of_lt_of_le (nodeIndex_lt ctx.hg₁ hc hg) hKsz)

theorem vsList_mem : ∀ {l : List Component} {a b : Node} {v : ℚ} {nm : String},
    Component.voltageSource a b v nm ∈ l → (a, b, v, nm) ∈ vsList l := by
  intro l
  induction l with
  | nil =>
    intro a b v nm h
    exact absurd h (List.not_mem_nil _)
  | cons c rest ih =>
    intro a b v nm h
    rcases List.mem_cons.mp h with he | hm
    · rw [← he]
      exact List.mem_cons_self _ _
    · cases c with
      | voltageSource c d v2 n2 => exact List.mem_cons_of_mem _ (ih hm)
      | wire c d n2 => exact ih hm
      | resistor c d R n2 => exact ih hm
      | led c d rOn thr st n2 => exact ih hm

theorem solveStep_def (map : Node → ℕ) (K gIdx : ℕ) (comps : List Component) :
    solveStep map K gIdx comps =
      match linSolve ((K - 1) + (vsList comps).length) (buildMatrix comps map K gIdx).1
          (buildMatrix comps map K gIdx).2 with
      | none => none
      | some x => some (updateLeds map (fun cl => listGet (classVolt K gIdx x) cl) comps, x,
          classVolt K gIdx x) := rfl

/-- One loop-body iteration in lockstep: same solvability, and the outputs
agree through the relabeling. -/
theorem solveStep_conj {K g₁ g₂ : ℕ} {σf : ℕ → ℕ} (ctx : RelabCtx K g₁ g₂ σf)
    {map₁ map₂ : Node → ℕ} {ns : List Node}
    (hmap : ∀ n ∈ ns, map₂ n = σf (map₁ n))
    (hlt : ∀ n ∈ ns, map₁ n < K)
    (c₁ c₂ : List Component)
    (hfil : c₂.filter (fun c => !c.isWire) = c₁.filter (fun c => !c.isWire))
    (hends : ∀ c ∈ c₁.filter (fun c => !c.isWire), c.endA ∈ ns ∧ c.endB ∈ ns) :
    (solveStep map₂ K g₂ c₂ = none ↔ solveStep map₁ K g₁ c₁ = none) ∧
    ∀ r₁ r₂, solveStep map₁ K g₁ c₁ = some r₁ → solveStep map₂ K g₂ c₂ = some r₂ →
      r₂.1.filter (fun c => !c.isWire) = r₁.1.filter (fun c => !c.isWire) ∧
      ledStates r₂.1 = ledStates r₁.1 ∧
      (∀ i, i < (K - 1) + (vsList c₁).length →
        listGet r₂.2.1 (rhoIdx K g₁ g₂ σf i) = listGet r₁.2.1 i) ∧
      (∀ c, c < K → listGet r₂.2.2 (σf c) = listGet r₁.2.2 c) := by
  have hinj := ctx.rho_inj
  have hvs : vsList c₂ = vsList c₁ := by
    rw [vsList_filter c₂, vsList_filter c₁, hfil]
  have hsz : ∀ i, i < (K - 1) + (vsList c₁).length →
      rhoIdx K g₁ g₂ σf i < (K - 1) + (vsList c₁).length := by
    intro i hi
    by_cases h : i < K - 1
    · have := ctx.rho_lt h
      omega
    · rw [RelabCtx.rho_row (by omega)]
      exact hi
  obtain ⟨hAc, hzc⟩ := buildMatrix_conj ctx hinj hmap hlt c₁ c₂ hfil hends
  obtain ⟨hnone, hsome⟩ := linSolve_conj hinj hsz (buildMatrix c₁ map₁ K g₁).1
    (buildMatrix c₂ map₂ K g₂).1 (buildMatrix c₁ map₁ K g₁).2 (buildMatrix c₂ map₂ K g₂).2
    hAc hzc
  constructor
  · rw [solveStep_def, solveStep_def, hvs]
    rcases h2 : linSolve ((K - 1) + (vsList c₁).length) (buildMatrix c₂ map₂ K g₂).1
        (buildMatrix c₂ map₂ K g₂).2 with _ | x₂ <;>
      rcases h1 : linSolve ((K - 1) + (vsList c₁).length) (buildMatrix c₁ map₁ K g₁).1
        (buildMatrix c₁ map₁ K g₁).2 with _ | x₁
    · simp
    · rw [h2] at hnone
      rw [hnone.mp rfl] at h1
      exact absurd h1 (by simp)
    · rw [h1] at hnone
      rw [hnone.mpr rfl] at h2
      exact absurd h2 (by simp)
    · simp
  · intro r₁ r₂ hr₁ hr₂
    rw [solveStep_def] at hr₁ hr₂
    rw [hvs] at hr₂
    rcases h1 : linSolve ((K - 1) + (vsList c₁).length) (buildMatrix c₁ map₁ K g₁).1
        (buildMatrix c₁ map₁ K g₁).2 with _ | x₁
    · rw [h1] at hr₁
      exact absurd hr₁ (by simp)
    rcases h2 : linSolve ((K - 1) + (vsList c₁).length) (buildMatrix c₂ map₂ K g₂).1
        (buildMatrix c₂ map₂ K g₂).2 with _ | x₂
    · rw [h2] at hr₂
      exact absurd hr₂ (by simp)
    rw [h1] at hr₁
    rw [h2] at hr₂
    simp only [Option.some.injEq] at hr₁ hr₂
    have hx := hsome x₁ x₂ h1 h2
    have hvolt : ∀ c, c < K →
        listGet (classVolt K g₂ x₂) (σf c) = listGet (classVolt K g₁ x₁) c :=
      classVolt_conj ctx (by omega) hx
    have hulf : (updateLeds map₂ (fun cl => listGet (classVolt K g₂ x₂) cl) c₂).filter
          (fun c => !c.isWire) =
        (updateLeds map₁ (fun cl => listGet (classVolt K g₁ x₁) cl) c₁).filter
          (fun c => !c.isWire) := by
      rw [updateLeds_filter, updateLeds_filter, hfil]
      exact updateLeds_conj hmap hlt hvolt (c₁.filter (fun c => !c.isWire)) hends
    refine ⟨?_, ?_, ?_, ?_⟩
    · rw [← hr₁, ← hr₂]
      exact hulf
    · rw [← hr₁, ← hr₂]
      show ledStates (updateLeds map₂ _ c₂) = ledStates (updateLeds map₁ _ c₁)
      rw [ledStates_filter (updateLeds map₂ _ c₂), ledStates_filter (updateLeds map₁ _ c₁),
        hulf]
    · rw [← hr₁, ← hr₂]
      exact hx
    · rw [← hr₁, ← hr₂]
      exact hvolt

/-- The whole nonlinear loop in lockstep through the relabeling. -/
theorem solveLoop_conj {K g₁ g₂ : ℕ} {σf : ℕ → ℕ} (ctx : RelabCtx K g₁ g₂ σf)
    {map₁ map₂ : Node → ℕ} {ns : List Node}
    (hmap : ∀ n ∈ ns, map₂ n = σf (map₁ n))
    (hlt : ∀ n ∈ ns, map₁ n < K) :
    ∀ (fuel : ℕ) (c₁ c₂ : List Component) (last : Option (List Bool)) (iters : ℕ),
      c₂.filter (fun c => !c.isWire) = c₁.filter (fun c => !c.isWire) →
      (∀ x ∈ nodesOf c₁, x ∈ ns) →
      (solveLoop map₂ K g₂ fuel c₂ last iters = none ↔
        solveLoop map₁ K g₁ fuel c₁ last iters = none) ∧
      ∀ r₁ r₂, solveLoop map₁ K g₁ fuel c₁ last iters = some r₁ →
        solveLoop map₂ K g₂ fuel c₂ last iters = some r₂ →
        r₂.comps.filter (fun c => !c.isWire) = r₁.comps.filter (fun c => !c.isWire) ∧
        r₂.iters = r₁.iters ∧
        r₂.converged = r₁.converged ∧
        (∀ i, i < (K - 1) + (vsList c₁).length →
          listGet r₂.x (rhoIdx K g₁ g₂ σf i) = listGet r₁.x i) ∧
        (∀ c, c < K → listGet r₂.volt (σf c) = listGet r₁.volt c) := by
  intro fuel
  induction fuel with
  | zero =>
    intro c₁ c₂ last iters hfil hns
    constructor
    · exact Iff.rfl
    · intro r₁ r₂ h₁ _
      exact absurd h₁ (by simp [solveLoop])
  | succ f ih =>
    intro c₁ c₂ last iters hfil hns
    have hends : ∀ c ∈ c₁.filter (fun c => !c.isWire), c.endA ∈ ns ∧ c.endB ∈ ns := by
      intro c hc
      have hc1 := (List.mem_filter.mp hc).1
      obtain ⟨h1, h2⟩ := endpoints_mem_nodesOf hc1
      exact ⟨hns _ h1, hns _ h2⟩
    obtain ⟨hstep_none, hstep_some⟩ := solveStep_conj ctx hmap hlt c₁ c₂ hfil hends
    rw [solveLoop, solveLoop]
    rcases h1 : solveStep map₁ K g₁ c₁ with _ | ⟨comps₁', x₁, volt₁⟩
    · have h2 : solveStep map₂ K g₂ c₂ = none := hstep_none.mpr h1
      rw [h2]
      constructor
      · exact Iff.rfl
      · intro r₁ r₂ hr₁ _
        exact absurd hr₁ (by simp)
    · rcases h2 : solveStep map₂ K g₂ c₂ with _ | ⟨comps₂', x₂, volt₂⟩
      · have h3 := hstep_none.mp h2
        rw [h1] at h3
        exact absurd h3 (by simp)
      · obtain ⟨hfil', hst', hx', hvolt'⟩ := hstep_some _ _ h1 h2
        have hsk₁ := solveStep_skeleton h1
        have hvs₁ : vsList comps₁' = vsList c₁ := vsList_eq_of_skeleton hsk₁
        have hnodes₁ : nodesOf comps₁' = nodesOf c₁ := nodesOf_eq_of_skeleton hsk₁
        simp only
        rw [hst']
        by_cases hbreak : last = some (ledStates comps₁')
        · rw [if_pos hbreak, if_pos hbreak]
          constructor
          · simp
          · intro r₁ r₂ hr₁ hr₂
            have e₁ := Option.some.inj hr₁
            have e₂ := Option.some.inj hr₂
            rw [← e₁, ← e₂]
            exact ⟨hfil', rfl, rfl, hx', hvolt'⟩
        · rw [if_neg hbreak, if_neg hbreak]
          cases f with
          | zero =>
            constructor
            · simp
            · intro r₁ r₂ hr₁ hr₂
              have e₁ := Option.some.inj hr₁
              have e₂ := Option.some.inj hr₂
              rw [← e₁, ← e₂]
              exact ⟨hfil', rfl, rfl, hx', hvolt'⟩
          | succ f' =>
            obtain ⟨hrec_none, hrec_some⟩ := ih comps₁' comps₂' (some (ledStates comps₁'))
              (iters + 1) hfil' (fun x hx => hns x (hnodes₁ ▸ hx))
            constructor
            · exact hrec_none
            · intro r₁ r₂ hr₁ hr₂
              obtain ⟨ha, hb, hc, hd, he⟩ := hrec_some r₁ r₂ hr₁ hr₂
              refine ⟨ha, hb, hc, ?_, he⟩
              intro i hi
              exact hd i (by rw [hvs₁]; exact hi)

theorem extractCurrents_filter (all : List Component) (map : Node → ℕ) (N : ℕ)
    (Vc : ℕ → ℚ) (x : List ℚ) :
    ∀ (l : List Component) (d : List (String × ℚ)),
      extractCurrents all map N Vc x l d =
        extractCurrents all map N Vc x (l.filter (fun c => !c.isWire)) d
  | [], _ => rfl
  | Component.wire a b nm :: rest, d => extractCurrents_filter all map N Vc x rest d
  | Component.resistor a b R nm :: rest, d => extractCurrents_filter all map N Vc x rest _
  | Component.voltageSource a b v nm :: rest, d => extractCurrents_filter all map N Vc x rest _
  | Component.led a b rOn thr st nm :: rest, d => extractCurrents_filter all map N Vc x rest _

/-- The current extraction agrees on a common component list when both
sides' potentials, solution vectors and source sequences agree through the
relabeling. -/
theorem extractCurrents_conj {K g₁ g₂ : ℕ} {σf : ℕ → ℕ} (ctx : RelabCtx K g₁ g₂ σf)
    {map₁ map₂ : Node → ℕ} {ns : List Node}
    (hmap : ∀ n ∈ ns, map₂ n = σf (map₁ n))
    (hlt : ∀ n ∈ ns, map₁ n < K)
    (all₁ all₂ : List Component) (hvsall : vsList all₂ = vsList all₁)
    {volt₁ volt₂ : List ℚ}
    (hV : ∀ c, c < K → listGet volt₂ (σf c) = listGet volt₁ c)
    {x₁ x₂ : List ℚ}
    (hx : ∀ i, i < (K - 1) + (vsList all₁).length →
      listGet x₂ (rhoIdx K g₁ g₂ σf i) = listGet x₁ i) :
    ∀ (l : List Component),
      (∀ c ∈ l, c.endA ∈ ns ∧ c.endB ∈ ns) →
      (∀ a b v nm, Component.voltageSource a b v nm ∈ l → (a, b, v, nm) ∈ vsList all₁) →
      ∀ d, extractCurrents all₂ map₂ (K - 1) (fun cl => listGet volt₂ cl) x₂ l d =
        extractCurrents all₁ map₁ (K - 1) (fun cl => listGet volt₁ cl) x₁ l d
  | [], _, _, d => rfl
  | Component.wire a b nm :: rest, hends, hvsm, d =>
    extractCurrents_conj ctx hmap hlt all₁ all₂ hvsall hV hx rest
      (fun c hc => hends c (List.mem_cons_of_mem _ hc))
      (fun a b v nm h => hvsm a b v nm (List.mem_cons_of_mem _ h)) d
  | Component.resistor a b R nm :: rest, hends, hvsm, d => by
    obtain ⟨ha, hb⟩ := hends (Component.resistor a b R nm) (List.mem_cons_self _ _)
    show extractCurrents all₂ map₂ (K - 1) (fun cl => listGet volt₂ cl) x₂ rest
        (dwrite d nm (qdiv (qsub (listGet volt₂ (map₂ a)) (listGet volt₂ (map₂ b))) R)) = _
    rw [hmap a ha, hmap b hb, hV _ (hlt a ha), hV _ (hlt b hb)]
    exact extractCurrents_conj ctx hmap hlt all₁ all₂ hvsall hV hx rest
      (fun c hc => hends c (List.mem_cons_of_mem _ hc))
      (fun a b v nm h => hvsm a b v nm (List.mem_cons_of_mem _ h)) _
  | Component.led a b rOn thr st nm :: rest, hends, hvsm, d => by
    obtain ⟨ha, hb⟩ := hends (Component.led a b rOn thr st nm) (List.mem_cons_self _ _)
    show extractCurrents all₂ map₂ (K - 1) (fun cl => listGet volt₂ cl) x₂ rest
        (dwrite d nm
          (if qlt (effectiveResistance rOn st) (qofInt 100000000) then
            qdiv (qsub (listGet volt₂ (map₂ a)) (listGet volt₂ (map₂ b)))
              (effectiveResistance rOn st)
          else qofInt 0)) = _
    rw [hmap a ha, hmap b hb, hV _ (hlt a ha), hV _ (hlt b hb)]
    exact extractCurrents_conj ctx hmap hlt all₁ all₂ hvsall hV hx rest
      (fun c hc => hends c (List.mem_cons_of_mem _ hc))
      (fun a b v nm h => hvsm a b v nm (List.mem_cons_of_mem _ h)) _
  | Component.voltageSource a b v nm :: rest, hends, hvsm, d => by
    have hmemvs : (a, b, v, nm) ∈ vsList all₁ :=
      hvsm a b v nm (List.mem_cons_self _ _)
    have hidx : posOf (vsList all₁) (a, b, v, nm) < (vsList all₁).length :=
      posOf_lt_of_mem hmemvs
    show extractCurrents all₂ map₂ (K - 1) (fun cl => listGet volt₂ cl) x₂ rest
        (dwrite d nm (listGet x₂ (K - 1 + posOf (vsList all₂) (a, b, v, nm)))) = _
    rw [hvsall]
    have hval : listGet x₂ (K - 1 + posOf (vsList all₁) (a, b, v, nm)) =
        listGet x₁ (K - 1 + posOf (vsList all₁) (a, b, v, nm)) := by
      have := hx (K - 1 + posOf (vsList all₁) (a, b, v, nm)) (by omega)
      rwa [RelabCtx.rho_row (by omega)] at this
    rw [hval]
    exact extractCurrents_conj ctx hmap hlt all₁ all₂ hvsall hV hx rest
      (fun c hc => hends c (List.mem_cons_of_mem _ hc))
      (fun a b v nm h => hvsm a b v nm (List.mem_cons_of_mem _ h)) _

theorem computeLumps_lt {comps : List Component} {n : Node} (hn : n ∈ nodesOf comps) :
    (computeLumps comps).1 n < (computeLumps comps).2 := by
  show posOf (lumpRoots comps) (lumpRoot comps n) < (lumpRoots comps).length
  exact posOf_lt_of_mem (lumpRoot_mem hn)

theorem solverSolve_def (comps : List Component) (ground : Node) (maxIter : ℕ) :
    solverSolve comps ground maxIter =
      if ground ∈ nodesOf comps then
        match solveLoop (computeLumps comps).1 (computeLumps comps).2
            ((computeLumps comps).1 ground) maxIter comps none 0 with
        | none => none
        | some r =>
          some ⟨r.volt,
            extractCurrents r.comps (computeLumps comps).1 ((computeLumps comps).2 - 1)
              (fun cl => listGet r.volt cl) r.x r.comps [],
            r.comps, r.x, r.iters, r.converged⟩
      else none := rfl

/-- `Solver.solve` in lockstep between wire-equivalent circuits: same
failures, voltages identical class by class through the relabeling, and
identical current dictionaries. -/
theorem solverSolve_conj {comps comps' : List Component} (ground : Node) (maxIter : ℕ)
    (hnw : comps'.filter (fun c => !c.isWire) = comps.filter (fun c => !c.isWire))
    (hw : (wireNorms comps').Perm (wireNorms comps)) :
    (solverSolve comps' ground maxIter = none ↔ solverSolve comps ground maxIter = none) ∧
    ∀ r r', solverSolve comps ground maxIter = some r →
      solverSolve comps' ground maxIter = some r' →
      (∀ n ∈ nodesOf comps,
        listGet r'.volt ((computeLumps comps').1 n) =
          listGet r.volt ((computeLumps comps).1 n)) ∧
      r'.currents = r.currents := by
  obtain ⟨hK, σf, hσlt, hσinj, hσsurj, hmapc⟩ := computeLumps_relabel hnw hw
  by_cases hg : ground ∈ nodesOf comps
  · have hg' : ground ∈ nodesOf comps' := (mem_nodesOf_iff_of_rel hnw hw).mpr hg
    have hctx : RelabCtx (computeLumps comps).2 ((computeLumps comps).1 ground)
        ((computeLumps comps').1 ground) σf := by
      refine ⟨computeLumps_lt hg, ?_, hσlt, hσinj, hσsurj, (hmapc ground hg).symm⟩
      have := computeLumps_lt hg'
      rw [hK] at this
      exact this
    have hlt : ∀ n ∈ nodesOf comps, (computeLumps comps).1 n < (computeLumps comps).2 :=
      fun n hn => computeLumps_lt hn
    obtain ⟨hloop_none, hloop_some⟩ := solveLoop_conj hctx hmapc hlt maxIter comps comps'
      none 0 hnw (fun x hx => hx)
    rw [solverSolve_def comps, solverSolve_def comps', if_pos hg, if_pos hg']
    have hKrw : (computeLumps comps').2 = (computeLumps comps).2 := hK
    rw [hKrw]
    rcases hl1 : solveLoop (computeLumps comps).1 (computeLumps comps).2
        ((computeLumps comps).1 ground) maxIter comps none 0 with _ | rL
    · have hl2 := hloop_none.mpr hl1
      rw [hl2]
      constructor
      · exact Iff.rfl
      · intro r r' hr _
        exact absurd hr (by simp)
    · rcases hl2 : solveLoop (computeLumps comps').1 (computeLumps comps).2
          ((computeLumps comps').1 ground) maxIter comps' none 0 with _ | rL'
      · have := hloop_none.mp hl2
        rw [hl1] at this
        exact absurd this (by simp)
      · obtain ⟨hfilL, hitL, hconvL, hxL, hvoltL⟩ := hloop_some rL rL' hl1 hl2
        have hskL := solveLoop_skeleton hl1
        have hskL' := solveLoop_skeleton hl2
        have hvsL : vsList rL.comps = vsList comps := vsList_eq_of_skeleton hskL
        have hnodesL : nodesOf rL.comps = nodesOf comps := nodesOf_eq_of_skeleton hskL
        have hvsL2 : vsList rL'.comps = vsList rL.comps := by
          rw [vsList_filter rL'.comps, vsList_filter rL.comps, hfilL]
        have hcur : extractCurrents rL'.comps (computeLumps comps').1
              ((computeLumps comps).2 - 1) (fun cl => listGet rL'.volt cl) rL'.x rL'.comps [] =
            extractCurrents rL.comps (computeLumps comps).1
              ((computeLumps comps).2 - 1) (fun cl => listGet rL.volt cl) rL.x rL.comps [] := by
          rw [extractCurrents_filter rL'.comps _ _ _ _ rL'.comps,
            extractCurrents_filter rL.comps _ _ _ _ rL.comps, hfilL]
          refine extractCurrents_conj hctx hmapc hlt rL.comps rL'.comps hvsL2 hvoltL ?_
            (rL.comps.filter (fun c => !c.isWire)) ?_ ?_ []
          · intro i hi
            refine hxL i ?_
            rw [← hvsL]
            exact hi
          · intro c hc
            obtain ⟨h1, h2⟩ := endpoints_mem_nodesOf ((List.mem_filter.mp hc).1)
            rw [hnodesL] at h1 h2
            exact ⟨h1, h2⟩
          · intro a b v nm h
            exact vsList_mem ((List.mem_filter.mp h).1)
        constructor
        · constructor
          · intro h
            exact absurd h (by simp)
          · intro h
            exact absurd h (by simp)
        · intro r r' hr hr'
          have e₁ := Option.some.inj hr
          have e₂ := Option.some.inj hr'
          rw [← e₁, ← e₂]
          constructor
          · intro n hn
            show listGet rL'.volt ((computeLumps comps').1 n) =
              listGet rL.volt ((computeLumps comps).1 n)
            rw [hmapc n hn]
            exact hvoltL _ (hlt n hn)
          · exact hcur
  · have hg' : ground ∉ nodesOf comps' := fun h => hg ((mem_nodesOf_iff_of_rel hnw hw).mp h)
    rw [solverSolve_def comps, solverSolve_def comps', if_neg hg, if_neg hg']
    constructor
    · exact Iff.rfl
    · intro r r' hr _
      exact absurd hr (by simp)

/-- A circuit whose wires `compute_lumps` must merge: a 5 V source, two
wires and a 100 Ω resistor in a loop. -/
def c8compsA : List Component :=
  [Component.voltageSource (1, 0) (0, 0) (qofInt 5) "V1",
   Component.wire (1, 0) (2, 0) "W1",
   Component.resistor (2, 0) (3, 0) (qofInt 100) "R1",
   Component.wire (3, 0) (0, 0) "W2"]

/-- The same circuit with the two wires added in the opposite order and each
wire's endpoint arguments swapped. -/
def c8compsB : List Component :=
  [Component.voltageSource (1, 0) (0, 0) (qofInt 5) "V1",
   Component.wire (0, 0) (3, 0) "W2",
   Component.resistor (2, 0) (3, 0) (qofInt 100) "R1",
   Component.wire (2, 0) (1, 0) "W1"]

/-- **C8.** Swapping the endpoint arguments of wires and/or reordering the
wire components (same non-wire component sequence, same multiset of
undirected wire edges) yields the same number of equivalence classes, class
mappings that agree up to a bijective index relabeling, and — for every
ground and iteration cap — the same solve failures, identical solved
voltages at every node, and an identical current dictionary. -/
theorem c8_wire_merge_invariance (comps comps' : List Component) (ground : Node)
    (maxIter : ℕ)
    (hnw : comps'.filter (fun c => !c.isWire) = comps.filter (fun c => !c.isWire))
    (hw : (wireNorms comps').Perm (wireNorms comps)) :
    (computeLumps comps').2 = (computeLumps comps).2 ∧
    (∃ relab : ℕ → ℕ,
      (∀ i, i < (computeLumps comps).2 → relab i < (computeLumps comps).2) ∧
      (∀ i j, i < (computeLumps comps).2 → j < (computeLumps comps).2 →
        relab i = relab j → i = j) ∧
      (∀ j, j < (computeLumps comps).2 → ∃ i, i < (computeLumps comps).2 ∧ relab i = j) ∧
      (∀ n ∈ nodesOf comps, (computeLumps comps').1 n = relab ((computeLumps comps).1 n))) ∧
    (solverSolve comps' ground maxIter = none ↔ solverSolve comps ground maxIter = none) ∧
    ∀ r r', solverSolve comps ground maxIter = some r →
      solverSolve comps' ground maxIter = some r' →
      (∀ n ∈ nodesOf comps,
        listGet r'.volt ((computeLumps comps').1 n) =
          listGet r.volt ((computeLumps comps).1 n)) ∧
      r'.currents = r.currents := by
  obtain ⟨hK, σf, h1, h2, h3, h4⟩ := computeLumps_relabel hnw hw
  obtain ⟨h5, h6⟩ := solverSolve_conj ground maxIter hnw hw
  exact ⟨hK, ⟨σf, h1, h2, h3, h4⟩, h5, h6⟩

theorem c8_wire_merge_invariance_witness :
    (c8compsB.filter (fun c => !c.isWire) = c8compsA.filter (fun c => !c.isWire)) ∧
    (wireNorms c8compsB).Perm (wireNorms c8compsA) ∧
    ((computeLumps c8compsB).2 = (computeLumps c8compsA).2 ∧
    (∃ relab : ℕ → ℕ,
      (∀ i, i < (computeLumps c8compsA).2 → relab i < (computeLumps c8compsA).2) ∧
      (∀ i j, i < (computeLumps c8compsA).2 → j < (computeLumps c8compsA).2 →
        relab i = relab j → i = j) ∧
      (∀ j, j < (computeLumps c8compsA).2 →
        ∃ i, i < (computeLumps c8compsA).2 ∧ relab i = j) ∧
      (∀ n ∈ nodesOf c8compsA,
        (computeLumps c8compsB).1 n = relab ((computeLumps c8compsA).1 n))) ∧
    (solverSolve c8compsB (0, 0) 10 = none ↔ solverSolve c8compsA (0, 0) 10 = none) ∧
    ∀ r r', solverSolve c8compsA (0, 0) 10 = some r →
      solverSolve c8compsB (0, 0) 10 = some r' →
      (∀ n ∈ nodesOf c8compsA,
        listGet r'.volt ((computeLumps c8compsB).1 n) =
          listGet r.volt ((computeLumps c8compsA).1 n)) ∧
      r'.currents = r.currents) :=
  ⟨by decide, by decide,
    c8_wire_merge_invariance c8compsA c8compsB (0, 0) 10 (by decide) (by decide)⟩

end CircuitSim
